import Mathlib

/-!
go-xaddy-config: schema definitions and node evaluation.

A shallow embedding of the packages `schema/args`, `schema/values` and
`schema/nodes`.

Conventions of the embedding

* A Go `error` is its message: `Option String`, `none` being `nil`.
* The memory that `Value` targets and handlers write to is an explicit state
  of an arbitrary type `σ`; a call that may write takes the state and yields an
  `Outcome σ`.
* A Go panic (raised by `addArgs`, by an out-of-range slice expression, or by a
  callee) is a separate outcome, never a returned error.
* `[]*DirectiveDef` and `[]*BlockDef` hold pointers; they are addresses into a
  `Schema`, so that a definition may be changed after it was registered and a
  block may even be registered inside its own container.
* The `cfg any` parameter of `Evaluate` and `EvaluateTree` is passed along and
  never read by the source; it is left out.
-/

namespace Xaddy

/-! ## The input tree (`parser.Node`) -/

/-- One node of the already tokenized configuration tree. -/
structure Node where
  Name : String
  Args : List String
  Children : List Node
  File : String
  Line : Int

/-! ## Outcomes of calls -/

/-- What a call that may write to the state does: it returns an error value
(`none` for `nil`) together with the state it leaves, or it panics. -/
inductive Outcome (σ : Type) where
  | ret (err : Option String) (st : σ)
  | panic (msg : String)

/-! ## `schema/values` -/

/-- The interface `values.Value`: `Set(string) error` and `String() string`
(here `Str`), both reading or writing the backing storage held in the state. -/
structure Value (σ : Type) where
  Set : String → σ → Outcome σ
  Str : σ → String

/-- The function `values.SetList`: `Set` on every string in order, returning at
the first error. -/
def SetList {σ : Type} (a : Value σ) : List String → σ → Outcome σ
  | [], s => .ret none s
  | value :: rest, s =>
    match a.Set value s with
    | .ret (some err) s1 => .ret (some err) s1
    | .ret none s1 => SetList a rest s1
    | .panic msg => .panic msg

/-- A pointer to a slice of `T` kept in the state: reading it, overwriting it,
and the fact that a read after a write sees what was written. -/
structure SliceRef (σ T : Type) where
  get : σ → List T
  put : List T → σ → σ
  get_put : ∀ (l : List T) (s : σ), get (put l s) = l

/-- The struct `values.Accumulator`. `element` is the factory applied to a
pointer to one element, that is a `Value` whose state is that element; `zero`
is the element `reflect.New(a.typ)` points to. -/
structure Accumulator (σ T : Type) where
  element : Value T
  zero : T
  slice : SliceRef σ T

/-- The method `Accumulator.Set`: parse into a fresh element, return the error
if there is one, otherwise append the element to the slice. -/
def Accumulator.Set {σ T : Type} (a : Accumulator σ T) (value : String) (s : σ) : Outcome σ :=
  match a.element.Set value a.zero with
  | .ret (some err) _ => .ret (some err) s
  | .ret none e => .ret none (a.slice.put (a.slice.get s ++ [e]) s)
  | .panic msg => .panic msg

/-- The method `Accumulator.String` (here `Str`): the renderings of the
elements joined by a comma. -/
def Accumulator.Str {σ T : Type} (a : Accumulator σ T) (s : σ) : String :=
  ",".intercalate ((a.slice.get s).map a.element.Str)

/-- An accumulator used as a `Value`. -/
def Accumulator.toValue {σ T : Type} (a : Accumulator σ T) : Value σ :=
  { Set := a.Set, Str := a.Str }

/-! ## `schema/args` -/

/-- The type `args.ArgAttribute` (an `int`). -/
abbrev ArgAttribute := Int

/-- The constant `args.Optional`. -/
def Optional : ArgAttribute := 0

/-- The struct `args.ArgDef`. -/
structure ArgDef (σ : Type) where
  name : String
  target : Value σ
  valType : Int
  required : Bool
  variadic : Bool

/-- The function `args.NewArgDef`: required unless `Optional` is among the
attributes. -/
def NewArgDef {σ : Type} (target : Value σ) (t : Int) (attributes : List ArgAttribute) : ArgDef σ :=
  attributes.foldl
    (fun arg attr => if attr = Optional then { arg with required := false } else arg)
    { name := "", target := target, valType := t, required := true, variadic := false }

/-- The function `args.NewVariadicArgDef`. -/
def NewVariadicArgDef {σ : Type} (target : Value σ) (t : Int) (attributes : List ArgAttribute) :
    ArgDef σ :=
  { NewArgDef target t attributes with variadic := true }

/-! ## `schema/nodes`: definitions -/

/-- The type `nodes.NodeHandler`. -/
abbrev NodeHandler (σ : Type) := Node → σ → Outcome σ

/-- The struct `nodes.CommonDef`; `handler = none` is the `nil` handler. -/
structure CommonDef (σ : Type) where
  name : String
  args : List (ArgDef σ)
  minArgs : Int
  maxArgs : Int
  handler : Option (NodeHandler σ)
  repeatable : Bool

/-- The value `CommonDef{name: name}`: every other field zero. -/
def CommonDef.new {σ : Type} (name : String) : CommonDef σ :=
  { name := name, args := [], minArgs := 0, maxArgs := 0, handler := none, repeatable := false }

/-- The loop of `CommonDef.addArgs`, at index `i` of an argument list of
length `n`, with the remaining arguments, the flag `beginOptional` and the
definition as changed so far. An `error` is the message of the panic. -/
def addArgsLoop {σ : Type} (n : Nat) :
    Nat → List (ArgDef σ) → Bool → CommonDef σ → Except String (CommonDef σ)
  | _, [], _, d => .ok d
  | i, arg :: rest, beginOptional, d =>
    if arg.required && beginOptional then
      .error ("node '" ++ d.name ++ "': required argument "
        ++ toString (d.args.length + i + 1) ++ " follows optional argument(s)")
    else
      let d1 := if arg.required then { d with minArgs := d.minArgs + 1 } else d
      if arg.variadic && i + 1 != n then
        .error ("node '" ++ d.name ++ "': variadic argument is not the last one")
      else
        let d2 := if arg.variadic then { d1 with maxArgs := -1 }
                  else { d1 with maxArgs := d1.maxArgs + 1 }
        let d3 := { d2 with args := d2.args ++ [arg] }
        addArgsLoop n (i + 1) rest (beginOptional || !arg.required) d3

/-- The method `CommonDef.addArgs`; `beginOptional` starts out false on every
call. -/
def CommonDef.addArgs {σ : Type} (d : CommonDef σ) (args : List (ArgDef σ)) :
    Except String (CommonDef σ) :=
  addArgsLoop args.length 0 args false d

/-- The struct `nodes.DirectiveDef`. -/
structure DirectiveDef (σ : Type) extends CommonDef σ

/-- The function `nodes.NewDirectiveDef`. -/
def NewDirectiveDef {σ : Type} (name : String) (args : List (ArgDef σ)) :
    Except String (DirectiveDef σ) :=
  ((CommonDef.new name).addArgs args).map DirectiveDef.mk

/-- The method `DirectiveDef.AddArgs`. -/
def DirectiveDef.AddArgs {σ : Type} (d : DirectiveDef σ) (args : List (ArgDef σ)) :
    Except String (DirectiveDef σ) :=
  (d.toCommonDef.addArgs args).map DirectiveDef.mk

/-- The method `DirectiveDef.SetHandler`. -/
def DirectiveDef.SetHandler {σ : Type} (d : DirectiveDef σ) (cb : Option (NodeHandler σ)) :
    DirectiveDef σ :=
  { d with handler := cb }

/-- The struct `nodes.NodesContainer`: the addresses of the registered
directive and block definitions, in registration order. -/
structure NodesContainer where
  Directives : List Nat
  Blocks : List Nat

/-- The struct `nodes.BlockDef`. -/
structure BlockDef (σ : Type) extends CommonDef σ, NodesContainer

/-- The function `nodes.NewBlockDef`. -/
def NewBlockDef {σ : Type} (name : String) (args : List (ArgDef σ)) :
    Except String (BlockDef σ) :=
  ((CommonDef.new name).addArgs args).map
    (fun c => { toCommonDef := c, Directives := [], Blocks := [] })

/-- The definitions the pointers of a container refer to. -/
structure Schema (σ : Type) where
  directive : Nat → DirectiveDef σ
  block : Nat → BlockDef σ

/-! ## `schema/nodes`: errors and evaluation -/

/-- The function `nodes.NodeErr` applied to the formatted message: prefixed by
file and line when the file is known. -/
def NodeErr (node : Node) (msg : String) : String :=
  if node.File = "" then msg
  else node.File ++ ":" ++ toString node.Line ++ ": " ++ msg

/-- The binding loop of `evaluate` (`for i, arg := range d.Args()`), at index
`i` with the remaining argument definitions. The errors of `Set` and `SetList`
are dropped, as in the source; slicing `node.Args[i:]` beyond the length
panics. -/
def bindArgs {σ : Type} (nodeArgs : List String) : Nat → List (ArgDef σ) → σ → Outcome σ
  | _, [], s => .ret none s
  | i, arg :: rest, s =>
    if arg.variadic then
      if i ≤ nodeArgs.length then
        match SetList arg.target (nodeArgs.drop i) s with
        | .ret _ s1 => .ret none s1
        | .panic msg => .panic msg
      else
        .panic ("runtime error: slice bounds out of range [" ++ toString i ++ ":"
          ++ toString nodeArgs.length ++ "]")
    else if h : i < nodeArgs.length then
      match arg.target.Set nodeArgs[i] s with
      | .ret _ s1 => bindArgs nodeArgs (i + 1) rest s1
      | .panic msg => .panic msg
    else
      bindArgs nodeArgs (i + 1) rest s

/-- The function `nodes.evaluate`. -/
def evaluate {σ : Type} (d : CommonDef σ) (node : Node) (s : σ) : Outcome σ :=
  if node.Name != d.name then
    .ret (some ("node '" ++ node.Name ++ "' is not allowed here")) s
  else if (node.Args.length : Int) < d.minArgs then
    .ret (some (NodeErr node ("directive '" ++ d.name ++ "' expects at least "
      ++ toString d.minArgs ++ " arguments"))) s
  else if d.maxArgs != -1 && (node.Args.length : Int) > d.maxArgs then
    .ret (some (NodeErr node ("directive '" ++ d.name ++ "' expects a maximum of "
      ++ toString d.maxArgs ++ " arguments"))) s
  else
    match bindArgs node.Args 0 d.args s with
    | .panic msg => .panic msg
    | .ret _ s1 =>
      match d.handler with
      | some h => h node s1
      | none => .ret none s1

/-- The method `DirectiveDef.Evaluate`. -/
def DirectiveDef.Evaluate {σ : Type} (d : DirectiveDef σ) (node : Node) (s : σ) : Outcome σ :=
  if node.Children.length != 0 then
    .ret (some (NodeErr node ("node '" ++ node.Name ++ "' may not be a block"))) s
  else
    evaluate d.toCommonDef node s

/-- The two loops over the definitions of one level either go on, with the
names used so far and the state, or make `EvaluateTree` return at once. -/
inductive Walk (σ : Type) where
  | next (used : List String) (st : σ)
  | stop (out : Outcome σ)

/-- The body shared by the two loops over the definitions of one level of
`EvaluateTree`, for one node and the remaining definitions: `kind` is
"directive" or "block" and `eval d` is `d.Evaluate(node, cfg)`. -/
def walkDefs {σ δ : Type} (kind : String) (name : δ → String) (repeatable : δ → Bool)
    (eval : δ → σ → Outcome σ) (node : Node) :
    List δ → List String → σ → Walk σ
  | [], used, s => .next used s
  | d :: rest, used, s =>
    if node.Name == name d then
      if !repeatable d && used.contains node.Name then
        .stop (.ret (some (NodeErr node (kind ++ " '" ++ node.Name ++ "' may not be repeated"))) s)
      else
        match eval d s with
        | .ret none s1 => walkDefs kind name repeatable eval node rest (node.Name :: used) s1
        | out => .stop out
    else
      walkDefs kind name repeatable eval node rest used s

mutual
/-- The loop `for _, node := range nodes` of `EvaluateTree`, with the used
names of the directives and of the blocks. -/
def walkNodes {σ : Type} (H : Schema σ) (nc : NodesContainer) :
    List Node → List String → List String → σ → Outcome σ
  | [], _, _, s => .ret none s
  | node :: rest, usedDirectives, usedBlocks, s =>
    match walkDefs "directive" (fun d => d.name) (fun d => d.repeatable)
        (fun d t => d.Evaluate node t) node (nc.Directives.map H.directive) usedDirectives s with
    | .stop out => out
    | .next usedDirectives1 s1 =>
      match walkDefs "block" (fun d => d.name) (fun d => d.repeatable)
          (fun d t => BlockDef.Evaluate H d node t) node (nc.Blocks.map H.block) usedBlocks s1 with
      | .stop out => out
      | .next usedBlocks1 s2 => walkNodes H nc rest usedDirectives1 usedBlocks1 s2

/-- The method `BlockDef.Evaluate`. -/
def BlockDef.Evaluate {σ : Type} (H : Schema σ) (d : BlockDef σ) : Node → σ → Outcome σ
  | ⟨name, args, cs, file, line⟩, s =>
    match evaluate d.toCommonDef ⟨name, args, cs, file, line⟩ s with
    | .ret none s1 => walkNodes H d.toNodesContainer cs [] [] s1
    | out => out
end

/-- The method `NodesContainer.EvaluateTree`: both sets of used names start
out empty on every call. -/
def NodesContainer.EvaluateTree {σ : Type} (H : Schema σ) (nc : NodesContainer)
    (nodes : List Node) (s : σ) : Outcome σ :=
  walkNodes H nc nodes [] [] s

/-! ## `schema/nodes`: module blocks -/

/-- A pointer to a string variable kept in the state: reading it, overwriting
it, and the fact that a read after a write sees what was written. -/
structure StringRef (σ : Type) where
  get : σ → String
  put : String → σ → σ
  get_put : ∀ (x : String) (s : σ), get (put x s) = x

/-- The struct `nodes.ModuleBlockDef`. The map `modules` is a partial function
of the module name; `moduleName = none` is the nil pointer. -/
structure ModuleBlockDef (σ : Type) extends CommonDef σ where
  modules : String → Option NodesContainer
  moduleName : Option (StringRef σ)

/-- The function `nodes.NewModuleBlockDef`. The source of the generated
constructor `args.StringArg` is not among the files; it is the parameter
`stringArg`, applied to the pointer it is given and to no attribute. The
field `moduleName` is never assigned, so the pointer is nil. -/
def NewModuleBlockDef {σ : Type}
    (stringArg : Option (StringRef σ) → List ArgAttribute → ArgDef σ) (name : String) :
    Except String (ModuleBlockDef σ) :=
  let d : ModuleBlockDef σ :=
    { toCommonDef := CommonDef.new name, modules := fun _ => none, moduleName := none }
  (d.toCommonDef.addArgs [stringArg d.moduleName []]).map
    (fun c => { d with toCommonDef := c })

/-- The method `ModuleBlockDef.WithArgs`. -/
def ModuleBlockDef.WithArgs {σ : Type} (d : ModuleBlockDef σ) (args : List (ArgDef σ)) :
    Except String (ModuleBlockDef σ) :=
  (d.toCommonDef.addArgs args).map (fun c => { d with toCommonDef := c })

/-- The method `ModuleBlockDef.Evaluate`: `evaluate`, then the lookup of
`*d.moduleName` in the map, then `EvaluateTree` of the container found. -/
def ModuleBlockDef.Evaluate {σ : Type} (H : Schema σ) (d : ModuleBlockDef σ) (node : Node)
    (s : σ) : Outcome σ :=
  match evaluate d.toCommonDef node s with
  | .ret none s1 =>
    match d.moduleName with
    | none => .panic "runtime error: invalid memory address or nil pointer dereference"
    | some p =>
      match d.modules (p.get s1) with
      | none => .ret (some (NodeErr node ("unknown module '" ++ p.get s1 ++ "'"))) s1
      | some m => m.EvaluateTree H node.Children s1
  | out => out

/-! ## `schema/nodes`: attributes and registration -/

/-- The type `nodes.NodeAttribute` (an `int`). -/
abbrev NodeAttribute := Int

/-- The constant `nodes.Repeatable`, the first of its `iota` block. -/
def Repeatable : NodeAttribute := 0

/-- The method `DirectiveDef.SetAttrs`: `Repeatable` among the attributes sets
the flag, any other attribute changes nothing. -/
def DirectiveDef.SetAttrs {σ : Type} (d : DirectiveDef σ) (attributes : List NodeAttribute) :
    DirectiveDef σ :=
  attributes.foldl
    (fun e attr => if attr = Repeatable then { e with repeatable := true } else e) d

/-- The definitions after the directive definition at address `p` has been
written. -/
def Schema.storeDirective {σ : Type} (H : Schema σ) (p : Nat) (d : DirectiveDef σ) : Schema σ :=
  { H with directive := fun q => if q = p then d else H.directive q }

/-- The method `NodesContainer.AddDirective`: the pointers are appended. -/
def NodesContainer.AddDirective (nc : NodesContainer) (directives : List Nat) : NodesContainer :=
  { nc with Directives := nc.Directives ++ directives }

/-- The method `NodesContainer.DefineDirectiveCallback`. The new definition is
allocated at address `p`; the result is the definition, the definitions in
memory and the container. An `error` is the message of a panic of
`NewDirectiveDef`. -/
def NodesContainer.DefineDirectiveCallback {σ : Type} (H : Schema σ) (nc : NodesContainer)
    (p : Nat) (name : String) (cb : Option (NodeHandler σ)) :
    Except String (DirectiveDef σ × Schema σ × NodesContainer) :=
  match NewDirectiveDef name [] with
  | .error msg => .error msg
  | .ok d0 =>
    let d1 := d0.SetHandler cb
    let d2 : DirectiveDef σ := { d1 with maxArgs := -1 }
    .ok (d2, H.storeDirective p d2, nc.AddDirective [p])

/-! ## Package `config`: argument count helpers -/

/-- The function `config.ExpectMaxArgN`; the result is the returned error,
`none` for `nil`. The verbs `%d` and `%s` render the integers in decimal and
the name as it is. -/
def ExpectMaxArgN (node : Node) (num : Int) : Option String :=
  if (node.Args.length : Int) > num then
    some (NodeErr node ("expected at most " ++ toString num ++ " arguments to " ++ node.Name
      ++ ", got " ++ toString node.Args.length))
  else none

/-- The function `config.ExpectMinArgN`. -/
def ExpectMinArgN (node : Node) (num : Int) : Option String :=
  if (node.Args.length : Int) < num then
    some (NodeErr node ("expected at least " ++ toString num ++ " arguments to " ++ node.Name
      ++ ", got " ++ toString node.Args.length))
  else none

/-! ## Argument-list construction -/

/-- Some required argument stands after an optional one. -/
def RequiredAfterOptional {σ : Type} (args : List (ArgDef σ)) : Prop :=
  ∃ (i j : Nat) (a b : ArgDef σ), i < j ∧ args[i]? = some a ∧ args[j]? = some b ∧
    a.required = false ∧ b.required = true

/-- Some variadic argument is not the last element. -/
def VariadicNotLast {σ : Type} (args : List (ArgDef σ)) : Prop :=
  ∃ (i : Nat) (a : ArgDef σ), args[i]? = some a ∧ a.variadic = true ∧ i + 1 < args.length

/-! ## Words of the specification about evaluation -/

/-- The `Set` method of a `Value` returns, with or without an error, whatever
the text and the state are: it never panics. -/
abbrev Value.Returns {σ : Type} (v : Value σ) : Prop :=
  ∀ (x : String) (s : σ), ∃ e s1, v.Set x s = .ret e s1

/-- A run of `Set` calls, one for every pair of a target and a text, in list
order and on the state the previous call left. The returned errors are not
looked at; a panic ends the run. -/
def setEach {σ : Type} : List (Value σ × String) → σ → Outcome σ
  | [], s => .ret none s
  | (v, x) :: rest, s =>
    match v.Set x s with
    | .ret _ s1 => setEach rest s1
    | .panic msg => .panic msg

/-- What follows the binding of the arguments: one call of the handler, if
there is one, with the node and the state that the binding left; its outcome
is the outcome of the evaluation. -/
def thenHandler {σ : Type} (d : CommonDef σ) (node : Node) : Outcome σ → Outcome σ
  | .panic msg => .panic msg
  | .ret _ s1 =>
    match d.handler with
    | some h => h node s1
    | none => .ret none s1

/-! ## Words of the specification about the walk of a sibling list -/

/-- The evaluation of the nodes of a list one after the other, each on the
state the one before it left, ending at the first that does not return
`nil`. -/
def evalEach {σ : Type} (eval : Node → σ → Outcome σ) : List Node → σ → Outcome σ
  | [], s => .ret none s
  | n :: rest, s =>
    match eval n s with
    | .ret none s1 => evalEach eval rest s1
    | out => out

/-- A number of calls of `f` in succession, each on the state the one before
it left, ending at the first that does not return `nil`. -/
def repeatCall {σ : Type} (f : σ → Outcome σ) : Nat → σ → Outcome σ
  | 0, s => .ret none s
  | n + 1, s =>
    match f s with
    | .ret none s1 => repeatCall f n s1
    | out => out

/-- The loop of `EvaluateTree` over the definitions of one level returns
through its repetition check: it reaches a definition with the name of the
node, not repeatable, while the name is marked used. Same arguments and same
course as `walkDefs`. -/
def walkDefsRepeats {σ δ : Type} (name : δ → String) (repeatable : δ → Bool)
    (eval : δ → σ → Outcome σ) (node : Node) :
    List δ → List String → σ → Bool
  | [], _, _ => false
  | d :: rest, used, s =>
    if node.Name == name d then
      if !repeatable d && used.contains node.Name then
        true
      else
        match eval d s with
        | .ret none s1 => walkDefsRepeats name repeatable eval node rest (node.Name :: used) s1
        | _ => false
    else
      walkDefsRepeats name repeatable eval node rest used s

/-- The index of the node of a sibling list at which the loop of
`EvaluateTree` returns through a repetition check, if it does. Same arguments
and same course as `walkNodes`. -/
def repeatedAt {σ : Type} (H : Schema σ) (nc : NodesContainer) :
    List Node → List String → List String → σ → Option Nat
  | [], _, _, _ => none
  | node :: rest, usedDirectives, usedBlocks, s =>
    match walkDefs "directive" (fun d => d.name) (fun d => d.repeatable)
        (fun d t => d.Evaluate node t) node (nc.Directives.map H.directive) usedDirectives s with
    | .stop _ =>
      if walkDefsRepeats (fun d => d.name) (fun d => d.repeatable)
          (fun d t => d.Evaluate node t) node (nc.Directives.map H.directive) usedDirectives s
      then some 0 else none
    | .next usedDirectives1 s1 =>
      match walkDefs "block" (fun d => d.name) (fun d => d.repeatable)
          (fun d t => BlockDef.Evaluate H d node t) node (nc.Blocks.map H.block) usedBlocks s1 with
      | .stop _ =>
        if walkDefsRepeats (fun d => d.name) (fun d => d.repeatable)
            (fun d t => BlockDef.Evaluate H d node t) node (nc.Blocks.map H.block) usedBlocks s1
        then some 0 else none
      | .next usedBlocks1 s2 =>
        (repeatedAt H nc rest usedDirectives1 usedBlocks1 s2).map (fun i => i + 1)

/-! ## Words of the specification about values and repeated appends -/

/-- Every `Set` call of a run on the strings of a list, in list order and each
on the state the one before it left, returns `nil`: the state the run leaves,
if so. -/
def setAll {σ : Type} (v : Value σ) : List String → σ → Option σ
  | [], s => some s
  | x :: rest, s =>
    match v.Set x s with
    | .ret none s1 => setAll v rest s1
    | _ => none

/-- The strings of a list joined by a single comma: nothing for the empty
list, no comma before the first string and none after the last. -/
def joinComma : List String → String
  | [] => ""
  | [a] => a
  | a :: b :: rest => a ++ "," ++ joinComma (b :: rest)

/-- A sequence of calls of an appending method (`AddArgs`, `WithArgs`), one for
every argument list, each on the definition the one before it returned; a
panic ends the sequence. -/
def callEach {σ δ : Type} (f : δ → List (ArgDef σ) → Except String δ) :
    List (List (ArgDef σ)) → δ → Except String δ
  | [], d => .ok d
  | args :: rest, d =>
    match f d args with
    | .ok d1 => callEach f rest d1
    | .error msg => .error msg

/-! ## Words of the specification about messages and about the size of a walk -/

/-- The text `sub` occurs in the text `s`. -/
def Mentions (s sub : String) : Prop := sub.data <:+: s.data

mutual
/-- The number of nodes of the tree under a node, the node included. -/
def Node.count : Node → Nat
  | ⟨_, _, cs, _, _⟩ => 1 + nodesCount cs

/-- The number of nodes of the trees under the nodes of a list. -/
def nodesCount : List Node → Nat
  | [] => 0
  | n :: rest => Node.count n + nodesCount rest
end

mutual
/-- A bound for the walk of the tree under a node by containers of at most `M`
definitions: each of them may evaluate the node, and with it its children. -/
def Node.bound (M : Nat) : Node → Nat
  | ⟨_, _, cs, _, _⟩ => M * (1 + nodesBound M cs)

/-- The sum of the bounds of the nodes of a list. -/
def nodesBound (M : Nat) : List Node → Nat
  | [] => 0
  | n :: rest => Node.bound M n + nodesBound M rest
end

/-- The number of calls of `Evaluate` that one loop of `EvaluateTree` over the
definitions of one level makes and causes, `cost d s` being what one call on
the definition `d` amounts to. Same arguments and same course as `walkDefs`. -/
def walkDefsCount {σ δ : Type} (name : δ → String) (repeatable : δ → Bool)
    (eval : δ → σ → Outcome σ) (cost : δ → σ → Nat) (node : Node) :
    List δ → List String → σ → Nat
  | [], _, _ => 0
  | d :: rest, used, s =>
    if node.Name == name d then
      if !repeatable d && used.contains node.Name then
        0
      else
        cost d s +
          match eval d s with
          | .ret none s1 =>
            walkDefsCount name repeatable eval cost node rest (node.Name :: used) s1
          | _ => 0
    else
      walkDefsCount name repeatable eval cost node rest used s

mutual
/-- The number of calls of `Evaluate`, on directive and on block definitions
at every depth, in the course of the loop of `EvaluateTree` over a list of
nodes. Same arguments and same course as `walkNodes`. -/
def evalsNodes {σ : Type} (H : Schema σ) (nc : NodesContainer) :
    List Node → List String → List String → σ → Nat
  | [], _, _, _ => 0
  | node :: rest, usedDirectives, usedBlocks, s =>
    walkDefsCount (fun d => d.name) (fun d => d.repeatable)
        (fun d t => d.Evaluate node t) (fun _ _ => 1) node
        (nc.Directives.map H.directive) usedDirectives s +
    match walkDefs "directive" (fun d => d.name) (fun d => d.repeatable)
        (fun d t => d.Evaluate node t) node (nc.Directives.map H.directive) usedDirectives s with
    | .stop _ => 0
    | .next usedDirectives1 s1 =>
      walkDefsCount (fun d => d.name) (fun d => d.repeatable)
          (fun d t => BlockDef.Evaluate H d node t) (fun d t => evalsBlock H d node t) node
          (nc.Blocks.map H.block) usedBlocks s1 +
      match walkDefs "block" (fun d => d.name) (fun d => d.repeatable)
          (fun d t => BlockDef.Evaluate H d node t) node (nc.Blocks.map H.block) usedBlocks s1 with
      | .stop _ => 0
      | .next usedBlocks1 s2 => evalsNodes H nc rest usedDirectives1 usedBlocks1 s2

/-- The number of calls of `Evaluate` that one call of `BlockDef.Evaluate`
amounts to: the call itself and those of the walk of the children, which
takes place when `evaluate` returns `nil`. -/
def evalsBlock {σ : Type} (H : Schema σ) (d : BlockDef σ) : Node → σ → Nat
  | ⟨name, args, cs, file, line⟩, s =>
    1 +
      match evaluate d.toCommonDef ⟨name, args, cs, file, line⟩ s with
      | .ret none s1 => evalsNodes H d.toNodesContainer cs [] [] s1
      | _ => 0
end

/-- The number of calls of `Evaluate` that one call of
`ModuleBlockDef.Evaluate` amounts to: the call itself and those of the walk of
the children by the container of the selected module. -/
def evalsModule {σ : Type} (H : Schema σ) (d : ModuleBlockDef σ) (node : Node) (s : σ) : Nat :=
  1 +
    match evaluate d.toCommonDef node s with
    | .ret none s1 =>
      match d.moduleName with
      | none => 0
      | some p =>
        match d.modules (p.get s1) with
        | none => 0
        | some m => evalsNodes H m node.Children [] [] s1
    | _ => 0

/-- The definitions of one level are at most `M` and no two block definitions
of the level have the same name. -/
def LevelWithin {σ : Type} (M : Nat) (H : Schema σ) (nc : NodesContainer) : Prop :=
  nc.Directives.length + nc.Blocks.length ≤ M ∧
    ∀ x : String, ((nc.Blocks.map H.block).filter (fun b => x == b.name)).length ≤ 1

/-! ## A small configuration for the examples -/

/-- The variables that the example schemas bind. -/
structure Cfg where
  host : String
  port : String
  tls : Bool
  tags : List String

/-- Every variable at its zero value. -/
def Cfg.zero : Cfg := { host := "", port := "", tls := false, tags := [] }

/-- Modelled from the spec: the generated string `Value` (its source is not
among the files) around the variable `host`; `Set` stores the text and never
fails. -/
def hostValue : Value Cfg :=
  { Set := fun x s => .ret none { s with host := x }, Str := fun s => s.host }

/-- Modelled from the spec: the generated string `Value` around the variable
`port`. -/
def portValue : Value Cfg :=
  { Set := fun x s => .ret none { s with port := x }, Str := fun s => s.port }

/-- Modelled from the spec: the generated boolean `Value` around the variable
`tls`; the texts "true" and "false" are stored, any other text is a conversion
error that leaves the variable alone. -/
def tlsValue : Value Cfg :=
  { Set := fun x s =>
      if x = "true" then .ret none { s with tls := true }
      else if x = "false" then .ret none { s with tls := false }
      else .ret (some ("invalid boolean value: " ++ x)) s,
    Str := fun s => toString s.tls }

/-- The pointer to the slice variable `tags`. -/
def tagsRef : SliceRef Cfg String :=
  { get := fun s => s.tags, put := fun l s => { s with tags := l },
    get_put := fun _ _ => rfl }

/-- The accumulator of strings around the slice variable `tags`, as the
generated variadic string argument builds it. -/
def tagsValue : Value Cfg :=
  Accumulator.toValue
    { element := { Set := fun x _ => .ret none x, Str := fun e => e },
      zero := "", slice := tagsRef }

/-- A node without children and without a known source position. -/
def leaf (name : String) (args : List String) : Node :=
  { Name := name, Args := args, Children := [], File := "", Line := 0 }

/-- The directive `listen <host> [port]`, the definition that
`NewDirectiveDef` returns for a required and an optional string argument. -/
def listenDef : DirectiveDef Cfg :=
  { name := "listen",
    args := [NewArgDef hostValue 0 [], NewArgDef portValue 0 [Optional]],
    minArgs := 1, maxArgs := 2, handler := none, repeatable := false }

/-- The directive `tls <bool>`, the definition that `NewDirectiveDef` returns
for one required boolean argument. -/
def tlsDef : DirectiveDef Cfg :=
  { name := "tls", args := [NewArgDef tlsValue 0 []],
    minArgs := 1, maxArgs := 1, handler := none, repeatable := false }

/-- A schema whose directive addresses all hold `tlsDef`; its block addresses
hold a block without arguments and without children definitions. -/
def tlsSchema : Schema Cfg :=
  { directive := fun _ => tlsDef,
    block := fun _ => { toCommonDef := CommonDef.new "options", Directives := [], Blocks := [] } }

/-- A `Value` around a nil pointer: `Set` dereferences it and panics. -/
def nilValue : Value Cfg :=
  { Set := fun _ _ => .panic "runtime error: invalid memory address or nil pointer dereference",
    Str := fun _ => "" }

/-- The pointer to the variable `host`. -/
def hostRef : StringRef Cfg :=
  { get := fun s => s.host, put := fun x s => { s with host := x },
    get_put := fun _ _ => rfl }

/-- A handler that records the name of the node it is given and the host
bound so far at the end of `tags`. -/
def noteHandler : NodeHandler Cfg :=
  fun node s => .ret none { s with tags := s.tags ++ [node.Name, s.host] }

/-- A handler that rejects every node. -/
def rejectHandler : NodeHandler Cfg :=
  fun node s => .ret (some ("rejected: " ++ node.Name)) s

/-- The directive `listen <host>` with the recording handler. -/
def notedDef : DirectiveDef Cfg :=
  { name := "listen", args := [NewArgDef hostValue 0 []],
    minArgs := 1, maxArgs := 1, handler := some noteHandler, repeatable := false }

/-- The variables of the nesting example. -/
structure Site where
  serverName : String
  authType : String
  setting : String

/-- Modelled from the spec: the generated string `Value` around the variable
`serverName`. -/
def serverNameValue : Value Site :=
  { Set := fun x s => .ret none { s with serverName := x }, Str := fun s => s.serverName }

/-- Modelled from the spec: the generated string `Value` around the variable
`authType`. -/
def authTypeValue : Value Site :=
  { Set := fun x s => .ret none { s with authType := x }, Str := fun s => s.authType }

/-- Modelled from the spec: the generated string `Value` around the variable
`setting`. -/
def settingValue : Value Site :=
  { Set := fun x s => .ret none { s with setting := x }, Str := fun s => s.setting }

/-- The block `server <name>`, whose container holds the block at address 1. -/
def serverBlock : BlockDef Site :=
  { name := "server", args := [NewArgDef serverNameValue 0 []],
    minArgs := 1, maxArgs := 1, handler := none, repeatable := false,
    Directives := [], Blocks := [1] }

/-- The block `auth <type>`, whose container holds the directive at
address 0. -/
def authBlock : BlockDef Site :=
  { name := "auth", args := [NewArgDef authTypeValue 0 []],
    minArgs := 1, maxArgs := 1, handler := none, repeatable := false,
    Directives := [0], Blocks := [] }

/-- The schema of the nesting example: `server` at block address 0, `auth` at
the other block addresses, the directive `setting <text>` at the directive
addresses. -/
def siteSchema : Schema Site :=
  { directive := fun _ =>
      { name := "setting", args := [NewArgDef settingValue 0 []],
        minArgs := 1, maxArgs := 1, handler := none, repeatable := false },
    block := fun p => if p = 0 then serverBlock else authBlock }

/-- The node `auth "jwt" { setting "x" }`. -/
def authNode : Node :=
  { Name := "auth", Args := ["jwt"],
    Children := [{ Name := "setting", Args := ["x"], Children := [], File := "", Line := 0 }],
    File := "", Line := 0 }

/-- The node `server "web" { auth "jwt" { setting "x" } }`. -/
def serverNode : Node :=
  { Name := "server", Args := ["web"], Children := [authNode], File := "", Line := 0 }

/-- The module block `auth <module>` as the test of the package builds it:
the selector points to `host`, the first argument is bound to `host`, and the
module "jwt" is registered with a container holding directive address 0. -/
def authModule : ModuleBlockDef Cfg :=
  { name := "auth", args := [NewArgDef hostValue 0 []],
    minArgs := 1, maxArgs := 1, handler := none, repeatable := false,
    modules := fun k => if k = "jwt" then some { Directives := [0], Blocks := [] } else none,
    moduleName := some hostRef }

/-- A schema in which the name `port` is the name of a directive and of a
block, both not repeatable, at every address. -/
def portSchema : Schema Cfg :=
  { directive := fun _ =>
      { name := "port", args := [NewArgDef portValue 0 []],
        minArgs := 1, maxArgs := 1, handler := none, repeatable := false },
    block := fun _ =>
      { name := "port", args := [NewArgDef portValue 0 []],
        minArgs := 1, maxArgs := 1, handler := none, repeatable := false,
        Directives := [], Blocks := [] } }

/-- The handler of the package test on repeatable directives: it appends the
first argument of the node, if there is one, to `tags`. -/
def collectHandler : NodeHandler Cfg :=
  fun node s => .ret none { s with tags := s.tags ++ node.Args.take 1 }

/-- The directive `repeatable` of the package test: no argument definition,
any number of arguments, the collecting handler, marked repeatable. -/
def repeatableDef : DirectiveDef Cfg :=
  { name := "repeatable", args := [], minArgs := 0, maxArgs := -1,
    handler := some collectHandler, repeatable := true }

/-- A schema whose directive addresses all hold `repeatableDef`. -/
def repeatableSchema : Schema Cfg :=
  { directive := fun _ => repeatableDef,
    block := fun _ => { toCommonDef := CommonDef.new "options", Directives := [], Blocks := [] } }

/-- A handler that rejects the node whose first argument is "bad". -/
def guardHandler : NodeHandler Cfg :=
  fun node s => if node.Args.head? = some "bad" then .ret (some "host rejected") s
    else .ret none s

/-- A schema whose directive addresses all hold the directive `listen <host>`
with the rejecting handler, marked repeatable. -/
def guardedSchema : Schema Cfg :=
  { directive := fun _ =>
      { name := "listen", args := [NewArgDef hostValue 0 []],
        minArgs := 1, maxArgs := 1, handler := some guardHandler, repeatable := true },
    block := fun _ => { toCommonDef := CommonDef.new "options", Directives := [], Blocks := [] } }

/-- The accumulator of strings around the slice variable `tags`. -/
def tagsAccumulator : Accumulator Cfg String :=
  { element := { Set := fun x _ => .ret none x, Str := fun e => e },
    zero := "", slice := tagsRef }

/-- The directive `tag <text>...`, the definition that `NewDirectiveDef`
returns for one variadic argument bound to the accumulator, after
`SetAttrs(Repeatable)`. -/
def tagDef : DirectiveDef Cfg :=
  { name := "tag", args := [NewVariadicArgDef tagsAccumulator.toValue 0 []],
    minArgs := 1, maxArgs := -1, handler := none, repeatable := true }

/-- A schema whose directive addresses all hold `tagDef`. -/
def tagSchema : Schema Cfg :=
  { directive := fun _ => tagDef,
    block := fun _ => { toCommonDef := CommonDef.new "options", Directives := [], Blocks := [] } }

/-- Modelled from the spec: the generated constructor `args.StringArg` (its
source is not among the files): `NewArgDef` around the string `Value` of the
pointer, whose `Set` stores the text and panics on the nil pointer. -/
def StringArg {σ : Type} (p : Option (StringRef σ)) (attributes : List ArgAttribute) : ArgDef σ :=
  NewArgDef
    { Set := fun x s =>
        match p with
        | some r => .ret none (r.put x s)
        | none => .panic "runtime error: invalid memory address or nil pointer dereference",
      Str := fun s =>
        match p with
        | some r => r.get s
        | none => "" }
    0 attributes

/-- A schema in which the block `a`, without arguments and marked repeatable,
is registered twice inside its own container, at every address. -/
def twiceSchema : Schema Cfg :=
  { directive := fun _ => tlsDef,
    block := fun _ =>
      { name := "a", args := [], minArgs := 0, maxArgs := 0, handler := none,
        repeatable := true, Directives := [], Blocks := [0, 0] } }

/-- A schema in which the block `a`, without arguments, is registered once
inside its own container, at every address. -/
def selfSchema : Schema Cfg :=
  { directive := fun _ => tlsDef,
    block := fun _ =>
      { name := "a", args := [], minArgs := 0, maxArgs := 0, handler := none,
        repeatable := false, Directives := [0], Blocks := [0] } }

/-- A node `a` with the given children. -/
def nest (children : List Node) : Node :=
  { Name := "a", Args := [], Children := children, File := "", Line := 0 }

/-- A handler that overwrites `host` with "jwt". -/
def selectHandler : NodeHandler Cfg :=
  fun _ s => .ret none { s with host := "jwt" }

/-- Modelled from the spec: an accumulator of booleans (the element `Value`
is generated code that is not among the files) around a state that is the
slice itself; the element stores "true" and "false" and fails on any other
text. -/
def flagsAccumulator : Accumulator (List Bool) Bool :=
  { element :=
      { Set := fun x e =>
          if x = "true" then .ret none true
          else if x = "false" then .ret none false
          else .ret (some ("invalid boolean value: " ++ x)) e,
        Str := fun e => toString e },
    zero := false,
    slice := { get := fun s => s, put := fun l _ => l, get_put := fun _ _ => rfl } }

/-- The directive `tag [host] [port] [text]...`, the definition that
`NewDirectiveDef` returns for two optional string arguments followed by an
optional variadic one. -/
def optionalTagDef : DirectiveDef Cfg :=
  { name := "tag",
    args := [NewArgDef hostValue 0 [Optional], NewArgDef portValue 0 [Optional],
      NewVariadicArgDef tagsValue 0 [Optional]],
    minArgs := 0, maxArgs := -1, handler := none, repeatable := false }

/-- The block with the same name and arguments, as `NewBlockDef` returns
it. -/
def optionalTagBlock : BlockDef Cfg :=
  { toCommonDef := optionalTagDef.toCommonDef, Directives := [], Blocks := [] }

/-! ## Lemmas on argument-list construction -/

theorem requiredAfterOptional_cons {σ : Type} (x : ArgDef σ) (rest : List (ArgDef σ)) :
    RequiredAfterOptional (x :: rest) ↔
      (x.required = false ∧ ∃ b ∈ rest, b.required = true) ∨ RequiredAfterOptional rest := by
  constructor
  · rintro ⟨i, j, a, b, hij, hi, hj, ha, hb⟩
    obtain ⟨j, rfl⟩ : ∃ k, j = k + 1 := ⟨j - 1, by omega⟩
    simp only [List.getElem?_cons_succ] at hj
    cases i with
    | zero =>
      simp only [List.getElem?_cons_zero, Option.some.injEq] at hi
      subst hi
      exact Or.inl ⟨ha, b, List.getElem?_mem hj, hb⟩
    | succ i =>
      simp only [List.getElem?_cons_succ] at hi
      exact Or.inr ⟨i, j, a, b, by omega, hi, hj, ha, hb⟩
  · rintro (⟨hx, b, hb, hbr⟩ | ⟨i, j, a, b, hij, hi, hj, ha, hb⟩)
    · obtain ⟨j, hj⟩ := List.getElem?_of_mem hb
      exact ⟨0, j + 1, x, b, by omega, by simp, by simpa using hj, hx, hbr⟩
    · exact ⟨i + 1, j + 1, a, b, by omega, by simpa using hi, by simpa using hj, ha, hb⟩

theorem variadicNotLast_cons {σ : Type} (x : ArgDef σ) (rest : List (ArgDef σ)) :
    VariadicNotLast (x :: rest) ↔
      (x.variadic = true ∧ rest ≠ []) ∨ VariadicNotLast rest := by
  constructor
  · rintro ⟨i, a, hi, ha, hlen⟩
    cases i with
    | zero =>
      simp only [List.getElem?_cons_zero, Option.some.injEq] at hi
      subst hi
      refine Or.inl ⟨ha, ?_⟩
      rintro rfl
      simp at hlen
    | succ i =>
      simp only [List.getElem?_cons_succ] at hi
      refine Or.inr ⟨i, a, hi, ha, ?_⟩
      simp only [List.length_cons] at hlen
      omega
  · rintro (⟨hx, hne⟩ | ⟨i, a, hi, ha, hlen⟩)
    · refine ⟨0, x, by simp, hx, ?_⟩
      cases rest with
      | nil => exact absurd rfl hne
      | cons y ys => simp
    · exact ⟨i + 1, a, by simpa using hi, ha, by simpa using hlen⟩

theorem not_requiredAfterOptional_nil {σ : Type} :
    ¬ RequiredAfterOptional ([] : List (ArgDef σ)) := by
  rintro ⟨i, j, a, b, -, hi, -⟩
  simp at hi

theorem not_variadicNotLast_nil {σ : Type} : ¬ VariadicNotLast ([] : List (ArgDef σ)) := by
  rintro ⟨i, a, hi, -⟩
  simp at hi

/-- The loop of `addArgs` panics exactly when the flag is set and a required
argument remains, or the remaining arguments have one of the two defects. -/
theorem addArgsLoop_error_iff {σ : Type} (n : Nat) (rest : List (ArgDef σ)) :
    ∀ (i : Nat) (b : Bool) (d : CommonDef σ), n = i + rest.length →
      ((∃ msg, addArgsLoop n i rest b d = .error msg) ↔
        ((b = true ∧ ∃ x ∈ rest, x.required = true) ∨
          RequiredAfterOptional rest ∨ VariadicNotLast rest)) := by
  induction rest with
  | nil =>
    intro i b d _
    simp [addArgsLoop, not_requiredAfterOptional_nil, not_variadicNotLast_nil]
  | cons x rest ih =>
    intro i b d hn
    have hlast : (i + 1 = n) ↔ rest = [] := by
      simp only [List.length_cons] at hn
      constructor
      · intro h
        exact List.eq_nil_of_length_eq_zero (by omega)
      · rintro rfl
        simp at hn
        omega
    have hlen : n = (i + 1) + rest.length := by
      simp only [List.length_cons] at hn
      omega
    rw [requiredAfterOptional_cons, variadicNotLast_cons]
    unfold addArgsLoop
    by_cases h1 : (x.required && b) = true
    · have hx : x.required = true := by
        cases hr : x.required <;> simp_all
      have hb : b = true := by
        cases hbb : b <;> simp_all
      simp only [h1, ↓reduceIte, Except.error.injEq, exists_eq', true_iff]
      exact Or.inl ⟨hb, x, List.mem_cons_self _ _, hx⟩
    · by_cases h2 : (x.variadic && (i + 1 != n)) = true
      · have hv : x.variadic = true := by
          cases hr : x.variadic <;> simp_all
        have hne : rest ≠ [] := by
          intro h
          have h3 := hlast.2 h
          simp [h3] at h2
        simp only [h1, h2, Bool.false_eq_true, ↓reduceIte, Except.error.injEq, exists_eq', true_iff]
        exact Or.inr (Or.inr (Or.inl ⟨hv, hne⟩))
      · simp only [h1, h2, Bool.false_eq_true, ↓reduceIte]
        rw [ih (i + 1) _ _ hlen]
        have hmem : (∃ y ∈ x :: rest, y.required = true) ↔
            (x.required = true ∨ ∃ y ∈ rest, y.required = true) := by
          simp
        rw [hmem]
        have h2b : ¬ (x.variadic = true ∧ rest ≠ []) := by
          rintro ⟨hv, hne⟩
          apply h2
          have : ¬ (i + 1 = n) := fun h => hne (hlast.1 h)
          simp [hv, this]
        have h1b : ¬ (x.required = true ∧ b = true) := by
          rintro ⟨hr, hb⟩
          exact h1 (by simp [hr, hb])
        have hor : ((b || !x.required) = true) ↔ (b = true ∨ x.required = false) := by
          cases b <;> cases x.required <;> simp
        rw [hor]
        constructor
        · rintro (⟨hb | hr, hP⟩ | h | h)
          · exact Or.inl ⟨hb, Or.inr hP⟩
          · exact Or.inr (Or.inl (Or.inl ⟨hr, hP⟩))
          · exact Or.inr (Or.inl (Or.inr h))
          · exact Or.inr (Or.inr (Or.inr h))
        · rintro (⟨hb, hr | hP⟩ | (⟨hr, hP⟩ | h) | (h | h))
          · exact absurd ⟨hr, hb⟩ h1b
          · exact Or.inl ⟨Or.inl hb, hP⟩
          · exact Or.inl ⟨Or.inr hr, hP⟩
          · exact Or.inr (Or.inl h)
          · exact absurd h h2b
          · exact Or.inr (Or.inr h)

/-- What the loop of `addArgs` has done when it returns: the arguments are
appended in order, `minArgs` has grown by the number of required arguments,
`maxArgs` is -1 if a variadic argument was added and has otherwise grown by
the number of arguments; nothing else is changed. -/
theorem addArgsLoop_ok {σ : Type} (n : Nat) (rest : List (ArgDef σ)) :
    ∀ (i : Nat) (b : Bool) (d e : CommonDef σ), n = i + rest.length →
      addArgsLoop n i rest b d = .ok e →
        e.name = d.name ∧ e.args = d.args ++ rest ∧
        e.minArgs = d.minArgs + (rest.countP (fun a => a.required) : Nat) ∧
        e.maxArgs = (if rest.any (fun a => a.variadic) = true then -1
          else d.maxArgs + (rest.length : Nat)) ∧
        e.handler = d.handler ∧ e.repeatable = d.repeatable := by
  induction rest with
  | nil =>
    intro i b d e _ h
    simp only [addArgsLoop, Except.ok.injEq] at h
    subst h
    simp
  | cons x rest ih =>
    intro i b d e hn h
    have hlen : n = (i + 1) + rest.length := by
      simp only [List.length_cons] at hn
      omega
    unfold addArgsLoop at h
    by_cases h1 : (x.required && b) = true
    · simp [h1] at h
    · by_cases h2 : (x.variadic && (i + 1 != n)) = true
      · simp [h1, h2] at h
      · simp only [h1, h2, Bool.false_eq_true, ↓reduceIte] at h
        obtain ⟨hname, hargs, hmin, hmax, hh, hr⟩ := ih (i + 1) _ _ e hlen h
        have hrest : x.variadic = true → rest = [] := by
          intro hv
          have : i + 1 = n := by
            by_contra hne
            exact h2 (by simp [hv, hne])
          exact List.eq_nil_of_length_eq_zero (by omega)
        refine ⟨?_, ?_, ?_, ?_, ?_, ?_⟩
        · rw [hname]; split <;> split <;> rfl
        · rw [hargs]
          split <;> split <;> simp
        · rw [hmin]
          cases hx : x.required <;> cases hv : x.variadic <;>
            simp [List.countP_cons, hx] <;> omega
        · rw [hmax]
          cases hv : x.variadic
          · cases hx : x.required <;> simp [hv] <;> split <;> first | rfl | omega
          · have := hrest hv
            subst this
            cases hx : x.required <;> simp [hv]
        · rw [hh]; split <;> split <;> rfl
        · rw [hr]; split <;> split <;> rfl

/-- A call of `addArgs` either panics or returns. -/
theorem except_error_or_ok {ε α : Type} (r : Except ε α) :
    (∃ e, r = .error e) ∨ (∃ a, r = .ok a) := by
  cases r with
  | error e => exact Or.inl ⟨e, rfl⟩
  | ok a => exact Or.inr ⟨a, rfl⟩

/-- The method `addArgs` panics exactly on the two defects of the list it is
given. -/
theorem addArgs_error_iff {σ : Type} (d : CommonDef σ) (args : List (ArgDef σ)) :
    (∃ msg, d.addArgs args = .error msg) ↔ (RequiredAfterOptional args ∨ VariadicNotLast args) := by
  unfold CommonDef.addArgs
  rw [addArgsLoop_error_iff args.length args 0 false d (by simp)]
  simp

theorem addArgs_ok_iff {σ : Type} (d : CommonDef σ) (args : List (ArgDef σ)) :
    (∃ e, d.addArgs args = .ok e) ↔ ¬ (RequiredAfterOptional args ∨ VariadicNotLast args) := by
  rw [← addArgs_error_iff d args]
  constructor
  · rintro ⟨e, he⟩ ⟨msg, hmsg⟩
    rw [he] at hmsg
    cases hmsg
  · intro h
    rcases except_error_or_ok (d.addArgs args) with h1 | h1
    · exact absurd h1 h
    · exact h1

theorem map_eq_error_iff {ε α β : Type} (f : α → β) (r : Except ε α) :
    (∃ e, r.map f = .error e) ↔ (∃ e, r = .error e) := by
  cases r <;> simp [Except.map]

theorem map_eq_ok {ε α β : Type} (f : α → β) (r : Except ε α) (b : β) (h : r.map f = .ok b) :
    ∃ a, r = .ok a ∧ f a = b := by
  cases r with
  | error e => simp [Except.map] at h
  | ok a =>
    simp only [Except.map, Except.ok.injEq] at h
    exact ⟨a, rfl, h⟩


/-! ## Lemmas on evaluation -/

theorem setList_returns {σ : Type} (v : Value σ) (hv : v.Returns) (xs : List String) :
    ∀ s : σ, ∃ e s1, SetList v xs s = .ret e s1 := by
  induction xs with
  | nil => intro s; exact ⟨none, s, rfl⟩
  | cons x xs ih =>
    intro s
    obtain ⟨e, s1, h⟩ := hv x s
    unfold SetList
    rw [h]
    cases e with
    | some err => exact ⟨some err, s1, rfl⟩
    | none => exact ih s1

/-- The binding loop returns `nil` when no `Set` call panics and every
variadic argument definition is at an index within the arguments of the
node. -/
theorem bindArgs_returns {σ : Type} (nodeArgs : List String) (rest : List (ArgDef σ)) :
    ∀ (i : Nat) (s : σ), (∀ a ∈ rest, a.target.Returns) →
      (∀ (j : Nat) (a : ArgDef σ), rest[j]? = some a → a.variadic = true →
        i + j ≤ nodeArgs.length) →
      ∃ s1, bindArgs nodeArgs i rest s = .ret none s1 := by
  induction rest with
  | nil => intro i s _ _; exact ⟨s, rfl⟩
  | cons x rest ih =>
    intro i s hret hvar
    have hx := hret x (List.mem_cons_self _ _)
    have hrest : ∀ a ∈ rest, a.target.Returns := fun a ha => hret a (List.mem_cons_of_mem _ ha)
    have hvar1 : ∀ (j : Nat) (a : ArgDef σ), rest[j]? = some a → a.variadic = true →
        (i + 1) + j ≤ nodeArgs.length := by
      intro j a hj ha
      have := hvar (j + 1) a (by simpa using hj) ha
      omega
    unfold bindArgs
    by_cases hv : x.variadic = true
    · have hi : i ≤ nodeArgs.length := by
        have := hvar 0 x (by simp) hv
        omega
      simp only [hv, hi, ↓reduceIte]
      obtain ⟨e, s1, h⟩ := setList_returns x.target hx (nodeArgs.drop i) s
      rw [h]
      exact ⟨s1, rfl⟩
    · simp only [hv, Bool.false_eq_true, ↓reduceIte]
      by_cases hi : i < nodeArgs.length
      · simp only [hi, ↓reduceDIte]
        obtain ⟨e, s1, h⟩ := hx nodeArgs[i] s
        rw [h]
        exact ih (i + 1) s1 hrest hvar1
      · simp only [hi, ↓reduceDIte]
        exact ih (i + 1) s hrest hvar1

/-- Without variadic argument definitions the binding loop is the run of
`Set` calls that pairs the remaining definitions with the remaining arguments
of the node. -/
theorem bindArgs_eq_setEach {σ : Type} (nodeArgs : List String) (rest : List (ArgDef σ)) :
    ∀ (i : Nat) (s : σ), (∀ a ∈ rest, a.variadic = false) →
      bindArgs nodeArgs i rest s =
        setEach ((rest.map (fun a => a.target)).zip (nodeArgs.drop i)) s := by
  induction rest with
  | nil => intro i s _; simp [bindArgs, setEach]
  | cons x rest ih =>
    intro i s hvar
    have hx : x.variadic = false := hvar x (List.mem_cons_self _ _)
    have hrest : ∀ a ∈ rest, a.variadic = false := fun a ha => hvar a (List.mem_cons_of_mem _ ha)
    unfold bindArgs
    simp only [hx, Bool.false_eq_true, ↓reduceIte]
    by_cases hi : i < nodeArgs.length
    · simp only [hi, ↓reduceDIte]
      rw [List.drop_eq_getElem_cons hi]
      simp only [List.map_cons, List.zip_cons_cons, setEach]
      cases h : x.target.Set nodeArgs[i] s with
      | ret e s1 => exact ih (i + 1) s1 hrest
      | panic msg => rfl
    · simp only [hi, ↓reduceDIte]
      have hdrop : nodeArgs.drop i = [] := List.drop_eq_nil_of_le (by omega)
      have hdrop1 : nodeArgs.drop (i + 1) = [] := List.drop_eq_nil_of_le (by omega)
      rw [ih (i + 1) s hrest, hdrop, hdrop1]
      simp [setEach]

/-- The function `evaluate` on a node that passes its three checks. -/
theorem evaluate_accepted {σ : Type} (d : CommonDef σ) (node : Node) (s : σ)
    (hname : node.Name = d.name) (hmin : d.minArgs ≤ node.Args.length)
    (hmax : d.maxArgs = -1 ∨ (node.Args.length : Int) ≤ d.maxArgs) :
    evaluate d node s = thenHandler d node (bindArgs node.Args 0 d.args s) := by
  unfold evaluate
  have h1 : (node.Name != d.name) = false := by simp [hname]
  have h2 : ¬ ((node.Args.length : Int) < d.minArgs) := by omega
  have h3 : (d.maxArgs != -1 && decide ((node.Args.length : Int) > d.maxArgs)) = false := by
    rcases hmax with h | h
    · simp [h]
    · have : ¬ ((node.Args.length : Int) > d.maxArgs) := by omega
      simp [this]
  simp only [h1, h2, h3, Bool.false_eq_true, ↓reduceIte]
  cases bindArgs node.Args 0 d.args s <;> rfl

/-- The binding loop on non-variadic argument definitions followed by a
variadic one, for a node with at least as many arguments as there are
definitions before the variadic one: the run of positional `Set` calls, then
`SetList` of the variadic target on the arguments from that index on. -/
theorem bindArgs_variadic {σ : Type} (nodeArgs : List String) (v : ArgDef σ)
    (post : List (ArgDef σ)) (hv : v.variadic = true) (pre : List (ArgDef σ)) :
    ∀ (i : Nat) (s : σ), (∀ a ∈ pre, a.variadic = false) →
      i + pre.length ≤ nodeArgs.length →
      bindArgs nodeArgs i (pre ++ v :: post) s =
        match setEach ((pre.map (fun a => a.target)).zip (nodeArgs.drop i)) s with
        | .ret _ s1 =>
          match SetList v.target (nodeArgs.drop (i + pre.length)) s1 with
          | .ret _ s2 => .ret none s2
          | .panic msg => .panic msg
        | .panic msg => .panic msg := by
  induction pre with
  | nil =>
    intro i s _ hlen
    have hi : i ≤ nodeArgs.length := by simpa using hlen
    simp only [List.nil_append, List.map_nil, List.zip_nil_left, setEach, List.length_nil,
      Nat.add_zero]
    unfold bindArgs
    simp only [hv, hi, ↓reduceIte]
  | cons x pre ih =>
    intro i s hvar hlen
    have hx : x.variadic = false := hvar x (List.mem_cons_self _ _)
    have hrest : ∀ a ∈ pre, a.variadic = false := fun a ha => hvar a (List.mem_cons_of_mem _ ha)
    simp only [List.length_cons] at hlen
    have hi : i < nodeArgs.length := by omega
    have hidx : i + (x :: pre).length = (i + 1) + pre.length := by
      simp only [List.length_cons]; omega
    rw [List.cons_append, hidx]
    unfold bindArgs
    simp only [hx, Bool.false_eq_true, ↓reduceIte, hi, ↓reduceDIte]
    rw [List.drop_eq_getElem_cons hi]
    simp only [List.map_cons, List.zip_cons_cons, setEach]
    cases h : x.target.Set nodeArgs[i] s with
    | ret e s1 => exact ih (i + 1) s1 hrest (by omega)
    | panic msg => rfl

/-- The function `SetList` on an accumulator whose element `Value` parses
every text of the list: it returns `nil` and the slice is its previous content
followed by the parsed elements, in the order of the list. -/
theorem setList_accumulator {σ T : Type} (acc : Accumulator σ T) :
    ∀ (xs : List String) (es : List T) (s : σ),
      List.Forall₂ (fun x e => acc.element.Set x acc.zero = .ret none e) xs es →
      ∃ s1, SetList acc.toValue xs s = .ret none s1 ∧
        acc.slice.get s1 = acc.slice.get s ++ es := by
  intro xs es s h
  induction h generalizing s with
  | nil => exact ⟨s, rfl, by simp⟩
  | @cons x e xs es hx _ ih =>
    obtain ⟨s1, h1, h2⟩ := ih (acc.slice.put (acc.slice.get s ++ [e]) s)
    refine ⟨s1, ?_, ?_⟩
    · unfold SetList
      simp only [Accumulator.toValue, Accumulator.Set, hx]
      exact h1
    · rw [h2, acc.slice.get_put]
      simp

/-! ## Lemmas on blocks and on the walk of a sibling list -/

/-- The method `BlockDef.Evaluate` in one equation. -/
theorem blockEvaluate_eq {σ : Type} (H : Schema σ) (d : BlockDef σ) (node : Node) (s : σ) :
    BlockDef.Evaluate H d node s =
      match evaluate d.toCommonDef node s with
      | .ret none s1 => d.toNodesContainer.EvaluateTree H node.Children s1
      | out => out := by
  cases node with
  | mk name args cs file line =>
    rw [BlockDef.Evaluate]
    rfl

/-- One step of the loop over the nodes. -/
theorem walkNodes_cons {σ : Type} (H : Schema σ) (nc : NodesContainer) (node : Node)
    (rest : List Node) (usedDirectives usedBlocks : List String) (s : σ) :
    walkNodes H nc (node :: rest) usedDirectives usedBlocks s =
      match walkDefs "directive" (fun d => d.name) (fun d => d.repeatable)
          (fun d t => d.Evaluate node t) node (nc.Directives.map H.directive)
          usedDirectives s with
      | .stop out => out
      | .next usedDirectives1 s1 =>
        match walkDefs "block" (fun d => d.name) (fun d => d.repeatable)
            (fun d t => BlockDef.Evaluate H d node t) node (nc.Blocks.map H.block)
            usedBlocks s1 with
        | .stop out => out
        | .next usedBlocks1 s2 => walkNodes H nc rest usedDirectives1 usedBlocks1 s2 := by
  rw [walkNodes]

theorem walkNodes_nil {σ : Type} (H : Schema σ) (nc : NodesContainer)
    (usedDirectives usedBlocks : List String) (s : σ) :
    walkNodes H nc [] usedDirectives usedBlocks s = .ret none s := by
  rw [walkNodes]

/-- A loop over definitions none of which has the name of the node changes
nothing. -/
theorem walkDefs_no_match {σ δ : Type} (kind : String) (name : δ → String)
    (repeatable : δ → Bool) (eval : δ → σ → Outcome σ) (node : Node) (l : List δ) :
    ∀ (used : List String) (s : σ), (∀ d ∈ l, name d ≠ node.Name) →
      walkDefs kind name repeatable eval node l used s = .next used s := by
  induction l with
  | nil => intro used s _; rfl
  | cons d rest ih =>
    intro used s h
    have hd : (node.Name == name d) = false := by
      have := h d (List.mem_cons_self _ _)
      simp only [beq_eq_false_iff_ne, ne_eq]
      exact fun h1 => this h1.symm
    unfold walkDefs
    simp only [hd, Bool.false_eq_true, ↓reduceIte]
    exact ih used s (fun d hd => h d (List.mem_cons_of_mem _ hd))


/-- A loop over the nodes none of which has the name of a definition changes
nothing. -/
theorem walkNodes_no_match {σ : Type} (H : Schema σ) (nc : NodesContainer)
    (nodes : List Node) :
    ∀ (usedDirectives usedBlocks : List String) (s : σ),
      (∀ n ∈ nodes, ∀ p ∈ nc.Directives, (H.directive p).name ≠ n.Name) →
      (∀ n ∈ nodes, ∀ p ∈ nc.Blocks, (H.block p).name ≠ n.Name) →
      walkNodes H nc nodes usedDirectives usedBlocks s = .ret none s := by
  induction nodes with
  | nil => intro uD uB s _ _; exact walkNodes_nil H nc uD uB s
  | cons n rest ih =>
    intro uD uB s hd hb
    rw [walkNodes_cons]
    rw [walkDefs_no_match "directive" _ _ _ n _ uD s
      (by
        intro d hmem
        obtain ⟨p, hp, rfl⟩ := List.mem_map.1 hmem
        exact hd n (List.mem_cons_self _ _) p hp)]
    simp only
    rw [walkDefs_no_match "block" _ _ _ n _ uB s
      (by
        intro d hmem
        obtain ⟨p, hp, rfl⟩ := List.mem_map.1 hmem
        exact hb n (List.mem_cons_self _ _) p hp)]
    simp only
    exact ih uD uB s (fun m hm => hd m (List.mem_cons_of_mem _ hm))
      (fun m hm => hb m (List.mem_cons_of_mem _ hm))

/-- The block's own evaluation of a node when the first argument definition
stores into the variable `p`: the first argument is stored, the remaining
arguments are bound, the handler runs. -/
theorem moduleEvaluate_bound {σ : Type} (d : ModuleBlockDef σ) (node : Node)
    (s s1 s2 : σ) (e : Option String) (p : StringRef σ) (a : ArgDef σ) (rest : List (ArgDef σ))
    (sel : String) (more : List String)
    (hargs : d.args = a :: rest) (hvar : a.variadic = false)
    (hset : ∀ (x : String) (t : σ), a.target.Set x t = .ret none (p.put x t))
    (hnode : node.Args = sel :: more)
    (hname : node.Name = d.name)
    (hmin : d.minArgs ≤ (node.Args.length : Int))
    (hmax : d.maxArgs = -1 ∨ (node.Args.length : Int) ≤ d.maxArgs)
    (hrest : bindArgs node.Args 1 rest (p.put sel s) = .ret e s1)
    (hh : (d.handler = none ∧ s2 = s1) ∨ (∃ h, d.handler = some h ∧ h node s1 = .ret none s2)) :
    evaluate d.toCommonDef node s = .ret none s2 := by
  have hb : bindArgs node.Args 0 d.args s = .ret e s1 := by
    rw [hargs]
    unfold bindArgs
    have h0 : 0 < node.Args.length := by rw [hnode]; simp
    have hget : node.Args[0] = sel := by simp [hnode]
    simp only [hvar, Bool.false_eq_true, ↓reduceIte, h0, ↓reduceDIte, hget, hset]
    exact hrest
  rw [evaluate_accepted d.toCommonDef node s hname hmin hmax, hb]
  rcases hh with ⟨h0, rfl⟩ | ⟨h, h0, h1⟩
  · simp [thenHandler, h0]
  · simp [thenHandler, h0, h1]

/-- The definition that `NewModuleBlockDef` builds around the argument
definition returned by `args.StringArg`: one argument, no handler, and bounds
that accept one argument. -/
theorem newModuleBlock_common {σ : Type}
    (stringArg : Option (StringRef σ) → List ArgAttribute → ArgDef σ) (name : String) :
    ∃ c : CommonDef σ, (CommonDef.new name).addArgs [stringArg none []] = .ok c ∧
      c.name = name ∧ c.args = [stringArg none []] ∧ c.minArgs ≤ 1 ∧
      (c.maxArgs = -1 ∨ 1 ≤ c.maxArgs) ∧ c.handler = none := by
  have hok : ∃ c, (CommonDef.new name).addArgs [stringArg none []] = .ok c := by
    simp only [CommonDef.addArgs, addArgsLoop, List.length_singleton]
    simp
  obtain ⟨c, hc⟩ := hok
  obtain ⟨h1, h2, h3, h4, h5, -⟩ :=
    addArgsLoop_ok 1 [stringArg none []] 0 false (CommonDef.new name) c (by simp) hc
  refine ⟨c, hc, h1, by simpa [CommonDef.new] using h2, ?_, ?_, by simpa [CommonDef.new] using h5⟩
  · rw [h3]
    simp only [CommonDef.new, List.countP_cons, List.countP_nil]
    split <;> simp
  · rw [h4]
    simp only [CommonDef.new, List.any_cons, List.any_nil, Bool.or_false]
    split
    · exact Or.inl rfl
    · exact Or.inr (by simp)

/-! ### The loop over the definitions of one level -/

/-- A definition of another name is passed over. -/
theorem walkDefs_cons_skip {σ δ : Type} (kind : String) (name : δ → String)
    (repeatable : δ → Bool) (eval : δ → σ → Outcome σ) (node : Node) (d : δ) (rest : List δ)
    (used : List String) (s : σ) (h : name d ≠ node.Name) :
    walkDefs kind name repeatable eval node (d :: rest) used s =
      walkDefs kind name repeatable eval node rest used s := by
  have hd : (node.Name == name d) = false := by
    simp only [beq_eq_false_iff_ne, ne_eq]
    exact fun h1 => h h1.symm
  rw [walkDefs]
  simp only [hd, Bool.false_eq_true, ↓reduceIte]

/-- A definition of the name of the node, not repeatable, while the name is
marked used: the repetition error. -/
theorem walkDefs_cons_repeated {σ δ : Type} (kind : String) (name : δ → String)
    (repeatable : δ → Bool) (eval : δ → σ → Outcome σ) (node : Node) (d : δ) (rest : List δ)
    (used : List String) (s : σ) (h : name d = node.Name) (hr : repeatable d = false)
    (hu : node.Name ∈ used) :
    walkDefs kind name repeatable eval node (d :: rest) used s =
      .stop (.ret (some (NodeErr node (kind ++ " '" ++ node.Name ++ "' may not be repeated")))
        s) := by
  have hd : (node.Name == name d) = true := by simp [h]
  have hc : used.contains node.Name = true := by simp [hu]
  rw [walkDefs]
  simp only [hd, hr, hc, Bool.not_false, Bool.and_self, ↓reduceIte]

/-- A definition of the name of the node that is repeatable, or met while the
name is not marked used, is evaluated; the loop goes on, with the name marked,
when the evaluation returns `nil`. -/
theorem walkDefs_cons_eval {σ δ : Type} (kind : String) (name : δ → String)
    (repeatable : δ → Bool) (eval : δ → σ → Outcome σ) (node : Node) (d : δ) (rest : List δ)
    (used : List String) (s : σ) (h : name d = node.Name)
    (hr : repeatable d = true ∨ node.Name ∉ used) :
    walkDefs kind name repeatable eval node (d :: rest) used s =
      match eval d s with
      | .ret none s1 => walkDefs kind name repeatable eval node rest (node.Name :: used) s1
      | out => .stop out := by
  have hd : (node.Name == name d) = true := by simp [h]
  have hc : (!repeatable d && used.contains node.Name) = false := by
    rcases hr with hr | hr
    · simp [hr]
    · have : used.contains node.Name = false := by simpa using hr
      rw [this]
      simp
  rw [walkDefs]
  simp only [hd, hc, Bool.false_eq_true, ↓reduceIte]

/-- The loop never stops with `nil`. -/
theorem walkDefs_stop_ne_nil {σ δ : Type} (kind : String) (name : δ → String)
    (repeatable : δ → Bool) (eval : δ → σ → Outcome σ) (node : Node) (l : List δ) :
    ∀ (used : List String) (s : σ) (out : Outcome σ),
      walkDefs kind name repeatable eval node l used s = .stop out →
      ∀ t, out ≠ .ret none t := by
  induction l with
  | nil => intro used s out h; simp [walkDefs] at h
  | cons d rest ih =>
    intro used s out h t
    by_cases hn : name d = node.Name
    · by_cases hr : repeatable d = true ∨ node.Name ∉ used
      · rw [walkDefs_cons_eval kind name repeatable eval node d rest used s hn hr] at h
        cases he : eval d s with
        | panic msg =>
          rw [he] at h
          simp only [Walk.stop.injEq] at h
          subst h
          simp
        | ret e s1 =>
          cases e with
          | none =>
            rw [he] at h
            exact ih _ _ _ h t
          | some err =>
            rw [he] at h
            simp only [Walk.stop.injEq] at h
            subst h
            simp
      · have hr1 : repeatable d = false := by
          cases hrd : repeatable d
          · rfl
          · exact absurd (Or.inl hrd) hr
        have hu : node.Name ∈ used := by
          by_contra hu
          exact hr (Or.inr hu)
        rw [walkDefs_cons_repeated kind name repeatable eval node d rest used s hn hr1 hu] at h
        simp only [Walk.stop.injEq] at h
        subst h
        simp
    · rw [walkDefs_cons_skip kind name repeatable eval node d rest used s hn] at h
      exact ih _ _ _ h t

/-- When the loop goes through, the names marked used are the ones marked
before and, if a definition has the name of the node, that name. -/
theorem walkDefs_next_used {σ δ : Type} (kind : String) (name : δ → String)
    (repeatable : δ → Bool) (eval : δ → σ → Outcome σ) (node : Node) (l : List δ) :
    ∀ (used used1 : List String) (s s1 : σ),
      walkDefs kind name repeatable eval node l used s = .next used1 s1 →
      (∀ y ∈ used, y ∈ used1) ∧ (∀ y ∈ used1, y ∈ used ∨ y = node.Name) ∧
      ((∃ d ∈ l, name d = node.Name) → node.Name ∈ used1) := by
  induction l with
  | nil =>
    intro used used1 s s1 h
    simp only [walkDefs, Walk.next.injEq] at h
    obtain ⟨rfl, rfl⟩ := h
    exact ⟨fun y hy => hy, fun y hy => Or.inl hy, by simp⟩
  | cons d rest ih =>
    intro used used1 s s1 h
    by_cases hn : name d = node.Name
    · by_cases hr : repeatable d = true ∨ node.Name ∉ used
      · rw [walkDefs_cons_eval kind name repeatable eval node d rest used s hn hr] at h
        cases he : eval d s with
        | panic msg => rw [he] at h; simp at h
        | ret e t =>
          cases e with
          | some err => rw [he] at h; simp at h
          | none =>
            rw [he] at h
            obtain ⟨h1, h2, -⟩ := ih _ _ _ _ h
            refine ⟨fun y hy => h1 y (List.mem_cons_of_mem _ hy), ?_, ?_⟩
            · intro y hy
              rcases h2 y hy with h3 | h3
              · rcases List.mem_cons.1 h3 with h4 | h4
                · exact Or.inr h4
                · exact Or.inl h4
              · exact Or.inr h3
            · intro _
              exact h1 _ (List.mem_cons_self _ _)
      · have hr1 : repeatable d = false := by
          cases hrd : repeatable d
          · rfl
          · exact absurd (Or.inl hrd) hr
        have hu : node.Name ∈ used := by
          by_contra hu
          exact hr (Or.inr hu)
        rw [walkDefs_cons_repeated kind name repeatable eval node d rest used s hn hr1 hu] at h
        simp at h
    · rw [walkDefs_cons_skip kind name repeatable eval node d rest used s hn] at h
      obtain ⟨h1, h2, h3⟩ := ih _ _ _ _ h
      refine ⟨h1, h2, ?_⟩
      rintro ⟨x, hx, hxn⟩
      rcases List.mem_cons.1 hx with rfl | hx
      · exact absurd hxn hn
      · exact h3 ⟨x, hx, hxn⟩

/-- While the name of the node is marked used, a loop that goes through has
met no definition of that name that is not repeatable. -/
theorem walkDefs_next_repeatable {σ δ : Type} (kind : String) (name : δ → String)
    (repeatable : δ → Bool) (eval : δ → σ → Outcome σ) (node : Node) (l : List δ) :
    ∀ (used used1 : List String) (s s1 : σ),
      walkDefs kind name repeatable eval node l used s = .next used1 s1 →
      node.Name ∈ used → ∀ d ∈ l, name d = node.Name → repeatable d = true := by
  induction l with
  | nil => intro used used1 s s1 _ _ d hd; simp at hd
  | cons x rest ih =>
    intro used used1 s s1 h hu d hd hdn
    by_cases hn : name x = node.Name
    · cases hrx : repeatable x with
      | false =>
        rw [walkDefs_cons_repeated kind name repeatable eval node x rest used s hn hrx hu] at h
        simp at h
      | true =>
        rw [walkDefs_cons_eval kind name repeatable eval node x rest used s hn (Or.inl hrx)] at h
        rcases List.mem_cons.1 hd with rfl | hd
        · exact hrx
        · cases he : eval x s with
          | panic msg => rw [he] at h; simp at h
          | ret e t =>
            cases e with
            | some err => rw [he] at h; simp at h
            | none =>
              rw [he] at h
              exact ih _ _ _ _ h (List.mem_cons_self _ _) d hd hdn
    · rw [walkDefs_cons_skip kind name repeatable eval node x rest used s hn] at h
      rcases List.mem_cons.1 hd with rfl | hd
      · exact absurd hdn hn
      · exact ih _ _ _ _ h hu d hd hdn

/-- When the loop goes through, a definition of the name of the node that is
not repeatable is the first definition of that name in the list. -/
theorem walkDefs_next_first {σ δ : Type} (kind : String) (name : δ → String)
    (repeatable : δ → Bool) (eval : δ → σ → Outcome σ) (node : Node) (a : δ) (l2 : List δ)
    (ha : name a = node.Name) (hra : repeatable a = false) (l1 : List δ) :
    ∀ (used used1 : List String) (s s1 : σ),
      walkDefs kind name repeatable eval node (l1 ++ a :: l2) used s = .next used1 s1 →
      ∀ d ∈ l1, name d ≠ node.Name := by
  induction l1 with
  | nil => intro used used1 s s1 _ d hd; simp at hd
  | cons x rest ih =>
    intro used used1 s s1 h d hd
    rw [List.cons_append] at h
    by_cases hn : name x = node.Name
    · exfalso
      by_cases hr : repeatable x = true ∨ node.Name ∉ used
      · rw [walkDefs_cons_eval kind name repeatable eval node x _ used s hn hr] at h
        cases he : eval x s with
        | panic msg => rw [he] at h; simp at h
        | ret e t =>
          cases e with
          | some err => rw [he] at h; simp at h
          | none =>
            rw [he] at h
            have := walkDefs_next_repeatable kind name repeatable eval node _ _ _ _ _ h
              (List.mem_cons_self _ _) a (by simp) ha
            rw [hra] at this
            cases this
      · have hr1 : repeatable x = false := by
          cases hrd : repeatable x
          · rfl
          · exact absurd (Or.inl hrd) hr
        have hu : node.Name ∈ used := by
          by_contra hu
          exact hr (Or.inr hu)
        rw [walkDefs_cons_repeated kind name repeatable eval node x _ used s hn hr1 hu] at h
        simp at h
    · rw [walkDefs_cons_skip kind name repeatable eval node x _ used s hn] at h
      rcases List.mem_cons.1 hd with rfl | hd
      · exact hn
      · exact ih _ _ _ _ h d hd

/-- Definitions of other names at the head of the list are passed over. -/
theorem walkDefs_append_skip {σ δ : Type} (kind : String) (name : δ → String)
    (repeatable : δ → Bool) (eval : δ → σ → Outcome σ) (node : Node) (l2 : List δ)
    (used : List String) (s : σ) (l1 : List δ) (h : ∀ d ∈ l1, name d ≠ node.Name) :
    walkDefs kind name repeatable eval node (l1 ++ l2) used s =
      walkDefs kind name repeatable eval node l2 used s := by
  induction l1 with
  | nil => rfl
  | cons x rest ih =>
    rw [List.cons_append,
      walkDefs_cons_skip kind name repeatable eval node x _ used s (h x (List.mem_cons_self _ _))]
    exact ih (fun d hd => h d (List.mem_cons_of_mem _ hd))

/-- The loop over a list that holds one definition `a` of the name of the
node, repeatable or met while the name is not marked used, and no other
definition of that name: the evaluation of the node by `a`. -/
theorem walkDefs_single {σ δ : Type} (kind : String) (name : δ → String)
    (repeatable : δ → Bool) (eval : δ → σ → Outcome σ) (node : Node) (a : δ) (l1 l2 : List δ)
    (used : List String) (s : σ)
    (h1 : ∀ d ∈ l1, name d ≠ node.Name) (h2 : ∀ d ∈ l2, name d ≠ node.Name)
    (ha : name a = node.Name) (hr : repeatable a = true ∨ node.Name ∉ used) :
    walkDefs kind name repeatable eval node (l1 ++ a :: l2) used s =
      match eval a s with
      | .ret none s1 => .next (node.Name :: used) s1
      | out => .stop out := by
  rw [walkDefs_append_skip kind name repeatable eval node _ used s l1 h1,
    walkDefs_cons_eval kind name repeatable eval node a l2 used s ha hr]
  cases he : eval a s with
  | panic msg => rfl
  | ret e t =>
    cases e with
    | some err => rfl
    | none => exact walkDefs_no_match kind name repeatable eval node l2 _ t h2

/-- A list that filters to one element is that element between two lists
that filter to nothing. -/
theorem filter_eq_singleton {δ : Type} (q : δ → Bool) (l : List δ) (a : δ)
    (h : l.filter q = [a]) :
    ∃ l1 l2, l = l1 ++ a :: l2 ∧ (∀ d ∈ l1, q d = false) ∧ q a = true ∧
      (∀ d ∈ l2, q d = false) := by
  obtain ⟨l1, l2, hl, h1, ha, h2⟩ := List.filter_eq_cons_iff.1 h
  refine ⟨l1, l2, hl, ?_, ha, ?_⟩
  · intro d hd
    simpa using h1 d hd
  · intro d hd
    have := List.filter_eq_nil_iff.1 h2 d hd
    simpa using this

/-! ### The loop over the nodes -/

/-- When the loop over a list of nodes goes through, the loop over a longer
list goes on from there: with more names marked used, among them the name of
every node of the list that has the name of a definition; and both loops over
the definitions have gone through at every node of the list. -/
theorem walkNodes_passed {σ : Type} (H : Schema σ) (nc : NodesContainer) (pre : List Node) :
    ∀ (uD uB : List String) (s s1 : σ), walkNodes H nc pre uD uB s = .ret none s1 →
      ∃ uD1 uB1,
        (∀ rest, walkNodes H nc (pre ++ rest) uD uB s = walkNodes H nc rest uD1 uB1 s1) ∧
        (∀ y ∈ uD, y ∈ uD1) ∧ (∀ y ∈ uB, y ∈ uB1) ∧
        (∀ n ∈ pre,
          (∃ u u1 t t1, walkDefs "directive" (fun d => d.name) (fun d => d.repeatable)
            (fun d t => d.Evaluate n t) n (nc.Directives.map H.directive) u t = .next u1 t1) ∧
          ((∃ d ∈ nc.Directives.map H.directive, d.name = n.Name) → n.Name ∈ uD1)) ∧
        (∀ n ∈ pre,
          (∃ u u1 t t1, walkDefs "block" (fun d => d.name) (fun d => d.repeatable)
            (fun d t => BlockDef.Evaluate H d n t) n (nc.Blocks.map H.block) u t = .next u1 t1) ∧
          ((∃ d ∈ nc.Blocks.map H.block, d.name = n.Name) → n.Name ∈ uB1)) := by
  induction pre with
  | nil =>
    intro uD uB s s1 h
    rw [walkNodes_nil] at h
    simp only [Outcome.ret.injEq, true_and] at h
    subst h
    exact ⟨uD, uB, fun rest => rfl, fun y hy => hy, fun y hy => hy, by simp, by simp⟩
  | cons n pre ih =>
    intro uD uB s s1 h
    rw [walkNodes_cons] at h
    cases hdir : walkDefs "directive" (fun d => d.name) (fun d => d.repeatable)
        (fun d t => d.Evaluate n t) n (nc.Directives.map H.directive) uD s with
    | stop out =>
      rw [hdir] at h
      simp only at h
      exact absurd h (walkDefs_stop_ne_nil _ _ _ _ _ _ _ _ _ hdir s1)
    | next uD0 s0 =>
      rw [hdir] at h
      simp only at h
      cases hblk : walkDefs "block" (fun d => d.name) (fun d => d.repeatable)
          (fun d t => BlockDef.Evaluate H d n t) n (nc.Blocks.map H.block) uB s0 with
      | stop out =>
        rw [hblk] at h
        simp only at h
        exact absurd h (walkDefs_stop_ne_nil _ _ _ _ _ _ _ _ _ hblk s1)
      | next uB0 t0 =>
        rw [hblk] at h
        simp only at h
        obtain ⟨uD1, uB1, happ, hsubD, hsubB, hD, hB⟩ := ih uD0 uB0 t0 s1 h
        obtain ⟨hd1, -, hd3⟩ := walkDefs_next_used _ _ _ _ _ _ _ _ _ _ hdir
        obtain ⟨hb1, -, hb3⟩ := walkDefs_next_used _ _ _ _ _ _ _ _ _ _ hblk
        refine ⟨uD1, uB1, ?_, fun y hy => hsubD y (hd1 y hy), fun y hy => hsubB y (hb1 y hy),
          ?_, ?_⟩
        · intro rest
          rw [List.cons_append, walkNodes_cons, hdir]
          simp only
          rw [hblk]
          simp only
          exact happ rest
        · intro m hm
          rcases List.mem_cons.1 hm with rfl | hm
          · exact ⟨⟨uD, uD0, s, s0, hdir⟩, fun hex => hsubD _ (hd3 hex)⟩
          · exact hD m hm
        · intro m hm
          rcases List.mem_cons.1 hm with rfl | hm
          · exact ⟨⟨uB, uB0, s0, t0, hblk⟩, fun hex => hsubB _ (hb3 hex)⟩
          · exact hB m hm

/-- At a node whose name is marked used, a loop over definitions among which
one of that name is not repeatable returns the repetition error, if the same
loop has gone through at an earlier node of that name. -/
theorem walkDefs_second {σ δ : Type} (kind : String) (name : δ → String)
    (repeatable : δ → Bool) (eval1 eval2 : δ → σ → Outcome σ) (n1 n2 : Node) (l : List δ)
    (a : δ) (hmem : a ∈ l) (ha : name a = n2.Name) (hra : repeatable a = false)
    (hsame : n1.Name = n2.Name) (u u1 : List String) (t t1 : σ)
    (hpass : walkDefs kind name repeatable eval1 n1 l u t = .next u1 t1)
    (used : List String) (s : σ) (hu : n2.Name ∈ used) :
    walkDefs kind name repeatable eval2 n2 l used s =
      .stop (.ret (some (NodeErr n2 (kind ++ " '" ++ n2.Name ++ "' may not be repeated"))) s) := by
  obtain ⟨l1, l2, rfl⟩ := List.append_of_mem hmem
  have hfirst := walkDefs_next_first kind name repeatable eval1 n1 a l2 (ha.trans hsame.symm) hra
    l1 u u1 t t1 hpass
  rw [walkDefs_append_skip kind name repeatable eval2 n2 _ used s l1
    (fun d hd => by rw [← hsame]; exact hfirst d hd)]
  exact walkDefs_cons_repeated kind name repeatable eval2 n2 a l2 used s ha hra hu

/-- Nodes at the head of the list that have the name of no definition are
passed over. -/
theorem walkNodes_skip_unknown {σ : Type} (H : Schema σ) (nc : NodesContainer)
    (rest : List Node) (pre : List Node) :
    ∀ (uD uB : List String) (s : σ),
      (∀ m ∈ pre, ∀ d ∈ nc.Directives.map H.directive, d.name ≠ m.Name) →
      (∀ m ∈ pre, ∀ b ∈ nc.Blocks.map H.block, b.name ≠ m.Name) →
      walkNodes H nc (pre ++ rest) uD uB s = walkNodes H nc rest uD uB s := by
  induction pre with
  | nil => intro uD uB s _ _; rfl
  | cons n pre ih =>
    intro uD uB s hd hb
    rw [List.cons_append, walkNodes_cons,
      walkDefs_no_match "directive" _ _ _ n _ uD s (hd n (List.mem_cons_self _ _))]
    simp only
    rw [walkDefs_no_match "block" _ _ _ n _ uB s (hb n (List.mem_cons_self _ _))]
    simp only
    exact ih uD uB s (fun m hm => hd m (List.mem_cons_of_mem _ hm))
      (fun m hm => hb m (List.mem_cons_of_mem _ hm))

/-- One step of the loop over the nodes at a node whose name is the name of
one registered directive definition and of no other definition. -/
theorem walkNodes_single_directive {σ : Type} (H : Schema σ) (nc : NodesContainer)
    (D : DirectiveDef σ) (n : Node) (rest : List Node) (uD uB : List String) (s : σ)
    (hD : (nc.Directives.map H.directive).filter (fun d => d.name == n.Name) = [D])
    (hB : (nc.Blocks.map H.block).filter (fun b => b.name == n.Name) = [])
    (hr : D.repeatable = true ∨ n.Name ∉ uD) :
    walkNodes H nc (n :: rest) uD uB s =
      match D.Evaluate n s with
      | .ret none s1 => walkNodes H nc rest (n.Name :: uD) uB s1
      | out => out := by
  obtain ⟨l1, l2, hl, h1, ha, h2⟩ := filter_eq_singleton _ _ _ hD
  have hb : ∀ b ∈ nc.Blocks.map H.block, b.name ≠ n.Name := by
    intro b hb
    have := List.filter_eq_nil_iff.1 hB b hb
    simpa using this
  rw [walkNodes_cons, hl,
    walkDefs_single "directive" (fun d => d.name) (fun d => d.repeatable)
      (fun d t => d.Evaluate n t) n D l1 l2 uD s
      (fun d hd => by simpa using h1 d hd) (fun d hd => by simpa using h2 d hd)
      (by simpa using ha) hr]
  cases he : D.Evaluate n s with
  | panic msg => rfl
  | ret e t =>
    cases e with
    | some err => rfl
    | none =>
      simp only
      rw [walkDefs_no_match "block" _ _ _ n _ uB t hb]

/-- One step of the loop over the nodes at a node whose name is the name of
one registered block definition and of no other definition. -/
theorem walkNodes_single_block {σ : Type} (H : Schema σ) (nc : NodesContainer)
    (B : BlockDef σ) (n : Node) (rest : List Node) (uD uB : List String) (s : σ)
    (hD : (nc.Directives.map H.directive).filter (fun d => d.name == n.Name) = [])
    (hB : (nc.Blocks.map H.block).filter (fun b => b.name == n.Name) = [B])
    (hr : B.repeatable = true ∨ n.Name ∉ uB) :
    walkNodes H nc (n :: rest) uD uB s =
      match BlockDef.Evaluate H B n s with
      | .ret none s1 => walkNodes H nc rest uD (n.Name :: uB) s1
      | out => out := by
  obtain ⟨l1, l2, hl, h1, ha, h2⟩ := filter_eq_singleton _ _ _ hB
  have hd : ∀ d ∈ nc.Directives.map H.directive, d.name ≠ n.Name := by
    intro d hd
    have := List.filter_eq_nil_iff.1 hD d hd
    simpa using this
  rw [walkNodes_cons, walkDefs_no_match "directive" _ _ _ n _ uD s hd]
  simp only
  rw [hl, walkDefs_single "block" (fun d => d.name) (fun d => d.repeatable)
      (fun d t => BlockDef.Evaluate H d n t) n B l1 l2 uB s
      (fun d hd => by simpa using h1 d hd) (fun d hd => by simpa using h2 d hd)
      (by simpa using ha) hr]
  cases he : BlockDef.Evaluate H B n s with
  | panic msg => rfl
  | ret e t =>
    cases e with
    | some err => rfl
    | none => rfl

/-- Calls in succession of two functions that agree are the same. -/
theorem repeatCall_congr {σ : Type} (f g : σ → Outcome σ) (h : ∀ s, f s = g s) :
    ∀ (k : Nat) (s : σ), repeatCall f k s = repeatCall g k s := by
  intro k
  induction k with
  | zero => intro s; rfl
  | succ k ih =>
    intro s
    simp only [repeatCall, h s]
    cases g s with
    | panic msg => rfl
    | ret e t =>
      cases e with
      | some err => rfl
      | none => exact ih t

/-! ### The repetition check -/

/-- The repetition check is reached only at a definition of the name of the
node. -/
theorem walkDefsRepeats_match {σ δ : Type} (name : δ → String) (repeatable : δ → Bool)
    (eval : δ → σ → Outcome σ) (node : Node) (l : List δ) :
    ∀ (used : List String) (s : σ),
      walkDefsRepeats name repeatable eval node l used s = true →
      ∃ d ∈ l, name d = node.Name := by
  induction l with
  | nil => intro used s h; simp [walkDefsRepeats] at h
  | cons x rest ih =>
    intro used s h
    by_cases hn : name x = node.Name
    · exact ⟨x, List.mem_cons_self _ _, hn⟩
    · have hx : (node.Name == name x) = false := by
        simp only [beq_eq_false_iff_ne, ne_eq]
        exact fun h1 => hn h1.symm
      rw [walkDefsRepeats] at h
      simp only [hx, Bool.false_eq_true, ↓reduceIte] at h
      obtain ⟨d, hd, hdn⟩ := ih used s h
      exact ⟨d, List.mem_cons_of_mem _ hd, hdn⟩

/-- When the repetition check is reached, the loop returns the repetition
error; and the name of the node was marked used before the loop, or the list
holds two definitions of that name. -/
theorem walkDefsRepeats_cause {σ δ : Type} (kind : String) (name : δ → String)
    (repeatable : δ → Bool) (eval : δ → σ → Outcome σ) (node : Node) (l : List δ) :
    ∀ (used : List String) (s : σ),
      walkDefsRepeats name repeatable eval node l used s = true →
      (∃ s1, walkDefs kind name repeatable eval node l used s =
        .stop (.ret (some (NodeErr node (kind ++ " '" ++ node.Name ++ "' may not be repeated")))
          s1)) ∧
      (node.Name ∈ used ∨ 2 ≤ l.countP (fun d => name d == node.Name)) := by
  induction l with
  | nil => intro used s h; simp [walkDefsRepeats] at h
  | cons x rest ih =>
    intro used s h
    by_cases hn : name x = node.Name
    · have hx : (node.Name == name x) = true := by simp [hn]
      have hx1 : (name x == node.Name) = true := by simp [hn]
      rw [walkDefsRepeats] at h
      simp only [hx, ↓reduceIte] at h
      by_cases hc : (!repeatable x && used.contains node.Name) = true
      · have hr : repeatable x = false := by
          cases hrx : repeatable x <;> simp_all
        have hu : node.Name ∈ used := by
          rw [hr] at hc
          simpa using hc
        exact ⟨⟨s, walkDefs_cons_repeated kind name repeatable eval node x rest used s hn hr hu⟩,
          Or.inl hu⟩
      · simp only [hc, Bool.false_eq_true, ↓reduceIte] at h
        have hr : repeatable x = true ∨ node.Name ∉ used := by
          cases hrx : repeatable x
          · right
            intro hu
            apply hc
            simp [hrx, hu]
          · exact Or.inl rfl
        rw [walkDefs_cons_eval kind name repeatable eval node x rest used s hn hr]
        cases he : eval x s with
        | panic msg => rw [he] at h; simp at h
        | ret e t =>
          cases e with
          | some err => rw [he] at h; simp at h
          | none =>
            rw [he] at h
            simp only at h
            obtain ⟨hstop, -⟩ := ih _ _ h
            obtain ⟨d, hd, hdn⟩ := walkDefsRepeats_match name repeatable eval node rest _ _ h
            refine ⟨hstop, Or.inr ?_⟩
            have : 0 < rest.countP (fun d => name d == node.Name) :=
              List.countP_pos_iff.2 ⟨d, hd, by simp [hdn]⟩
            rw [List.countP_cons]
            simp only [hx1, ↓reduceIte]
            omega
    · have hx : (node.Name == name x) = false := by
        simp only [beq_eq_false_iff_ne, ne_eq]
        exact fun h1 => hn h1.symm
      have hx1 : (name x == node.Name) = false := by simpa using hn
      rw [walkDefsRepeats] at h
      simp only [hx, Bool.false_eq_true, ↓reduceIte] at h
      rw [walkDefs_cons_skip kind name repeatable eval node x rest used s hn]
      obtain ⟨hstop, hcause⟩ := ih used s h
      refine ⟨hstop, ?_⟩
      rcases hcause with h1 | h1
      · exact Or.inl h1
      · right
        rw [List.countP_cons]
        simp only [hx1, Bool.false_eq_true, ↓reduceIte]
        omega

/-- When the loop over the nodes returns through a repetition check at the
node of index `i`, it returns the repetition error of that node; and the name
of that node, which is the name of a registered definition, was marked used
before the loop, or is the name of an earlier node of the list, or is the name
of two definitions of one kind. -/
theorem repeatedAt_cause {σ : Type} (H : Schema σ) (nc : NodesContainer) (nodes : List Node) :
    ∀ (uD uB : List String) (s : σ) (i : Nat), repeatedAt H nc nodes uD uB s = some i →
      ∃ n, nodes[i]? = some n ∧
        (∃ kind s1, (kind = "directive" ∨ kind = "block") ∧
          walkNodes H nc nodes uD uB s =
            .ret (some (NodeErr n (kind ++ " '" ++ n.Name ++ "' may not be repeated"))) s1) ∧
        ((∃ d ∈ nc.Directives.map H.directive, d.name = n.Name) ∨
          (∃ b ∈ nc.Blocks.map H.block, b.name = n.Name)) ∧
        (n.Name ∈ uD ∨ n.Name ∈ uB ∨
          (∃ j m, j < i ∧ nodes[j]? = some m ∧ m.Name = n.Name) ∨
          2 ≤ (nc.Directives.map H.directive).countP (fun d => d.name == n.Name) ∨
          2 ≤ (nc.Blocks.map H.block).countP (fun b => b.name == n.Name)) := by
  induction nodes with
  | nil => intro uD uB s i h; simp [repeatedAt] at h
  | cons n rest ih =>
    intro uD uB s i h
    rw [repeatedAt] at h
    rw [walkNodes_cons]
    cases hdir : walkDefs "directive" (fun d => d.name) (fun d => d.repeatable)
        (fun d t => d.Evaluate n t) n (nc.Directives.map H.directive) uD s with
    | stop out =>
      rw [hdir] at h
      simp only at h
      by_cases hrep : walkDefsRepeats (fun d => d.name) (fun d => d.repeatable)
          (fun d t => d.Evaluate n t) n (nc.Directives.map H.directive) uD s = true
      · simp only [hrep, ↓reduceIte, Option.some.injEq] at h
        subst h
        obtain ⟨⟨s1, hstop⟩, hcause⟩ := walkDefsRepeats_cause "directive" _ _ _ n _ uD s hrep
        rw [hdir] at hstop
        simp only [Walk.stop.injEq] at hstop
        refine ⟨n, by simp, ⟨"directive", s1, Or.inl rfl, hstop⟩,
          Or.inl (walkDefsRepeats_match _ _ _ n _ uD s hrep), ?_⟩
        rcases hcause with h1 | h1
        · exact Or.inl h1
        · exact Or.inr (Or.inr (Or.inr (Or.inl h1)))
      · simp [hrep] at h
    | next uD0 s0 =>
      rw [hdir] at h
      simp only at h ⊢
      cases hblk : walkDefs "block" (fun d => d.name) (fun d => d.repeatable)
          (fun d t => BlockDef.Evaluate H d n t) n (nc.Blocks.map H.block) uB s0 with
      | stop out =>
        rw [hblk] at h
        simp only at h
        by_cases hrep : walkDefsRepeats (fun d => d.name) (fun d => d.repeatable)
            (fun d t => BlockDef.Evaluate H d n t) n (nc.Blocks.map H.block) uB s0 = true
        · simp only [hrep, ↓reduceIte, Option.some.injEq] at h
          subst h
          obtain ⟨⟨s1, hstop⟩, hcause⟩ := walkDefsRepeats_cause "block" _ _ _ n _ uB s0 hrep
          rw [hblk] at hstop
          simp only [Walk.stop.injEq] at hstop
          refine ⟨n, by simp, ⟨"block", s1, Or.inr rfl, hstop⟩,
            Or.inr (walkDefsRepeats_match _ _ _ n _ uB s0 hrep), ?_⟩
          rcases hcause with h1 | h1
          · exact Or.inr (Or.inl h1)
          · exact Or.inr (Or.inr (Or.inr (Or.inr h1)))
        · simp [hrep] at h
      | next uB0 t0 =>
        rw [hblk] at h
        simp only at h ⊢
        obtain ⟨i0, hi0, rfl⟩ := Option.map_eq_some'.1 h
        obtain ⟨m, hm, hout, hmatch, hcause⟩ := ih uD0 uB0 t0 i0 hi0
        obtain ⟨-, hd2, -⟩ := walkDefs_next_used _ _ _ _ _ _ _ _ _ _ hdir
        obtain ⟨-, hb2, -⟩ := walkDefs_next_used _ _ _ _ _ _ _ _ _ _ hblk
        refine ⟨m, by simpa using hm, hout, hmatch, ?_⟩
        have hearly : ∃ j k, j < i0 + 1 ∧ (n :: rest)[j]? = some k ∧ k.Name = n.Name :=
          ⟨0, n, by omega, by simp, rfl⟩
        rcases hcause with h1 | h1 | ⟨j, k, hj, hk, hkn⟩ | h1 | h1
        · rcases hd2 _ h1 with h2 | h2
          · exact Or.inl h2
          · rw [h2]
            exact Or.inr (Or.inr (Or.inl hearly))
        · rcases hb2 _ h1 with h2 | h2
          · exact Or.inr (Or.inl h2)
          · rw [h2]
            exact Or.inr (Or.inr (Or.inl hearly))
        · exact Or.inr (Or.inr (Or.inl ⟨j + 1, k, by omega, by simpa using hk, hkn⟩))
        · exact Or.inr (Or.inr (Or.inr (Or.inl h1)))
        · exact Or.inr (Or.inr (Or.inr (Or.inr h1)))

/-- The loop over the nodes of a container in which the name x belongs to one
registered directive definition, marked repeatable, and to no other
definition, on a list of nodes named x or of unknown names. -/
theorem walkNodes_repeatable_directive {σ : Type} (H : Schema σ) (nc : NodesContainer)
    (x : String) (D : DirectiveDef σ)
    (hD : (nc.Directives.map H.directive).filter (fun d => d.name == x) = [D])
    (hB : (nc.Blocks.map H.block).filter (fun b => b.name == x) = [])
    (hrep : D.repeatable = true) (nodes : List Node) :
    ∀ (uD uB : List String) (s : σ),
      (∀ n ∈ nodes, n.Name = x ∨
        ((∀ d ∈ nc.Directives.map H.directive, d.name ≠ n.Name) ∧
          (∀ b ∈ nc.Blocks.map H.block, b.name ≠ n.Name))) →
      walkNodes H nc nodes uD uB s =
        evalEach (fun n t => D.Evaluate n t) (nodes.filter (fun n => n.Name == x)) s := by
  induction nodes with
  | nil => intro uD uB s _; rw [walkNodes_nil]; rfl
  | cons n rest ih =>
    intro uD uB s hnodes
    have hrest := fun m hm => hnodes m (List.mem_cons_of_mem _ hm)
    by_cases hn : n.Name = x
    · have hf : (n.Name == x) = true := by simp [hn]
      rw [List.filter_cons]
      simp only [hf, ↓reduceIte]
      rw [walkNodes_single_directive H nc D n rest uD uB s (by rw [hn]; exact hD)
          (by rw [hn]; exact hB) (Or.inl hrep)]
      simp only [evalEach]
      cases he : D.Evaluate n s with
      | panic msg => rfl
      | ret e t =>
        cases e with
        | some err => rfl
        | none => exact ih _ _ t hrest
    · have hf : (n.Name == x) = false := by simpa using hn
      rcases hnodes n (List.mem_cons_self _ _) with h0 | ⟨h1, h2⟩
      · exact absurd h0 hn
      · rw [List.filter_cons]
        simp only [hf, Bool.false_eq_true, ↓reduceIte]
        have := walkNodes_skip_unknown H nc rest [n] uD uB s
          (by intro m hm; simp only [List.mem_singleton] at hm; subst hm; exact h1)
          (by intro m hm; simp only [List.mem_singleton] at hm; subst hm; exact h2)
        simp only [List.singleton_append] at this
        rw [this]
        exact ih _ _ s hrest

/-- The loop over the nodes of a container in which the name x belongs to one
registered block definition, marked repeatable, and to no other definition,
on a list of nodes named x or of unknown names. -/
theorem walkNodes_repeatable_block {σ : Type} (H : Schema σ) (nc : NodesContainer)
    (x : String) (B : BlockDef σ)
    (hD : (nc.Directives.map H.directive).filter (fun d => d.name == x) = [])
    (hB : (nc.Blocks.map H.block).filter (fun b => b.name == x) = [B])
    (hrep : B.repeatable = true) (nodes : List Node) :
    ∀ (uD uB : List String) (s : σ),
      (∀ n ∈ nodes, n.Name = x ∨
        ((∀ d ∈ nc.Directives.map H.directive, d.name ≠ n.Name) ∧
          (∀ b ∈ nc.Blocks.map H.block, b.name ≠ n.Name))) →
      walkNodes H nc nodes uD uB s =
        evalEach (fun n t => BlockDef.Evaluate H B n t)
          (nodes.filter (fun n => n.Name == x)) s := by
  induction nodes with
  | nil => intro uD uB s _; rw [walkNodes_nil]; rfl
  | cons n rest ih =>
    intro uD uB s hnodes
    have hrest := fun m hm => hnodes m (List.mem_cons_of_mem _ hm)
    by_cases hn : n.Name = x
    · have hf : (n.Name == x) = true := by simp [hn]
      rw [List.filter_cons]
      simp only [hf, ↓reduceIte]
      rw [walkNodes_single_block H nc B n rest uD uB s (by rw [hn]; exact hD)
          (by rw [hn]; exact hB) (Or.inl hrep)]
      simp only [evalEach]
      cases he : BlockDef.Evaluate H B n s with
      | panic msg => rfl
      | ret e t =>
        cases e with
        | some err => rfl
        | none => exact ih _ _ t hrest
    · have hf : (n.Name == x) = false := by simpa using hn
      rcases hnodes n (List.mem_cons_self _ _) with h0 | ⟨h1, h2⟩
      · exact absurd h0 hn
      · rw [List.filter_cons]
        simp only [hf, Bool.false_eq_true, ↓reduceIte]
        have := walkNodes_skip_unknown H nc rest [n] uD uB s
          (by intro m hm; simp only [List.mem_singleton] at hm; subst hm; exact h1)
          (by intro m hm; simp only [List.mem_singleton] at hm; subst hm; exact h2)
        simp only [List.singleton_append] at this
        rw [this]
        exact ih _ _ s hrest

/-- The loop over the nodes of a list in which one node has the name of one
registered directive definition and of no other definition, and the other
nodes have the name of no definition: the evaluation of that node by that
definition. -/
theorem walkNodes_single_occurrence {σ : Type} (H : Schema σ) (nc : NodesContainer)
    (D : DirectiveDef σ) (pre post : List Node) (n : Node) (s : σ)
    (hD : (nc.Directives.map H.directive).filter (fun d => d.name == n.Name) = [D])
    (hB : (nc.Blocks.map H.block).filter (fun b => b.name == n.Name) = [])
    (hpre : ∀ m ∈ pre, (∀ d ∈ nc.Directives.map H.directive, d.name ≠ m.Name) ∧
      (∀ b ∈ nc.Blocks.map H.block, b.name ≠ m.Name))
    (hpost : ∀ m ∈ post, (∀ d ∈ nc.Directives.map H.directive, d.name ≠ m.Name) ∧
      (∀ b ∈ nc.Blocks.map H.block, b.name ≠ m.Name)) :
    walkNodes H nc (pre ++ n :: post) [] [] s = D.Evaluate n s := by
  rw [walkNodes_skip_unknown H nc _ pre [] [] s (fun m hm => (hpre m hm).1)
      (fun m hm => (hpre m hm).2),
    walkNodes_single_directive H nc D n post [] [] s hD hB (Or.inr (by simp))]
  cases he : D.Evaluate n s with
  | panic msg => rfl
  | ret e t =>
    cases e with
    | some err => rfl
    | none =>
      simp only
      have := walkNodes_skip_unknown H nc [] post [n.Name] [] t (fun m hm => (hpost m hm).1)
        (fun m hm => (hpost m hm).2)
      rw [List.append_nil] at this
      rw [this, walkNodes_nil]
/-! ## Lemmas on `SetList` and on accumulators -/

/-- The function `SetList` returns `nil` exactly when every `Set` call of the
run returns `nil`, and then leaves the state the run leaves. -/
theorem setList_nil_iff {σ : Type} (v : Value σ) (xs : List String) :
    ∀ (s s1 : σ), SetList v xs s = .ret none s1 ↔ setAll v xs s = some s1 := by
  induction xs with
  | nil =>
    intro s s1
    simp [SetList, setAll]
  | cons x rest ih =>
    intro s s1
    unfold SetList setAll
    cases h : v.Set x s with
    | panic msg => simp
    | ret e t =>
      cases e with
      | none => exact ih t s1
      | some err => simp

/-- After a run of `Set` calls that all return `nil`, `SetList` on a longer
list goes on with the next string on the state the run left. -/
theorem setList_append {σ : Type} (v : Value σ) (pre : List String) :
    ∀ (s s1 : σ), setAll v pre s = some s1 →
      ∀ post, SetList v (pre ++ post) s = SetList v post s1 := by
  induction pre with
  | nil =>
    intro s s1 h post
    simp only [setAll, Option.some.injEq] at h
    subst h
    rfl
  | cons x rest ih =>
    intro s s1 h post
    unfold setAll at h
    rw [List.cons_append]
    conv_lhs => unfold SetList
    cases hx : v.Set x s with
    | panic msg => rw [hx] at h; simp at h
    | ret e t =>
      rw [hx] at h
      cases e with
      | none => exact ih t s1 h post
      | some err => simp at h

/-- The function `SetList` at a string whose `Set` call does not return `nil`:
the outcome of that call. -/
theorem setList_cons_failure {σ : Type} (v : Value σ) (x : String) (post : List String) (s : σ)
    (h : ∀ t, v.Set x s ≠ .ret none t) : SetList v (x :: post) s = v.Set x s := by
  unfold SetList
  cases hx : v.Set x s with
  | panic msg => rfl
  | ret e t =>
    cases e with
    | none => exact absurd hx (h t)
    | some err => rfl

/-- Either every `Set` call of the run on a list returns `nil`, or the list
has a first string whose `Set` call does not. -/
theorem setAll_cases {σ : Type} (v : Value σ) (xs : List String) :
    ∀ (s : σ), (∃ s1, setAll v xs s = some s1) ∨
      (∃ pre x post s1, xs = pre ++ x :: post ∧ setAll v pre s = some s1 ∧
        ∀ t, v.Set x s1 ≠ .ret none t) := by
  induction xs with
  | nil => intro s; exact Or.inl ⟨s, rfl⟩
  | cons x rest ih =>
    intro s
    cases hx : v.Set x s with
    | panic msg =>
      exact Or.inr ⟨[], x, rest, s, rfl, rfl, by intro t; rw [hx]; simp⟩
    | ret e t =>
      cases e with
      | some err => exact Or.inr ⟨[], x, rest, s, rfl, rfl, by intro t; rw [hx]; simp⟩
      | none =>
        rcases ih t with ⟨s1, h1⟩ | ⟨pre, y, post, s1, hxs, hpre, hy⟩
        · exact Or.inl ⟨s1, by unfold setAll; rw [hx]; exact h1⟩
        · refine Or.inr ⟨x :: pre, y, post, s1, by rw [hxs]; rfl, ?_, hy⟩
          unfold setAll
          rw [hx]
          exact hpre

/-- A run of `Set` calls of an accumulator that all return `nil`: every string
is parsed by the element `Value`, and the slice is its previous content
followed by the parsed elements, in the order of the calls. -/
theorem setAll_accumulator {σ T : Type} (acc : Accumulator σ T) (xs : List String) :
    ∀ (s s1 : σ), setAll acc.toValue xs s = some s1 →
      ∃ es, List.Forall₂ (fun x e => acc.element.Set x acc.zero = .ret none e) xs es ∧
        acc.slice.get s1 = acc.slice.get s ++ es := by
  induction xs with
  | nil =>
    intro s s1 h
    simp only [setAll, Option.some.injEq] at h
    subst h
    exact ⟨[], List.Forall₂.nil, by simp⟩
  | cons x rest ih =>
    intro s s1 h
    unfold setAll at h
    simp only [Accumulator.toValue, Accumulator.Set] at h
    cases hx : acc.element.Set x acc.zero with
    | panic msg => rw [hx] at h; simp at h
    | ret e t =>
      rw [hx] at h
      cases e with
      | some err => simp at h
      | none =>
        simp only at h
        obtain ⟨es, hes, hget⟩ := ih _ s1 h
        refine ⟨t :: es, List.Forall₂.cons hx hes, ?_⟩
        rw [hget, acc.slice.get_put]
        simp

/-- The loop of `String.intercalate` with a comma, on a list that is not
empty: a comma and the strings joined by commas are appended. -/
theorem intercalate_go_comma (rest : List String) :
    ∀ (acc b : String),
      String.intercalate.go acc "," (b :: rest) = acc ++ "," ++ joinComma (b :: rest) := by
  induction rest with
  | nil =>
    intro acc b
    simp [String.intercalate.go, joinComma]
  | cons c rest ih =>
    intro acc b
    rw [String.intercalate.go, ih]
    simp [joinComma, String.append_assoc]

/-- The library function that joins with a comma is `joinComma`. -/
theorem intercalate_comma (l : List String) : ",".intercalate l = joinComma l := by
  cases l with
  | nil => rfl
  | cons a rest =>
    cases rest with
    | nil => simp [String.intercalate, String.intercalate.go, joinComma]
    | cons b rest =>
      rw [String.intercalate, intercalate_go_comma]
      simp [joinComma]

/-! ## Lemmas on the first failure of the walk and on repeated appends -/

/-- When the loop at one node does not return `nil`, the loop over a longer
list that starts with this node has the same outcome: the nodes after it have
no part in it. -/
theorem walkNodes_fail_head {σ : Type} (H : Schema σ) (nc : NodesContainer) (n : Node)
    (post : List Node) (uD uB : List String) (s : σ)
    (h : ∀ t, walkNodes H nc [n] uD uB s ≠ .ret none t) :
    walkNodes H nc (n :: post) uD uB s = walkNodes H nc [n] uD uB s := by
  rw [walkNodes_cons, walkNodes_cons]
  rw [walkNodes_cons] at h
  cases hdir : walkDefs "directive" (fun d => d.name) (fun d => d.repeatable)
      (fun d t => d.Evaluate n t) n (nc.Directives.map H.directive) uD s with
  | stop out => rfl
  | next uD0 s0 =>
    rw [hdir] at h
    simp only at h ⊢
    cases hblk : walkDefs "block" (fun d => d.name) (fun d => d.repeatable)
        (fun d t => BlockDef.Evaluate H d n t) n (nc.Blocks.map H.block) uB s0 with
    | stop out => rfl
    | next uB0 t0 =>
      rw [hblk] at h
      simp only at h
      exact absurd (walkNodes_nil H nc uD0 uB0 t0) (h t0)

/-- The method `addArgs` on required arguments that are not variadic returns:
the arguments are appended in order and `minArgs` and `maxArgs` have both
grown by their number, whatever the definition was. -/
theorem addArgs_required {σ : Type} (d : CommonDef σ) (args : List (ArgDef σ))
    (h : ∀ a ∈ args, a.required = true ∧ a.variadic = false) :
    ∃ e, d.addArgs args = .ok e ∧ e.name = d.name ∧ e.args = d.args ++ args ∧
      e.minArgs = d.minArgs + (args.length : Nat) ∧
      e.maxArgs = d.maxArgs + (args.length : Nat) ∧
      e.handler = d.handler ∧ e.repeatable = d.repeatable := by
  have hok : ∃ e, d.addArgs args = .ok e := by
    rw [addArgs_ok_iff]
    rintro (⟨i, j, a, b, _, ha, _, hopt, _⟩ | ⟨i, a, ha, hvar, _⟩)
    · have := (h a (List.getElem?_mem ha)).1
      rw [hopt] at this
      cases this
    · have := (h a (List.getElem?_mem ha)).2
      rw [hvar] at this
      cases this
  obtain ⟨e, he⟩ := hok
  obtain ⟨h1, h2, h3, h4, h5, h6⟩ := addArgsLoop_ok args.length args 0 false d e (by simp) he
  have hcount : args.countP (fun a => a.required) = args.length := by
    rw [List.countP_eq_length]
    intro a ha
    exact (h a ha).1
  have hany : args.any (fun a => a.variadic) = false := by
    rw [List.any_eq_false]
    intro a ha
    simp [(h a ha).2]
  refine ⟨e, he, h1, h2, ?_, ?_, h5, h6⟩
  · rw [h3, hcount]
  · rw [h4, hany]
    simp

/-- A sequence of calls of a method that is `addArgs` on the common part of a
definition, every call with required arguments that are not variadic: the
sequence returns, the arguments of all calls are appended in call order and
`minArgs` and `maxArgs` have both grown by their number. -/
theorem callEach_required {σ δ : Type} (c : δ → CommonDef σ)
    (f : δ → List (ArgDef σ) → Except String δ)
    (hf : ∀ d args e, (c d).addArgs args = .ok e → ∃ d1, f d args = .ok d1 ∧ c d1 = e)
    (calls : List (List (ArgDef σ))) :
    ∀ (d : δ), (∀ args ∈ calls, ∀ a ∈ args, a.required = true ∧ a.variadic = false) →
      ∃ e, callEach f calls d = .ok e ∧ (c e).args = (c d).args ++ calls.flatten ∧
        (c e).minArgs = (c d).minArgs + (calls.flatten.length : Nat) ∧
        (c e).maxArgs = (c d).maxArgs + (calls.flatten.length : Nat) := by
  induction calls with
  | nil =>
    intro d _
    exact ⟨d, rfl, by simp, by simp, by simp⟩
  | cons args rest ih =>
    intro d h
    obtain ⟨e0, he0, -, hargs, hmin, hmax, -, -⟩ :=
      addArgs_required (c d) args (h args (List.mem_cons_self _ _))
    obtain ⟨d1, hd1, hc1⟩ := hf d args e0 he0
    obtain ⟨e, he, h1, h2, h3⟩ := ih d1 (fun l hl => h l (List.mem_cons_of_mem _ hl))
    refine ⟨e, ?_, ?_, ?_, ?_⟩
    · simp only [callEach, hd1]
      exact he
    · rw [h1, hc1, hargs, List.flatten_cons, List.append_assoc]
    · rw [h2, hc1, hmin, List.flatten_cons, List.length_append]
      push_cast
      omega
    · rw [h3, hc1, hmax, List.flatten_cons, List.length_append]
      push_cast
      omega

/-! ## Lemmas on a repeatable directive bound to an accumulator -/

/-- A parsing function that agrees with the element `Value` on every string of
a list relates the list to its image. -/
theorem forall₂_parse {T : Type} (element : Value T) (zero : T) (parse : String → T)
    (xs : List String) (h : ∀ a ∈ xs, element.Set a zero = .ret none (parse a)) :
    List.Forall₂ (fun x e => element.Set x zero = .ret none e) xs (xs.map parse) := by
  induction xs with
  | nil => exact List.Forall₂.nil
  | cons x rest ih =>
    exact List.Forall₂.cons (h x (List.mem_cons_self _ _))
      (ih (fun a ha => h a (List.mem_cons_of_mem _ ha)))

/-- The definition that `NewDirectiveDef` returns for one variadic argument,
after `SetAttrs(Repeatable)`. -/
theorem newDirectiveDef_variadic {σ : Type} (x : String) (v : ArgDef σ) (D0 : DirectiveDef σ)
    (hv : v.variadic = true) (hnew : NewDirectiveDef x [v] = .ok D0) :
    (D0.SetAttrs [Repeatable]).name = x ∧ (D0.SetAttrs [Repeatable]).args = [v] ∧
      (D0.SetAttrs [Repeatable]).minArgs = D0.minArgs ∧
      (D0.SetAttrs [Repeatable]).maxArgs = -1 ∧
      (D0.SetAttrs [Repeatable]).handler = none ∧
      (D0.SetAttrs [Repeatable]).repeatable = true := by
  obtain ⟨c, hc, rfl⟩ := map_eq_ok _ _ _ hnew
  obtain ⟨h1, h2, -, h4, h5, -⟩ := addArgsLoop_ok [v].length [v] 0 false _ c (by simp) hc
  refine ⟨?_, ?_, rfl, ?_, ?_, ?_⟩
  · simpa [DirectiveDef.SetAttrs, CommonDef.new] using h1
  · simpa [DirectiveDef.SetAttrs, CommonDef.new] using h2
  · simpa [DirectiveDef.SetAttrs, hv] using h4
  · simpa [DirectiveDef.SetAttrs, CommonDef.new] using h5
  · simp [DirectiveDef.SetAttrs]

/-- The evaluation, one after the other, of childless nodes by a directive
definition without handler whose only argument is variadic and bound to an
accumulator, when every argument of every node is parsed by the element
`Value`: it returns `nil` and the slice is its previous content followed by
the parsed arguments of all nodes, in order. -/
theorem evalEach_accumulator {σ T : Type} (acc : Accumulator σ T) (D : DirectiveDef σ)
    (v : ArgDef σ) (hargs : D.args = [v]) (hv : v.variadic = true)
    (ht : v.target = acc.toValue) (hmax : D.maxArgs = -1) (hh : D.handler = none)
    (parse : String → T) (occ : List Node) :
    ∀ (s : σ),
      (∀ n ∈ occ, n.Name = D.name ∧ n.Children = [] ∧ D.minArgs ≤ n.Args.length ∧
        ∀ a ∈ n.Args, acc.element.Set a acc.zero = .ret none (parse a)) →
      ∃ s1, evalEach (fun n t => D.Evaluate n t) occ s = .ret none s1 ∧
        acc.slice.get s1 =
          acc.slice.get s ++ ((occ.map (fun n => n.Args)).flatten).map parse := by
  induction occ with
  | nil =>
    intro s _
    exact ⟨s, rfl, by simp⟩
  | cons n rest ih =>
    intro s h
    obtain ⟨hname, hch, hmin, hparse⟩ := h n (List.mem_cons_self _ _)
    obtain ⟨t, hset, hget⟩ :=
      setList_accumulator acc n.Args (n.Args.map parse) s
        (forall₂_parse acc.element acc.zero parse n.Args hparse)
    have hev : D.Evaluate n s = .ret none t := by
      simp only [DirectiveDef.Evaluate, hch, List.length_nil, bne_self_eq_false,
        Bool.false_eq_true, ↓reduceIte]
      rw [evaluate_accepted D.toCommonDef n s hname hmin (Or.inl hmax), hargs]
      unfold bindArgs
      simp only [hv, ↓reduceIte, Nat.zero_le, List.drop_zero, ht, hset, thenHandler, hh]
    obtain ⟨s1, h1, h2⟩ := ih t (fun m hm => h m (List.mem_cons_of_mem _ hm))
    refine ⟨s1, ?_, ?_⟩
    · simp only [evalEach, hev]
      exact h1
    · rw [h2, hget]
      simp

/-! ## Lemmas on messages -/

/-- A text occurs in every text built around it. -/
theorem mentions_mid (a sub b : String) : Mentions (a ++ sub ++ b) sub :=
  ⟨a.data, b.data, by simp [String.data_append]⟩

/-- What occurs in a message occurs in the message that `NodeErr` makes of
it. -/
theorem mentions_nodeErr (node : Node) (msg sub : String) (h : Mentions msg sub) :
    Mentions (NodeErr node msg) sub := by
  unfold NodeErr
  split
  · exact h
  · obtain ⟨a, b, hab⟩ := h
    refine ⟨(node.File ++ ":" ++ toString node.Line ++ ": ").data ++ a, b, ?_⟩
    simp only [String.data_append, List.append_assoc] at hab ⊢
    rw [← hab]

/-! ## Lemmas on the checks of `evaluate` -/

/-- The function `evaluate` on a node that fails the name check or one of the
two arity checks: an error is returned and the state is as it was. -/
theorem evaluate_rejected {σ : Type} (d : CommonDef σ) (node : Node) (s : σ)
    (h : node.Name ≠ d.name ∨ (node.Args.length : Int) < d.minArgs ∨
      (d.maxArgs ≠ -1 ∧ (node.Args.length : Int) > d.maxArgs)) :
    ∃ msg, evaluate d node s = .ret (some msg) s ∧
      ∀ (args : List (ArgDef σ)) (handler : Option (NodeHandler σ)),
        evaluate { d with args := args, handler := handler } node s = .ret (some msg) s := by
  unfold evaluate
  by_cases h1 : node.Name = d.name
  · have hn : (node.Name != d.name) = false := by simp [h1]
    by_cases h2 : (node.Args.length : Int) < d.minArgs
    · simp only [hn, Bool.false_eq_true, ↓reduceIte, h2]
      exact ⟨_, rfl, fun _ _ => rfl⟩
    · rcases h with h | h | ⟨h3, h4⟩
      · exact absurd h1 h
      · exact absurd h h2
      · have hm : (d.maxArgs != -1 && decide ((node.Args.length : Int) > d.maxArgs)) = true := by
          simp [h3, h4]
        simp only [hn, Bool.false_eq_true, ↓reduceIte, h2, hm]
        exact ⟨_, rfl, fun _ _ => rfl⟩
  · have hn : (node.Name != d.name) = true := by simp [h1]
    simp only [hn, ↓reduceIte]
    exact ⟨_, rfl, fun _ _ => rfl⟩

/-- The name and the bounds that one call of `addArgs` on a new definition
leaves: the number of required arguments, and -1 or the number of
arguments. -/
theorem new_addArgs_bounds {σ : Type} (name : String) (args : List (ArgDef σ))
    (c : CommonDef σ) (h : (CommonDef.new name).addArgs args = .ok c) :
    c.name = name ∧ 0 ≤ c.minArgs ∧ (c.maxArgs = -1 ∨ c.minArgs ≤ c.maxArgs) := by
  obtain ⟨h1, -, h3, h4, -, -⟩ := addArgsLoop_ok args.length args 0 false _ c (by simp) h
  simp only [CommonDef.new, zero_add] at h1 h3 h4
  have hle : args.countP (fun a => a.required) ≤ args.length := List.countP_le_length _
  refine ⟨h1, ?_, ?_⟩
  · rw [h3]
    exact Int.natCast_nonneg _
  · by_cases hv : args.any (fun a => a.variadic) = true
    · left
      rw [h4]
      simp [hv]
    · right
      rw [h3, h4]
      simp only [hv, Bool.false_eq_true, ↓reduceIte]
      exact_mod_cast hle

/-- A definition with consistent bounds accepts the nodes of its name that
have `minArgs` arguments: `evaluate` goes on to the binding. -/
theorem evaluate_at_minArgs {σ : Type} (c : CommonDef σ) (node : Node) (s : σ)
    (hb : c.maxArgs = -1 ∨ c.minArgs ≤ c.maxArgs) (hname : node.Name = c.name)
    (hlen : (node.Args.length : Int) = c.minArgs) :
    evaluate c node s = thenHandler c node (bindArgs node.Args 0 c.args s) :=
  evaluate_accepted c node s hname (by omega) (by omega)

/-! ## Lemmas on the number of evaluations of a walk -/

theorem evalsNodes_nil {σ : Type} (H : Schema σ) (nc : NodesContainer)
    (usedDirectives usedBlocks : List String) (s : σ) :
    evalsNodes H nc [] usedDirectives usedBlocks s = 0 := by
  rw [evalsNodes]

/-- One step of the count of the loop over the nodes. -/
theorem evalsNodes_cons {σ : Type} (H : Schema σ) (nc : NodesContainer) (node : Node)
    (rest : List Node) (usedDirectives usedBlocks : List String) (s : σ) :
    evalsNodes H nc (node :: rest) usedDirectives usedBlocks s =
      walkDefsCount (fun d => d.name) (fun d => d.repeatable)
          (fun d t => d.Evaluate node t) (fun _ _ => 1) node
          (nc.Directives.map H.directive) usedDirectives s +
      match walkDefs "directive" (fun d => d.name) (fun d => d.repeatable)
          (fun d t => d.Evaluate node t) node (nc.Directives.map H.directive)
          usedDirectives s with
      | .stop _ => 0
      | .next usedDirectives1 s1 =>
        walkDefsCount (fun d => d.name) (fun d => d.repeatable)
            (fun d t => BlockDef.Evaluate H d node t) (fun d t => evalsBlock H d node t) node
            (nc.Blocks.map H.block) usedBlocks s1 +
        match walkDefs "block" (fun d => d.name) (fun d => d.repeatable)
            (fun d t => BlockDef.Evaluate H d node t) node (nc.Blocks.map H.block)
            usedBlocks s1 with
        | .stop _ => 0
        | .next usedBlocks1 s2 => evalsNodes H nc rest usedDirectives1 usedBlocks1 s2 := by
  rw [evalsNodes]

/-- The count of `BlockDef.Evaluate` in one equation. -/
theorem evalsBlock_eq {σ : Type} (H : Schema σ) (d : BlockDef σ) (node : Node) (s : σ) :
    evalsBlock H d node s =
      1 + match evaluate d.toCommonDef node s with
        | .ret none s1 => evalsNodes H d.toNodesContainer node.Children [] [] s1
        | _ => 0 := by
  cases node with
  | mk name args cs file line =>
    rw [evalsBlock]

theorem nodesCount_cons (n : Node) (rest : List Node) :
    nodesCount (n :: rest) = 1 + nodesCount n.Children + nodesCount rest := by
  cases n with
  | mk name args cs file line =>
    rw [nodesCount, Node.count]

theorem nodesBound_cons (M : Nat) (n : Node) (rest : List Node) :
    nodesBound M (n :: rest) = M * (1 + nodesBound M n.Children) + nodesBound M rest := by
  cases n with
  | mk name args cs file line =>
    rw [nodesBound, Node.bound]

/-- The count of one loop over definitions is at most the number of
definitions of the name of the node times what one call amounts to at
most. -/
theorem walkDefsCount_le {σ δ : Type} (name : δ → String) (repeatable : δ → Bool)
    (eval : δ → σ → Outcome σ) (cost : δ → σ → Nat) (node : Node) (C : Nat) (l : List δ) :
    ∀ (used : List String) (s : σ), (∀ d ∈ l, ∀ t, cost d t ≤ C) →
      walkDefsCount name repeatable eval cost node l used s ≤
        (l.filter (fun d => node.Name == name d)).length * C := by
  induction l with
  | nil =>
    intro used s _
    rw [walkDefsCount]
    exact Nat.zero_le _
  | cons d rest ih =>
    intro used s hc
    have hrest : ∀ e ∈ rest, ∀ t, cost e t ≤ C := fun e he => hc e (List.mem_cons_of_mem _ he)
    rw [walkDefsCount, List.filter_cons]
    by_cases hm : (node.Name == name d) = true
    · simp only [hm, ↓reduceIte, List.length_cons, Nat.succ_mul]
      by_cases hr : (!repeatable d && used.contains node.Name) = true
      · simp only [hr, ↓reduceIte]
        exact Nat.zero_le _
      · simp only [hr, Bool.false_eq_true, ↓reduceIte]
        have h1 := hc d (List.mem_cons_self _ _) s
        cases eval d s with
        | panic msg =>
          simp only
          omega
        | ret e t =>
          cases e with
          | none =>
            simp only
            have h2 := ih (node.Name :: used) t hrest
            omega
          | some err =>
            simp only
            omega
    · simp only [hm, Bool.false_eq_true, ↓reduceIte]
      exact ih used s hrest

/-- The count of the walk of a list of nodes by a container, in a schema all
of whose containers hold at most `M` definitions: at most the bound of the
list. -/
theorem evalsNodes_le_bound {σ : Type} (H : Schema σ) (M : Nat)
    (hH : ∀ p, (H.block p).Directives.length + (H.block p).Blocks.length ≤ M) (k : Nat) :
    ∀ (nodes : List Node), nodesCount nodes ≤ k →
      ∀ (nc : NodesContainer), nc.Directives.length + nc.Blocks.length ≤ M →
        ∀ (uD uB : List String) (s : σ),
          evalsNodes H nc nodes uD uB s ≤ nodesBound M nodes := by
  induction k with
  | zero =>
    intro nodes hk nc _ uD uB s
    cases nodes with
    | nil => rw [evalsNodes_nil]; exact Nat.zero_le _
    | cons n rest => rw [nodesCount_cons] at hk; omega
  | succ k ihk =>
    intro nodes
    induction nodes with
    | nil => intro _ nc _ uD uB s; rw [evalsNodes_nil]; exact Nat.zero_le _
    | cons n rest ih =>
      intro hk nc hnc uD uB s
      rw [nodesCount_cons] at hk
      have hcs : nodesCount n.Children ≤ k := by omega
      have hrest := ih (by omega) nc hnc
      rw [evalsNodes_cons, nodesBound_cons]
      have hA1 : walkDefsCount (fun d : DirectiveDef σ => d.name) (fun d => d.repeatable)
          (fun d t => d.Evaluate n t) (fun _ _ => 1) n (nc.Directives.map H.directive) uD s
          ≤ nc.Directives.length := by
        refine Nat.le_trans (walkDefsCount_le _ _ _ _ n 1 _ uD s (fun _ _ _ => Nat.le_refl 1)) ?_
        rw [Nat.mul_one]
        exact Nat.le_trans (List.length_filter_le _ _) (by simp)
      have hcost : ∀ d ∈ nc.Blocks.map H.block, ∀ t,
          evalsBlock H d n t ≤ 1 + nodesBound M n.Children := by
        intro d hd t
        obtain ⟨p, -, rfl⟩ := List.mem_map.1 hd
        rw [evalsBlock_eq]
        cases evaluate (H.block p).toCommonDef n t with
        | panic msg => simp
        | ret e t1 =>
          cases e with
          | none =>
            simp only [Nat.add_le_add_iff_left]
            exact ihk n.Children hcs _ (hH p) [] [] t1
          | some err => simp
      have hBl : ∀ (u : List String) (t : σ), walkDefsCount (fun d : BlockDef σ => d.name)
          (fun d => d.repeatable) (fun d t => BlockDef.Evaluate H d n t)
          (fun d t => evalsBlock H d n t) n (nc.Blocks.map H.block) u t ≤
            nc.Blocks.length * (1 + nodesBound M n.Children) := by
        intro u t
        have h1 := walkDefsCount_le (fun d : BlockDef σ => d.name) (fun d => d.repeatable)
          (fun d t => BlockDef.Evaluate H d n t) (fun d t => evalsBlock H d n t) n
          (1 + nodesBound M n.Children) (nc.Blocks.map H.block) u t hcost
        exact Nat.le_trans h1 (Nat.mul_le_mul_right _
          (Nat.le_trans (List.length_filter_le _ _) (by simp)))
      have hM : nc.Directives.length + nc.Blocks.length * (1 + nodesBound M n.Children) ≤
          M * (1 + nodesBound M n.Children) := by
        calc nc.Directives.length + nc.Blocks.length * (1 + nodesBound M n.Children)
            ≤ nc.Directives.length * (1 + nodesBound M n.Children)
              + nc.Blocks.length * (1 + nodesBound M n.Children) := by
                apply Nat.add_le_add_right
                exact Nat.le_mul_of_pos_right _ (by omega)
          _ = (nc.Directives.length + nc.Blocks.length) * (1 + nodesBound M n.Children) := by
                rw [Nat.add_mul]
          _ ≤ M * (1 + nodesBound M n.Children) := Nat.mul_le_mul_right _ hnc
      generalize M * (1 + nodesBound M n.Children) = X at hM ⊢
      cases hdir : walkDefs "directive" (fun d => d.name) (fun d => d.repeatable)
          (fun d t => d.Evaluate n t) n (nc.Directives.map H.directive) uD s with
      | stop out =>
        simp only [Nat.add_zero]
        generalize nc.Blocks.length * (1 + nodesBound M n.Children) = Y at hM
        omega
      | next uD1 s1 =>
        simp only
        have hB := hBl uB s1
        generalize nc.Blocks.length * (1 + nodesBound M n.Children) = Y at hM hB
        cases hblk : walkDefs "block" (fun d => d.name) (fun d => d.repeatable)
            (fun d t => BlockDef.Evaluate H d n t) n (nc.Blocks.map H.block) uB s1 with
        | stop out =>
          simp only [Nat.add_zero]
          omega
        | next uB1 s2 =>
          simp only
          refine Nat.le_trans
            (Nat.add_le_add hA1 (Nat.add_le_add hB (hrest uD1 uB1 s2))) ?_
          omega

/-- The count of the walk of a list of nodes by a container, in a schema all
of whose containers hold at most `M` definitions and no two block definitions
of the same name: at most `M` times the number of nodes. -/
theorem evalsNodes_le_linear {σ : Type} (H : Schema σ) (M : Nat)
    (hH : ∀ p, LevelWithin M H (H.block p).toNodesContainer) (k : Nat) :
    ∀ (nodes : List Node), nodesCount nodes ≤ k →
      ∀ (nc : NodesContainer), LevelWithin M H nc →
        ∀ (uD uB : List String) (s : σ),
          evalsNodes H nc nodes uD uB s ≤ M * nodesCount nodes := by
  induction k with
  | zero =>
    intro nodes hk nc _ uD uB s
    cases nodes with
    | nil => rw [evalsNodes_nil]; exact Nat.zero_le _
    | cons n rest => rw [nodesCount_cons] at hk; omega
  | succ k ihk =>
    intro nodes
    induction nodes with
    | nil => intro _ nc _ uD uB s; rw [evalsNodes_nil]; exact Nat.zero_le _
    | cons n rest ih =>
      intro hk nc hnc uD uB s
      rw [nodesCount_cons] at hk
      have hcs : nodesCount n.Children ≤ k := by omega
      have hrest := ih (by omega) nc hnc
      rw [evalsNodes_cons, nodesCount_cons]
      have hA1 : walkDefsCount (fun d : DirectiveDef σ => d.name) (fun d => d.repeatable)
          (fun d t => d.Evaluate n t) (fun _ _ => 1) n (nc.Directives.map H.directive) uD s
          ≤ nc.Directives.length := by
        refine Nat.le_trans (walkDefsCount_le _ _ _ _ n 1 _ uD s (fun _ _ _ => Nat.le_refl 1)) ?_
        rw [Nat.mul_one]
        exact Nat.le_trans (List.length_filter_le _ _) (by simp)
      have hcost : ∀ d ∈ nc.Blocks.map H.block, ∀ t,
          evalsBlock H d n t ≤ 1 + M * nodesCount n.Children := by
        intro d hd t
        obtain ⟨p, -, rfl⟩ := List.mem_map.1 hd
        rw [evalsBlock_eq]
        cases evaluate (H.block p).toCommonDef n t with
        | panic msg => simp
        | ret e t1 =>
          cases e with
          | none =>
            simp only [Nat.add_le_add_iff_left]
            exact ihk n.Children hcs _ (hH p) [] [] t1
          | some err => simp
      have hexp : M * (1 + nodesCount n.Children + nodesCount rest) =
          M + M * nodesCount n.Children + M * nodesCount rest := by
        rw [Nat.mul_add, Nat.mul_add, Nat.mul_one]
      rw [hexp]
      have hDB : ∀ (u : List String) (t : σ), nc.Directives.length +
          walkDefsCount (fun d : BlockDef σ => d.name)
            (fun d => d.repeatable) (fun d t => BlockDef.Evaluate H d n t)
            (fun d t => evalsBlock H d n t) n (nc.Blocks.map H.block) u t ≤
            M + M * nodesCount n.Children := by
        intro u t
        have h1 : walkDefsCount (fun d : BlockDef σ => d.name)
            (fun d => d.repeatable) (fun d t => BlockDef.Evaluate H d n t)
            (fun d t => evalsBlock H d n t) n (nc.Blocks.map H.block) u t ≤
            ((nc.Blocks.map H.block).filter (fun b => n.Name == b.name)).length
              * (1 + M * nodesCount n.Children) :=
          walkDefsCount_le _ _ _ _ n _ _ u t hcost
        have hf1 := hnc.2 n.Name
        have hf2 : ((nc.Blocks.map H.block).filter (fun b => n.Name == b.name)).length
            ≤ nc.Blocks.length :=
          Nat.le_trans (List.length_filter_le _ _) (by simp)
        have hD := hnc.1
        generalize ((nc.Blocks.map H.block).filter (fun b => n.Name == b.name)).length = f
          at h1 hf1 hf2
        have hf : f = 0 ∨ f = 1 := by omega
        rcases hf with rfl | rfl
        · rw [Nat.zero_mul] at h1
          omega
        · rw [Nat.one_mul] at h1
          omega
      generalize M * nodesCount n.Children = X at hDB ⊢
      generalize M * nodesCount rest = Y at hrest ⊢
      cases hdir : walkDefs "directive" (fun d => d.name) (fun d => d.repeatable)
          (fun d t => d.Evaluate n t) n (nc.Directives.map H.directive) uD s with
      | stop out =>
        simp only [Nat.add_zero]
        have := hDB [] s
        omega
      | next uD1 s1 =>
        simp only
        have hB := hDB uB s1
        cases hblk : walkDefs "block" (fun d => d.name) (fun d => d.repeatable)
            (fun d t => BlockDef.Evaluate H d n t) n (nc.Blocks.map H.block) uB s1 with
        | stop out =>
          simp only [Nat.add_zero]
          omega
        | next uB1 s2 =>
          simp only
          have hR := hrest uD1 uB1 s2
          refine Nat.le_trans (Nat.add_le_add hA1 (Nat.add_le_add (Nat.le_refl _) hR)) ?_
          omega

/-- The count of one call of `ModuleBlockDef.Evaluate`, when the containers
of the modules and of the schema hold at most `M` definitions: at most one
more than the bound of the children. -/
theorem evalsModule_le_bound {σ : Type} (H : Schema σ) (M : Nat)
    (hH : ∀ p, (H.block p).Directives.length + (H.block p).Blocks.length ≤ M)
    (d : ModuleBlockDef σ)
    (hd : ∀ x m, d.modules x = some m → m.Directives.length + m.Blocks.length ≤ M)
    (node : Node) (s : σ) :
    evalsModule H d node s ≤ 1 + nodesBound M node.Children := by
  unfold evalsModule
  cases evaluate d.toCommonDef node s with
  | panic msg => simp
  | ret e s1 =>
    cases e with
    | some err => simp
    | none =>
      cases d.moduleName with
      | none => simp
      | some p =>
        cases hm : d.modules (p.get s1) with
        | none => simp [hm]
        | some m =>
          simp only [hm, Nat.add_le_add_iff_left]
          exact evalsNodes_le_bound H M hH _ node.Children (Nat.le_refl _) m
            (hd _ m hm) [] [] s1

/-! ## Lemmas on the handler, the children and the selector -/

/-- For a definition with a handler and a node that passes the name and
arity checks, once the arguments are bound the outcome of `evaluate` is the
outcome of one call of the handler on the node as it was given and on the
state that the binding left. So `Evaluate` of a directive on a childless node
is that outcome too, and an error returned by the handler is returned as it is
by `Evaluate` of a block and of a module block. -/
theorem handler_after_binding {σ : Type} (H : Schema σ) (d : CommonDef σ)
    (h : NodeHandler σ) (node : Node) (s s1 : σ) (e : Option String)
    (hh : d.handler = some h) (hname : node.Name = d.name)
    (hmin : d.minArgs ≤ (node.Args.length : Int))
    (hmax : d.maxArgs = -1 ∨ (node.Args.length : Int) ≤ d.maxArgs)
    (hbind : bindArgs node.Args 0 d.args s = .ret e s1) :
    evaluate d node s = h node s1 ∧
    (node.Children = [] → (DirectiveDef.mk d).Evaluate node s = h node s1) ∧
    (∀ (err : String) (s2 : σ), h node s1 = .ret (some err) s2 →
      (∀ c : NodesContainer,
        BlockDef.Evaluate H { toCommonDef := d, toNodesContainer := c } node s
          = .ret (some err) s2) ∧
      (∀ (modules : String → Option NodesContainer) (moduleName : Option (StringRef σ)),
        ModuleBlockDef.Evaluate H
          { toCommonDef := d, modules := modules, moduleName := moduleName } node s
          = .ret (some err) s2)) := by
  have hev : evaluate d node s = h node s1 := by
    rw [evaluate_accepted d node s hname hmin hmax, hbind]
    simp [thenHandler, hh]
  refine ⟨hev, ?_, ?_⟩
  · intro hch
    simp [DirectiveDef.Evaluate, hch, hev]
  · intro err s2 herr
    constructor
    · intro c
      rw [blockEvaluate_eq, hev, herr]
    · intro modules moduleName
      simp only [ModuleBlockDef.Evaluate, hev, herr]

/-- For a block definition and a node that passes the name and arity
checks of the block, whose arguments are bound and whose handler, if there is
one, returns `nil`, `BlockDef.Evaluate` is `EvaluateTree` of the container of
the block on the children of the node, on the state left by the binding and
the handler. -/
theorem block_evaluates_children {σ : Type} (H : Schema σ) (d : BlockDef σ) (node : Node)
    (s s1 s2 : σ) (e : Option String)
    (hname : node.Name = d.name)
    (hmin : d.minArgs ≤ (node.Args.length : Int))
    (hmax : d.maxArgs = -1 ∨ (node.Args.length : Int) ≤ d.maxArgs)
    (hbind : bindArgs node.Args 0 d.args s = .ret e s1)
    (hh : (d.handler = none ∧ s2 = s1) ∨ (∃ h, d.handler = some h ∧ h node s1 = .ret none s2)) :
    BlockDef.Evaluate H d node s = d.toNodesContainer.EvaluateTree H node.Children s2 := by
  have hev : evaluate d.toCommonDef node s = .ret none s2 := by
    rw [evaluate_accepted d.toCommonDef node s hname hmin hmax, hbind]
    rcases hh with ⟨h0, rfl⟩ | ⟨h, h0, h1⟩
    · simp [thenHandler, h0]
    · simp [thenHandler, h0, h1]
  rw [blockEvaluate_eq, hev]

/-- The example of the specification on nesting: one call of `EvaluateTree` at
the root on `server "web" { auth "jwt" { setting "x" } }` binds the three
variables. -/
theorem nesting_example :
    NodesContainer.EvaluateTree siteSchema { Directives := [], Blocks := [0] } [serverNode]
        { serverName := "", authType := "", setting := "" } =
      .ret none { serverName := "web", authType := "jwt", setting := "x" } :=
  rfl

/-- The method `ModuleBlockDef.Evaluate` on a node that passes the name and
arity checks, for a selector pointer that is not nil: unless the binding and
the handler return `nil`, their outcome; otherwise the lookup of the text that
the selector variable then holds, and the walk of the children by the
container found. -/
theorem moduleEvaluate_eq {σ : Type} (H : Schema σ) (d : ModuleBlockDef σ) (node : Node)
    (s : σ) (p : StringRef σ) (hp : d.moduleName = some p) (hname : node.Name = d.name)
    (hmin : d.minArgs ≤ (node.Args.length : Int))
    (hmax : d.maxArgs = -1 ∨ (node.Args.length : Int) ≤ d.maxArgs) :
    d.Evaluate H node s =
      match thenHandler d.toCommonDef node (bindArgs node.Args 0 d.args s) with
      | .ret none s2 =>
        match d.modules (p.get s2) with
        | none => .ret (some (NodeErr node ("unknown module '" ++ p.get s2 ++ "'"))) s2
        | some m => m.EvaluateTree H node.Children s2
      | out => out := by
  simp only [ModuleBlockDef.Evaluate, evaluate_accepted d.toCommonDef node s hname hmin hmax, hp]

/-- The binding and the handler step of a definition without handler whose
only argument definition stores into the selector variable: the first
argument of the node is stored. -/
theorem bind_single_selector {σ : Type} (d : CommonDef σ) (node : Node) (s : σ)
    (p : StringRef σ) (a : ArgDef σ) (sel : String) (more : List String)
    (hargs : d.args = [a]) (hvar : a.variadic = false)
    (hset : ∀ (x : String) (t : σ), a.target.Set x t = .ret none (p.put x t))
    (hh : d.handler = none) (hnode : node.Args = sel :: more) :
    thenHandler d node (bindArgs node.Args 0 d.args s) = .ret none (p.put sel s) := by
  have h0 : 0 < node.Args.length := by rw [hnode]; simp
  have hget : node.Args[0] = sel := by simp [hnode]
  rw [hargs]
  unfold bindArgs
  simp only [hvar, Bool.false_eq_true, ↓reduceIte, h0, ↓reduceDIte, hget, hset]
  unfold bindArgs
  simp only [thenHandler, hh]

/-! ## The claims -/

/-- C1. One call of `NewDirectiveDef` or of `NewBlockDef` panics, returning no
definition, exactly when a required argument comes after an optional one or a
variadic argument is not the last element of the list; on every other list it
returns a definition. -/
theorem C1_construction_fails_iff_defect {σ : Type} (name : String) (args : List (ArgDef σ)) :
    ((∃ msg, NewDirectiveDef name args = .error msg) ↔
        (RequiredAfterOptional args ∨ VariadicNotLast args)) ∧
      ((∃ d, NewDirectiveDef name args = .ok d) ↔
        ¬ (RequiredAfterOptional args ∨ VariadicNotLast args)) ∧
      ((∃ msg, NewBlockDef name args = .error msg) ↔
        (RequiredAfterOptional args ∨ VariadicNotLast args)) ∧
      ((∃ b, NewBlockDef name args = .ok b) ↔
        ¬ (RequiredAfterOptional args ∨ VariadicNotLast args)) := by
  have hE := addArgs_error_iff (CommonDef.new name) args
  have hO := addArgs_ok_iff (CommonDef.new name) args
  refine ⟨?_, ?_, ?_, ?_⟩
  · unfold NewDirectiveDef
    rw [map_eq_error_iff, hE]
  · rw [← hO]
    unfold NewDirectiveDef
    constructor
    · rintro ⟨d, hd⟩
      obtain ⟨c, hc, -⟩ := map_eq_ok _ _ _ hd
      exact ⟨c, hc⟩
    · rintro ⟨c, hc⟩
      exact ⟨⟨c⟩, by rw [hc]; rfl⟩
  · unfold NewBlockDef
    rw [map_eq_error_iff, hE]
  · rw [← hO]
    unfold NewBlockDef
    constructor
    · rintro ⟨d, hd⟩
      obtain ⟨c, hc, -⟩ := map_eq_ok _ _ _ hd
      exact ⟨c, hc⟩
    · rintro ⟨c, hc⟩
      exact ⟨_, by rw [hc]; rfl⟩

/-- C2, evaluated at the failing input. `NewDirectiveDef` with one optional
argument followed by `AddArgs` with one required argument does not panic: the
list is extended to an optional argument followed by a required one, with
`MinArgs` 1 and `MaxArgs` 2. -/
theorem C2_required_added_after_optional_is_accepted :
    ∃ d0 d1 : DirectiveDef Cfg,
      NewDirectiveDef "listen" [NewArgDef hostValue 0 [Optional]] = .ok d0 ∧
      d0.AddArgs [NewArgDef portValue 0 []] = .ok d1 ∧
      d1.args.map (fun a => a.required) = [false, true] ∧
      d1.minArgs = 1 ∧ d1.maxArgs = 2 :=
  ⟨_, _, rfl, rfl, rfl, rfl, rfl⟩

/-- C3 as stated fails: a definition made of one required variadic argument
has no argument that is required and not variadic, and its `MinArgs` is 1. -/
theorem C3_counterexample :
    ∃ d : DirectiveDef Cfg,
      NewDirectiveDef "tag" [NewVariadicArgDef tagsValue 0 []] = .ok d ∧
      d.minArgs = 1 ∧
      ([NewVariadicArgDef tagsValue 0 []].countP (fun a => a.required && !a.variadic)) = 0 :=
  ⟨_, rfl, rfl, rfl⟩

/-- C3, amended. For every definition returned by one call of `NewDirectiveDef`
or of `NewBlockDef`, `MinArgs` is the number of required arguments of the list,
the variadic ones included. -/
theorem C3_minArgs_counts_required {σ : Type} (name : String) (args : List (ArgDef σ)) :
    (∀ d, NewDirectiveDef name args = .ok d →
        d.minArgs = (args.countP (fun a => a.required) : Nat)) ∧
      (∀ b, NewBlockDef name args = .ok b →
        b.minArgs = (args.countP (fun a => a.required) : Nat)) := by
  constructor
  · intro d hd
    obtain ⟨c, hc, rfl⟩ := map_eq_ok _ _ _ hd
    have h := (addArgsLoop_ok args.length args 0 false _ c (by simp) hc).2.2.1
    simpa [CommonDef.new] using h
  · intro b hb
    obtain ⟨c, hc, rfl⟩ := map_eq_ok _ _ _ hb
    have h := (addArgsLoop_ok args.length args 0 false _ c (by simp) hc).2.2.1
    simpa [CommonDef.new] using h

/-- C3, amended, at a required argument followed by an optional one. -/
theorem C3_minArgs_counts_required_witness :
    ∃ d : DirectiveDef Cfg,
      NewDirectiveDef "listen" [NewArgDef hostValue 0 [], NewArgDef portValue 0 [Optional]]
        = .ok d ∧ d.minArgs = 1 :=
  ⟨_, rfl, (C3_minArgs_counts_required "listen"
    [NewArgDef hostValue 0 [], NewArgDef portValue 0 [Optional]]).1 _ rfl⟩

/-- C4. For every definition returned by one call of `NewDirectiveDef` or of
`NewBlockDef`, `MaxArgs` is -1 when the list contains a variadic argument and
is the number of arguments of the list otherwise. -/
theorem C4_maxArgs_derived {σ : Type} (name : String) (args : List (ArgDef σ)) :
    (∀ d, NewDirectiveDef name args = .ok d →
        d.maxArgs = if (∃ a ∈ args, a.variadic = true) then -1 else (args.length : Int)) ∧
      (∀ b, NewBlockDef name args = .ok b →
        b.maxArgs = if (∃ a ∈ args, a.variadic = true) then -1 else (args.length : Int)) := by
  constructor
  · intro d hd
    obtain ⟨c, hc, rfl⟩ := map_eq_ok _ _ _ hd
    have h := (addArgsLoop_ok args.length args 0 false _ c (by simp) hc).2.2.2.1
    simpa [CommonDef.new] using h
  · intro b hb
    obtain ⟨c, hc, rfl⟩ := map_eq_ok _ _ _ hb
    have h := (addArgsLoop_ok args.length args 0 false _ c (by simp) hc).2.2.2.1
    simpa [CommonDef.new] using h

/-- C4 at a list that ends in a variadic argument and at a list without one. -/
theorem C4_maxArgs_derived_witness :
    (∃ d : DirectiveDef Cfg,
      NewDirectiveDef "tag" [NewArgDef hostValue 0 [], NewVariadicArgDef tagsValue 0 []]
        = .ok d ∧ d.maxArgs = -1) ∧
    (∃ b : BlockDef Cfg,
      NewBlockDef "server" [NewArgDef hostValue 0 [], NewArgDef portValue 0 [Optional]]
        = .ok b ∧ b.maxArgs = 2) :=
  ⟨⟨_, rfl, by
      rw [(C4_maxArgs_derived "tag"
        [NewArgDef hostValue 0 [], NewVariadicArgDef tagsValue 0 []]).1 _ rfl]
      simp [NewVariadicArgDef]⟩,
   ⟨_, rfl, by
      rw [(C4_maxArgs_derived "server"
        [NewArgDef hostValue 0 [], NewArgDef portValue 0 [Optional]]).2 _ rfl]
      simp [NewArgDef, Optional]⟩⟩

/-- C5 as stated fails in three ways. (1) After `NewDirectiveDef` with a
variadic argument and `AddArgs` with two required ones, `MinArgs` is 3 and
`MaxArgs` is 1; a node with 2 arguments has more than `MaxArgs` arguments and
gets the error of the lower bound. (2) After `NewDirectiveDef` with an
optional argument, `AddArgs` with an optional variadic one and `AddArgs` with
an optional one, both bounds are 0 and a node without arguments panics in the
slice expression. (3) A node within the bounds of a definition whose target
is a nil pointer panics in `Set`. -/
theorem C5_counterexample :
    (∃ d0 d1 : DirectiveDef Cfg,
      NewDirectiveDef "tag" [NewVariadicArgDef tagsValue 0 []] = .ok d0 ∧
      d0.AddArgs [NewArgDef hostValue 0 [], NewArgDef portValue 0 []] = .ok d1 ∧
      d1.handler = none ∧ d1.minArgs = 3 ∧ d1.maxArgs = 1 ∧
      d1.Evaluate (leaf "tag" ["a", "b"]) Cfg.zero =
        .ret (some "directive 'tag' expects at least 3 arguments") Cfg.zero) ∧
    (∃ d0 d1 d2 : DirectiveDef Cfg,
      NewDirectiveDef "listen" [NewArgDef hostValue 0 [Optional]] = .ok d0 ∧
      d0.AddArgs [NewVariadicArgDef tagsValue 0 [Optional]] = .ok d1 ∧
      d1.AddArgs [NewArgDef portValue 0 [Optional]] = .ok d2 ∧
      d2.handler = none ∧ d2.minArgs = 0 ∧ d2.maxArgs = 0 ∧
      d2.Evaluate (leaf "listen" []) Cfg.zero =
        .panic "runtime error: slice bounds out of range [1:0]") ∧
    (∃ d : DirectiveDef Cfg,
      NewDirectiveDef "listen" [NewArgDef nilValue 0 []] = .ok d ∧
      d.handler = none ∧ d.minArgs = 1 ∧ d.maxArgs = 1 ∧
      d.Evaluate (leaf "listen" ["a"]) Cfg.zero =
        .panic "runtime error: invalid memory address or nil pointer dereference") :=
  ⟨⟨_, _, rfl, rfl, rfl, rfl, rfl, rfl⟩, ⟨_, _, _, rfl, rfl, rfl, rfl, rfl, rfl, rfl⟩,
    ⟨_, rfl, rfl, rfl, rfl, rfl⟩⟩

/-- C5, amended. For a directive definition without handler, with `MinArgs` m
and `MaxArgs` M, M at least 0, and a childless node of its name with n
arguments: `Evaluate` returns the error of the lower bound when n is below m;
it returns the error of the upper bound when n is at least m and above M; it
returns `nil` when n is between m and M, no `Set` call panics and no variadic
argument definition has an index above n. The two errors leave the state as it
was. -/
theorem C5_arity_checks {σ : Type} (d : DirectiveDef σ) (node : Node) (s : σ)
    (hh : d.handler = none) (hM : 0 ≤ d.maxArgs)
    (hname : node.Name = d.name) (hch : node.Children = []) :
    ((node.Args.length : Int) < d.minArgs →
      d.Evaluate node s = .ret (some (NodeErr node ("directive '" ++ d.name
        ++ "' expects at least " ++ toString d.minArgs ++ " arguments"))) s) ∧
    (d.minArgs ≤ (node.Args.length : Int) → d.maxArgs < (node.Args.length : Int) →
      d.Evaluate node s = .ret (some (NodeErr node ("directive '" ++ d.name
        ++ "' expects a maximum of " ++ toString d.maxArgs ++ " arguments"))) s) ∧
    (d.minArgs ≤ (node.Args.length : Int) → (node.Args.length : Int) ≤ d.maxArgs →
      (∀ a ∈ d.args, a.target.Returns) →
      (∀ (i : Nat) (a : ArgDef σ), d.args[i]? = some a → a.variadic = true →
        i ≤ node.Args.length) →
      ∃ s1, d.Evaluate node s = .ret none s1) := by
  have hE : d.Evaluate node s = evaluate d.toCommonDef node s := by
    simp [DirectiveDef.Evaluate, hch]
  have h1 : (node.Name != d.name) = false := by simp [hname]
  refine ⟨?_, ?_, ?_⟩
  · intro hlt
    rw [hE]
    unfold evaluate
    simp only [h1, hlt, Bool.false_eq_true, ↓reduceIte]
  · intro hmin hmax
    have h2 : ¬ ((node.Args.length : Int) < d.minArgs) := by omega
    have h3 : (d.maxArgs != -1 && decide ((node.Args.length : Int) > d.maxArgs)) = true := by
      have : d.maxArgs ≠ -1 := by omega
      simp [this, hmax]
    rw [hE]
    unfold evaluate
    simp only [h1, h2, h3, Bool.false_eq_true, ↓reduceIte]
  · intro hmin hmax hret hvar
    rw [hE, evaluate_accepted d.toCommonDef node s hname hmin (Or.inr hmax)]
    obtain ⟨s1, hs1⟩ := bindArgs_returns node.Args d.args 0 s hret
      (fun j a hj ha => by have := hvar j a hj ha; omega)
    rw [hs1]
    exact ⟨s1, by simp [thenHandler, hh]⟩

/-- C5, amended, at the directive `listen <host> [port]`: no argument is too
few, three are too many, one is bound. -/
theorem C5_arity_checks_witness :
    listenDef.Evaluate (leaf "listen" []) Cfg.zero =
      .ret (some "directive 'listen' expects at least 1 arguments") Cfg.zero ∧
    listenDef.Evaluate (leaf "listen" ["a", "b", "c"]) Cfg.zero =
      .ret (some "directive 'listen' expects a maximum of 2 arguments") Cfg.zero ∧
    ∃ s1, listenDef.Evaluate (leaf "listen" ["a"]) Cfg.zero = .ret none s1 :=
  ⟨(C5_arity_checks listenDef (leaf "listen" []) Cfg.zero rfl (by decide) rfl rfl).1
      (by decide),
    (C5_arity_checks listenDef (leaf "listen" ["a", "b", "c"]) Cfg.zero rfl (by decide)
      rfl rfl).2.1 (by decide) (by decide),
    (C5_arity_checks listenDef (leaf "listen" ["a"]) Cfg.zero rfl (by decide) rfl rfl).2.2
      (by decide) (by decide)
      (by
        intro a ha x s
        simp only [listenDef, List.mem_cons, List.mem_singleton, List.not_mem_nil,
          or_false] at ha
        rcases ha with rfl | rfl
        · exact ⟨none, _, rfl⟩
        · exact ⟨none, _, rfl⟩)
      (by
        intro i a hi ha
        have hmem := List.getElem?_mem hi
        simp only [listenDef, List.mem_cons, List.mem_singleton, List.not_mem_nil,
          or_false] at hmem
        rcases hmem with rfl | rfl <;> simp [NewArgDef, Optional] at ha)⟩

/-- C6. For a directive definition without variadic argument definitions and a
node that passes its children, name and arity checks, the binding is exactly
the run of the calls `Set(node.Args[i])` on the target of the i-th argument
definition, for the indices i that are below both the number of definitions
and the number of arguments of the node, in increasing order; no target of a
definition at a later index is called. The handler step follows the run. -/
theorem C6_positional_binding {σ : Type} (d : DirectiveDef σ) (node : Node) (s : σ)
    (hvar : ∀ a ∈ d.args, a.variadic = false)
    (hch : node.Children = []) (hname : node.Name = d.name)
    (hmin : d.minArgs ≤ (node.Args.length : Int))
    (hmax : d.maxArgs = -1 ∨ (node.Args.length : Int) ≤ d.maxArgs) :
    d.Evaluate node s =
      thenHandler d.toCommonDef node
        (setEach ((d.args.map (fun a => a.target)).zip node.Args) s) := by
  have hE : d.Evaluate node s = evaluate d.toCommonDef node s := by
    simp [DirectiveDef.Evaluate, hch]
  rw [hE, evaluate_accepted d.toCommonDef node s hname hmin hmax,
    bindArgs_eq_setEach node.Args d.args 0 s hvar]
  simp

/-- C6 at the directive `listen <host> [port]` and a node with one argument:
the host is set and the port, the target at index 1, is left as it was. -/
theorem C6_positional_binding_witness :
    listenDef.Evaluate (leaf "listen" ["example.org"]) Cfg.zero =
      .ret none { host := "example.org", port := "", tls := false, tags := [] } :=
  (C6_positional_binding listenDef (leaf "listen" ["example.org"]) Cfg.zero
    (by
      intro a ha
      simp only [listenDef, List.mem_cons, List.mem_singleton, List.not_mem_nil,
        or_false] at ha
      rcases ha with rfl | rfl <;> rfl)
    rfl rfl (by decide) (Or.inr (by decide))).trans rfl

/-- C7, evaluated at the failing input. The definition of an optional argument
followed by an optional variadic argument accepts a node without arguments
(`MinArgs` 0, `MaxArgs` -1), and the binding loop then takes `node.Args[1:]`
of the empty slice and panics. -/
theorem C7_variadic_after_optional_panics :
    ∃ d : DirectiveDef Cfg,
      NewDirectiveDef "tag"
        [NewArgDef hostValue 0 [Optional], NewVariadicArgDef tagsValue 0 [Optional]] = .ok d ∧
      d.minArgs = 0 ∧ d.maxArgs = -1 ∧
      d.Evaluate (leaf "tag" []) Cfg.zero =
        .panic "runtime error: slice bounds out of range [1:0]" :=
  ⟨_, rfl, rfl, rfl, rfl⟩

/-- C8, evaluated at the failing input. `Set` of the boolean target fails on
the text "maybe", and both `Evaluate` of the directive `tls` and `EvaluateTree`
of a container holding it return `nil` on the node `tls maybe`. -/
theorem C8_conversion_error_is_dropped :
    NewDirectiveDef "tls" [NewArgDef tlsValue 0 []] = .ok tlsDef ∧
    tlsValue.Set "maybe" Cfg.zero = .ret (some "invalid boolean value: maybe") Cfg.zero ∧
    tlsDef.Evaluate (leaf "tls" ["maybe"]) Cfg.zero = .ret none Cfg.zero ∧
    NodesContainer.EvaluateTree tlsSchema { Directives := [0], Blocks := [] }
      [leaf "tls" ["maybe"]] Cfg.zero = .ret none Cfg.zero :=
  ⟨rfl, rfl, rfl, rfl⟩

/-- C9 as stated fails: a node of another name that has a child gets the error
of the children check, which comes first. -/
theorem C9_counterexample :
    listenDef.Evaluate
        { Name := "server", Args := ["a"], Children := [leaf "listen" ["b"]],
          File := "", Line := 0 } Cfg.zero =
      .ret (some "node 'server' may not be a block") Cfg.zero ∧
    "node 'server' may not be a block" ≠ "node 'server' is not allowed here" :=
  ⟨rfl, by decide⟩

/-- C9, amended. For every directive definition and every childless node whose
name differs from the name of the definition, `Evaluate` returns the error
"node '<name>' is not allowed here" and leaves the state as it was. -/
theorem C9_name_mismatch {σ : Type} (d : DirectiveDef σ) (node : Node) (s : σ)
    (hch : node.Children = []) (hname : node.Name ≠ d.name) :
    d.Evaluate node s =
      .ret (some ("node '" ++ node.Name ++ "' is not allowed here")) s := by
  have h1 : (node.Name != d.name) = true := by simp [hname]
  simp [DirectiveDef.Evaluate, hch, evaluate, h1]

/-- C9, amended, at the directive `listen` and a childless node `server`. -/
theorem C9_name_mismatch_witness :
    listenDef.Evaluate (leaf "server" ["a"]) Cfg.zero =
      .ret (some "node 'server' is not allowed here") Cfg.zero :=
  C9_name_mismatch listenDef (leaf "server" ["a"]) Cfg.zero rfl (by decide)

/-- C10. For every directive definition and every node with at least one
child, `Evaluate` returns the error "node '<name>' may not be a block", with
the file and line of the node in front when the file is known, and leaves the
state as it was: no `Set` method and no handler has been called, whatever they
are. -/
theorem C10_directive_rejects_children {σ : Type} (d : DirectiveDef σ) (node : Node) (s : σ)
    (hch : node.Children ≠ []) :
    d.Evaluate node s =
      .ret (some (NodeErr node ("node '" ++ node.Name ++ "' may not be a block"))) s := by
  have h : node.Children.length ≠ 0 := fun h0 => hch (List.eq_nil_of_length_eq_zero h0)
  simp [DirectiveDef.Evaluate, h]

/-- C10 at the directive `listen` and a node `listen` from line 7 of the file
`main.conf` that has a child. -/
theorem C10_directive_rejects_children_witness :
    listenDef.Evaluate
        { Name := "listen", Args := ["a"], Children := [leaf "port" ["b"]],
          File := "main.conf", Line := 7 } Cfg.zero =
      .ret (some "main.conf:7: node 'listen' may not be a block") Cfg.zero :=
  C10_directive_rejects_children listenDef
    { Name := "listen", Args := ["a"], Children := [leaf "port" ["b"]],
      File := "main.conf", Line := 7 } Cfg.zero (by simp)

/-- C11, evaluated at the failing input. The directive of two optional
arguments and an optional variadic one, as `NewDirectiveDef` returns it, is
given a handler by `SetHandler`. The node `tag a` passes the name check and
both arity checks; the binding loop then panics on `node.Args[2:]`, whatever
the handler is: the handler is not called. -/
theorem C11_binding_fault_skips_handler (h : NodeHandler Cfg) :
    NewDirectiveDef "tag"
      [NewArgDef hostValue 0 [Optional], NewArgDef portValue 0 [Optional],
        NewVariadicArgDef tagsValue 0 [Optional]] = .ok optionalTagDef ∧
    (optionalTagDef.SetHandler (some h)).handler = some h ∧
    (leaf "tag" ["a"]).Name = (optionalTagDef.SetHandler (some h)).name ∧
    (optionalTagDef.SetHandler (some h)).minArgs ≤ ((leaf "tag" ["a"]).Args.length : Int) ∧
    (optionalTagDef.SetHandler (some h)).maxArgs = -1 ∧
    evaluate (optionalTagDef.SetHandler (some h)).toCommonDef (leaf "tag" ["a"]) Cfg.zero =
      .panic "runtime error: slice bounds out of range [2:1]" ∧
    (optionalTagDef.SetHandler (some h)).Evaluate (leaf "tag" ["a"]) Cfg.zero =
      .panic "runtime error: slice bounds out of range [2:1]" := by
  have hmin : (optionalTagDef.SetHandler (some h)).minArgs
      ≤ ((leaf "tag" ["a"]).Args.length : Int) := by
    show (0 : Int) ≤ ((1 : Nat) : Int)
    decide
  have hev : evaluate (optionalTagDef.SetHandler (some h)).toCommonDef (leaf "tag" ["a"])
      Cfg.zero = .panic "runtime error: slice bounds out of range [2:1]" := by
    rw [evaluate_accepted _ _ _ rfl hmin (Or.inl rfl)]
    rfl
  refine ⟨rfl, rfl, rfl, hmin, rfl, hev, ?_⟩
  unfold DirectiveDef.Evaluate
  rw [if_neg (by decide)]
  exact hev

/-- C12, evaluated at the failing input. The block of two optional arguments
and an optional variadic one, as `NewBlockDef` returns it, has no handler and
holds the directive `tls` in its container. The node `tag a { tls true }`
passes the name check and both arity checks of the block; `EvaluateTree` of
the container of the block on the children of the node returns `nil` and sets
`tls`, whereas `BlockDef.Evaluate` panics in the binding loop. -/
theorem C12_binding_fault_skips_children :
    NewBlockDef "tag"
      [NewArgDef hostValue 0 [Optional], NewArgDef portValue 0 [Optional],
        NewVariadicArgDef tagsValue 0 [Optional]] = .ok optionalTagBlock ∧
    optionalTagBlock.handler = none ∧
    optionalTagBlock.minArgs ≤ (1 : Int) ∧ optionalTagBlock.maxArgs = -1 ∧
    NodesContainer.EvaluateTree tlsSchema { Directives := [0], Blocks := [] }
        [leaf "tls" ["true"]] Cfg.zero =
      .ret none { host := "", port := "", tls := true, tags := [] } ∧
    BlockDef.Evaluate tlsSchema { optionalTagBlock with Directives := [0] }
        { Name := "tag", Args := ["a"], Children := [leaf "tls" ["true"]],
          File := "", Line := 0 } Cfg.zero =
      .panic "runtime error: slice bounds out of range [2:1]" := by
  have hev : evaluate optionalTagBlock.toCommonDef
      { Name := "tag", Args := ["a"], Children := [leaf "tls" ["true"]],
        File := "", Line := 0 } Cfg.zero =
      .panic "runtime error: slice bounds out of range [2:1]" := by
    rw [evaluate_accepted _ _ _ rfl (by decide) (Or.inl rfl)]
    rfl
  refine ⟨rfl, rfl, by decide, rfl, rfl, ?_⟩
  rw [blockEvaluate_eq]
  exact (congrArg (fun o : Outcome Cfg => match o with
    | .ret none s1 => NodesContainer.EvaluateTree tlsSchema { Directives := [0], Blocks := [] }
        [leaf "tls" ["true"]] s1
    | out => out) hev)

/-- C13 as stated fails. The module block `auth` of the package test, whose
selector is the target of its first argument, is given by `WithArgs` a second
argument that stores into the same variable. The node `auth jwt ldap` is
accepted and its first argument "jwt" is a key of the registry, but `Evaluate`
looks up "ldap", the text that the variable holds after the binding, and
returns the unknown module error; the child is not evaluated. -/
theorem C13_counterexample :
    ∃ d : ModuleBlockDef Cfg,
      authModule.WithArgs [NewArgDef hostValue 0 []] = .ok d ∧
      d.modules "jwt" = some { Directives := [0], Blocks := [] } ∧
      d.Evaluate tlsSchema
          { Name := "auth", Args := ["jwt", "ldap"], Children := [leaf "tls" ["true"]],
            File := "", Line := 0 } Cfg.zero =
        .ret (some "unknown module 'ldap'")
          { host := "ldap", port := "", tls := false, tags := [] } ∧
      NodesContainer.EvaluateTree tlsSchema { Directives := [0], Blocks := [] }
          [leaf "tls" ["true"]] { host := "ldap", port := "", tls := false, tags := [] } =
        .ret none { host := "ldap", port := "", tls := true, tags := [] } := by
  refine ⟨{ authModule with
      args := [NewArgDef hostValue 0 [], NewArgDef hostValue 0 []],
      minArgs := 2, maxArgs := 2 }, rfl, rfl, ?_, rfl⟩
  rw [moduleEvaluate_eq tlsSchema _ _ _ hostRef rfl rfl (by decide) (Or.inr (by decide))]
  rfl

/-- C13, amended. For a module block whose selector pointer is not nil and a
node that passes the name and arity checks: when the binding and the handler
return `nil`, `Evaluate` looks up the text that the selector variable then
holds and, when the map holds a container under it, is `EvaluateTree` of that
container on the children of the node, whatever the map holds at other keys.
That text is the first argument of the node when nothing after the first
`Set` call changes the variable, as when the first argument definition is the
only one and there is no handler. When the binding or the handler do not
return `nil`, `Evaluate` has their outcome. -/
theorem C13_module_dispatch {σ : Type} (H : Schema σ) (d : ModuleBlockDef σ) (node : Node)
    (s : σ) (p : StringRef σ)
    (hp : d.moduleName = some p) (hname : node.Name = d.name)
    (hmin : d.minArgs ≤ (node.Args.length : Int))
    (hmax : d.maxArgs = -1 ∨ (node.Args.length : Int) ≤ d.maxArgs) :
    (∀ (s2 : σ) (m : NodesContainer),
      thenHandler d.toCommonDef node (bindArgs node.Args 0 d.args s) = .ret none s2 →
      d.modules (p.get s2) = some m →
        d.Evaluate H node s = m.EvaluateTree H node.Children s2 ∧
        ∀ modules : String → Option NodesContainer, modules (p.get s2) = some m →
          ModuleBlockDef.Evaluate H { d with modules := modules } node s
            = m.EvaluateTree H node.Children s2) ∧
    (∀ (s1 s2 : σ) (e : Option String) (a : ArgDef σ) (rest : List (ArgDef σ))
      (sel : String) (more : List String) (m : NodesContainer),
      d.args = a :: rest → a.variadic = false →
      (∀ (x : String) (t : σ), a.target.Set x t = .ret none (p.put x t)) →
      node.Args = sel :: more →
      bindArgs node.Args 1 rest (p.put sel s) = .ret e s1 →
      ((d.handler = none ∧ s2 = s1) ∨ (∃ h, d.handler = some h ∧ h node s1 = .ret none s2)) →
      p.get s2 = sel → d.modules sel = some m →
        d.Evaluate H node s = m.EvaluateTree H node.Children s2) ∧
    (∀ (a : ArgDef σ) (sel : String) (more : List String) (m : NodesContainer),
      d.args = [a] → a.variadic = false →
      (∀ (x : String) (t : σ), a.target.Set x t = .ret none (p.put x t)) →
      d.handler = none → node.Args = sel :: more → d.modules sel = some m →
        d.Evaluate H node s = m.EvaluateTree H node.Children (p.put sel s)) ∧
    (∀ out, thenHandler d.toCommonDef node (bindArgs node.Args 0 d.args s) = out →
      (∀ t, out ≠ .ret none t) → d.Evaluate H node s = out) := by
  have heq := moduleEvaluate_eq H d node s p hp hname hmin hmax
  have hhit : ∀ (s2 : σ) (m : NodesContainer),
      thenHandler d.toCommonDef node (bindArgs node.Args 0 d.args s) = .ret none s2 →
      d.modules (p.get s2) = some m →
        d.Evaluate H node s = m.EvaluateTree H node.Children s2 := by
    intro s2 m hrun hm
    rw [heq, hrun]
    simp only [hm]
  refine ⟨?_, ?_, ?_, ?_⟩
  · intro s2 m hrun hm
    refine ⟨hhit s2 m hrun hm, ?_⟩
    intro modules hmod
    rw [moduleEvaluate_eq H { d with modules := modules } node s p hp hname hmin hmax]
    have hrun1 : thenHandler ({ d with modules := modules } : ModuleBlockDef σ).toCommonDef node
        (bindArgs node.Args 0 ({ d with modules := modules } : ModuleBlockDef σ).args s)
        = .ret none s2 := hrun
    rw [hrun1]
    simp only [hmod]
  · intro s1 s2 e a rest sel more m hargs hvar hset hnode hrest hh hkeep hm
    have hev := moduleEvaluate_bound d node s s1 s2 e p a rest sel more hargs hvar hset hnode
      hname hmin hmax hrest hh
    simp only [ModuleBlockDef.Evaluate, hev, hp, hkeep, hm]
  · intro a sel more m hargs hvar hset hh hnode hm
    have hrun := bind_single_selector d.toCommonDef node s p a sel more hargs hvar hset hh hnode
    exact hhit _ m hrun (by rw [p.get_put]; exact hm)
  · intro out hout hne
    rw [heq, hout]
    cases out with
    | panic msg => rfl
    | ret e t =>
      cases e with
      | none => exact absurd rfl (hne t)
      | some err => rfl

/-- C13, amended, at the module block `auth` of the package test, with the
module "jwt" registered: the directive of the module container is evaluated
on the child of the node. -/
theorem C13_module_dispatch_witness :
    authModule.Evaluate tlsSchema
        { Name := "auth", Args := ["jwt"], Children := [leaf "tls" ["true"]],
          File := "", Line := 0 } Cfg.zero =
      .ret none { host := "jwt", port := "", tls := true, tags := [] } :=
  ((C13_module_dispatch tlsSchema authModule
    { Name := "auth", Args := ["jwt"], Children := [leaf "tls" ["true"]],
      File := "", Line := 0 } Cfg.zero hostRef rfl rfl (by decide)
    (Or.inr (by decide))).2.2.1
    (NewArgDef hostValue 0 []) "jwt" [] { Directives := [0], Blocks := [] }
    rfl rfl (fun _ _ => rfl) rfl rfl rfl).trans rfl

/-- C14 as stated fails. The module block `auth` of the package test is given
a handler that overwrites the selector variable with "jwt". The node
`auth ldap` is accepted and its first argument "ldap" is not a key of the
registry, but `Evaluate` looks up "jwt", the text that the variable holds
after the handler, returns `nil` and has evaluated the child. -/
theorem C14_counterexample :
    authModule.modules "ldap" = none ∧
    ModuleBlockDef.Evaluate tlsSchema { authModule with handler := some selectHandler }
        { Name := "auth", Args := ["ldap"], Children := [leaf "tls" ["true"]],
          File := "", Line := 0 } Cfg.zero =
      .ret none { host := "jwt", port := "", tls := true, tags := [] } := by
  refine ⟨rfl, ?_⟩
  rw [moduleEvaluate_eq tlsSchema _ _ _ hostRef rfl rfl (by decide) (Or.inr (by decide))]
  rfl

/-- C14, amended. For a module block whose selector pointer is not nil and a
node that passes the name and arity checks: when the binding and the handler
return `nil` and the map has no entry under the text that the selector
variable then holds, `Evaluate` returns the error "unknown module '<text>'",
with the file and line of the node in front when the file is known, and the
state is the one that the binding and the handler left: no child has been
evaluated. That text is the first argument of the node when nothing after
the first `Set` call changes the variable, as when the first argument
definition is the only one and there is no handler. -/
theorem C14_unknown_module {σ : Type} (H : Schema σ) (d : ModuleBlockDef σ) (node : Node)
    (s : σ) (p : StringRef σ)
    (hp : d.moduleName = some p) (hname : node.Name = d.name)
    (hmin : d.minArgs ≤ (node.Args.length : Int))
    (hmax : d.maxArgs = -1 ∨ (node.Args.length : Int) ≤ d.maxArgs) :
    (∀ (s2 : σ),
      thenHandler d.toCommonDef node (bindArgs node.Args 0 d.args s) = .ret none s2 →
      d.modules (p.get s2) = none →
        d.Evaluate H node s =
          .ret (some (NodeErr node ("unknown module '" ++ p.get s2 ++ "'"))) s2) ∧
    (∀ (s1 s2 : σ) (e : Option String) (a : ArgDef σ) (rest : List (ArgDef σ))
      (sel : String) (more : List String),
      d.args = a :: rest → a.variadic = false →
      (∀ (x : String) (t : σ), a.target.Set x t = .ret none (p.put x t)) →
      node.Args = sel :: more →
      bindArgs node.Args 1 rest (p.put sel s) = .ret e s1 →
      ((d.handler = none ∧ s2 = s1) ∨ (∃ h, d.handler = some h ∧ h node s1 = .ret none s2)) →
      p.get s2 = sel → d.modules sel = none →
        d.Evaluate H node s =
          .ret (some (NodeErr node ("unknown module '" ++ sel ++ "'"))) s2) ∧
    (∀ (a : ArgDef σ) (sel : String) (more : List String),
      d.args = [a] → a.variadic = false →
      (∀ (x : String) (t : σ), a.target.Set x t = .ret none (p.put x t)) →
      d.handler = none → node.Args = sel :: more → d.modules sel = none →
        d.Evaluate H node s =
          .ret (some (NodeErr node ("unknown module '" ++ sel ++ "'"))) (p.put sel s)) := by
  have heq := moduleEvaluate_eq H d node s p hp hname hmin hmax
  have hmiss : ∀ (s2 : σ),
      thenHandler d.toCommonDef node (bindArgs node.Args 0 d.args s) = .ret none s2 →
      d.modules (p.get s2) = none →
        d.Evaluate H node s =
          .ret (some (NodeErr node ("unknown module '" ++ p.get s2 ++ "'"))) s2 := by
    intro s2 hrun hm
    rw [heq, hrun]
    simp only [hm]
  refine ⟨hmiss, ?_, ?_⟩
  · intro s1 s2 e a rest sel more hargs hvar hset hnode hrest hh hkeep hm
    have hev := moduleEvaluate_bound d node s s1 s2 e p a rest sel more hargs hvar hset hnode
      hname hmin hmax hrest hh
    simp only [ModuleBlockDef.Evaluate, hev, hp, hkeep, hm]
  · intro a sel more hargs hvar hset hh hnode hm
    have hrun := bind_single_selector d.toCommonDef node s p a sel more hargs hvar hset hh hnode
    have := hmiss _ hrun (by rw [p.get_put]; exact hm)
    rw [p.get_put] at this
    exact this

/-- C14, amended, at the module block `auth` of the package test and the
selector "ldap", which is not registered: the child `tls true` is not
evaluated. -/
theorem C14_unknown_module_witness :
    authModule.Evaluate tlsSchema
        { Name := "auth", Args := ["ldap"], Children := [leaf "tls" ["true"]],
          File := "", Line := 0 } Cfg.zero =
      .ret (some "unknown module 'ldap'")
        { host := "ldap", port := "", tls := false, tags := [] } :=
  (C14_unknown_module tlsSchema authModule
    { Name := "auth", Args := ["ldap"], Children := [leaf "tls" ["true"]],
      File := "", Line := 0 } Cfg.zero hostRef rfl rfl (by decide)
    (Or.inr (by decide))).2.2
    (NewArgDef hostValue 0 []) "ldap" [] rfl rfl (fun _ _ => rfl) rfl rfl rfl

/-- C15, evaluated on every input of the claim. Whatever argument definition
`args.StringArg` returns for the nil pointer, `NewModuleBlockDef` returns a
module block whose selector pointer is nil, and `Evaluate` of that block on a
node of its name with exactly one argument panics: in the `Set` call of the
binding, or else at `*d.moduleName`. -/
theorem C15_new_module_block_panics {σ : Type} (H : Schema σ)
    (stringArg : Option (StringRef σ) → List ArgAttribute → ArgDef σ)
    (name sel file : String) (line : Int) (children : List Node) (s : σ) :
    ∃ d, NewModuleBlockDef stringArg name = .ok d ∧ d.moduleName = none ∧
      ∃ msg, d.Evaluate H
        { Name := name, Args := [sel], Children := children, File := file, Line := line } s
        = .panic msg := by
  obtain ⟨c, hc, hname, hargs, hmin, hmax, hh⟩ := newModuleBlock_common stringArg name
  refine ⟨{ toCommonDef := c, modules := fun _ => none, moduleName := none }, ?_, rfl, ?_⟩
  · simp only [NewModuleBlockDef, hc]
    rfl
  · simp only [ModuleBlockDef.Evaluate]
    rw [evaluate_accepted c _ s (by simp [hname]) (by simp only [List.length_singleton]; omega)
      (by simp only [List.length_singleton]; omega)]
    cases hb : bindArgs [sel] 0 c.args s with
    | panic msg => exact ⟨msg, by simp [thenHandler]⟩
    | ret e s1 =>
      exact ⟨"runtime error: invalid memory address or nil pointer dereference",
        by simp [thenHandler, hh]⟩

/-- C16. For a container and a list of nodes none of which has the name of a
registered directive or block definition, `EvaluateTree` returns `nil` and
leaves the state as it was: no `Set` method and no handler has been called,
whatever they are. -/
theorem C16_unknown_names_are_skipped {σ : Type} (H : Schema σ) (nc : NodesContainer)
    (nodes : List Node) (s : σ)
    (hd : ∀ n ∈ nodes, ∀ p ∈ nc.Directives, (H.directive p).name ≠ n.Name)
    (hb : ∀ n ∈ nodes, ∀ p ∈ nc.Blocks, (H.block p).name ≠ n.Name) :
    nc.EvaluateTree H nodes s = .ret none s :=
  walkNodes_no_match H nc nodes [] [] s hd hb

/-- C16 at a container holding the directive `tls` and the nodes `listen a`
and `user b { tls true }`. -/
theorem C16_unknown_names_are_skipped_witness :
    NodesContainer.EvaluateTree tlsSchema { Directives := [0], Blocks := [] }
        [leaf "listen" ["a"],
          { Name := "user", Args := ["b"], Children := [leaf "tls" ["true"]],
            File := "", Line := 0 }] Cfg.zero =
      .ret none Cfg.zero :=
  C16_unknown_names_are_skipped tlsSchema { Directives := [0], Blocks := [] }
    [leaf "listen" ["a"],
      { Name := "user", Args := ["b"], Children := [leaf "tls" ["true"]],
        File := "", Line := 0 }] Cfg.zero
    (by
      intro n hn p _
      simp only [List.mem_cons, List.mem_singleton, List.not_mem_nil, or_false] at hn
      rcases hn with rfl | rfl <;> simp [tlsSchema, tlsDef, leaf])
    (by
      intro n _ p hp
      simp at hp)

/-- C17 as stated fails for blocks. The container holds a directive and a
block, both named `port` and not repeatable; the first node `port` evaluates
without error and the second one gets the repetition error of the directive,
not the one of the block. -/
theorem C17_counterexample :
    NodesContainer.EvaluateTree portSchema { Directives := [0], Blocks := [0] }
        [leaf "port" ["80"]] Cfg.zero =
      .ret none { host := "", port := "80", tls := false, tags := [] } ∧
    NodesContainer.EvaluateTree portSchema { Directives := [0], Blocks := [0] }
        [leaf "port" ["80"], leaf "port" ["81"]] Cfg.zero =
      .ret (some "directive 'port' may not be repeated")
        { host := "", port := "80", tls := false, tags := [] } ∧
    "directive 'port' may not be repeated" ≠ "block 'port' may not be repeated" :=
  ⟨rfl, rfl, by decide⟩

/-- C17, amended. Take a container and a sibling list in which a node named x
comes after the nodes `pre`, one of which is named x too, and let
`EvaluateTree` of `pre` return `nil`. If the container holds a directive
definition named x that is not repeatable, `EvaluateTree` of the list returns
"directive 'x' may not be repeated" at that node. If it holds a block
definition named x that is not repeatable and no directive definition named
x, it returns "block 'x' may not be repeated" at that node. In both cases the
state is the one the nodes before left, and the error carries the file and
line of the node when the file is known. -/
theorem C17_second_occurrence_fails {σ : Type} (H : Schema σ) (nc : NodesContainer)
    (pre post : List Node) (n1 n2 : Node) (s s1 : σ)
    (h1 : n1 ∈ pre) (hsame : n1.Name = n2.Name)
    (hpre : nc.EvaluateTree H pre s = .ret none s1) :
    (∀ p ∈ nc.Directives, (H.directive p).name = n2.Name →
      (H.directive p).repeatable = false →
      nc.EvaluateTree H (pre ++ n2 :: post) s =
        .ret (some (NodeErr n2 ("directive '" ++ n2.Name ++ "' may not be repeated"))) s1) ∧
    (∀ p ∈ nc.Blocks, (H.block p).name = n2.Name → (H.block p).repeatable = false →
      (∀ q ∈ nc.Directives, (H.directive q).name ≠ n2.Name) →
      nc.EvaluateTree H (pre ++ n2 :: post) s =
        .ret (some (NodeErr n2 ("block '" ++ n2.Name ++ "' may not be repeated"))) s1) := by
  obtain ⟨uD1, uB1, happ, -, -, hD, hB⟩ := walkNodes_passed H nc pre [] [] s s1 hpre
  constructor
  · intro p hp hname hrep
    have hmem : H.directive p ∈ nc.Directives.map H.directive := List.mem_map.2 ⟨p, hp, rfl⟩
    obtain ⟨⟨u, u1, t, t1, hpass⟩, hmark⟩ := hD n1 h1
    have hu : n2.Name ∈ uD1 := by
      rw [← hsame]
      exact hmark ⟨_, hmem, hname.trans hsame.symm⟩
    unfold NodesContainer.EvaluateTree
    rw [happ, walkNodes_cons,
      walkDefs_second "directive" (fun d => d.name) (fun d => d.repeatable) _ _ n1 n2 _
        (H.directive p) hmem hname hrep hsame u u1 t t1 hpass uD1 s1 hu]
    rfl
  · intro p hp hname hrep hnodir
    have hmem : H.block p ∈ nc.Blocks.map H.block := List.mem_map.2 ⟨p, hp, rfl⟩
    obtain ⟨⟨u, u1, t, t1, hpass⟩, hmark⟩ := hB n1 h1
    have hu : n2.Name ∈ uB1 := by
      rw [← hsame]
      exact hmark ⟨_, hmem, hname.trans hsame.symm⟩
    unfold NodesContainer.EvaluateTree
    rw [happ, walkNodes_cons,
      walkDefs_no_match "directive" _ _ _ n2 _ uD1 s1
        (by
          intro d hd
          obtain ⟨q, hq, rfl⟩ := List.mem_map.1 hd
          exact hnodir q hq)]
    simp only
    rw [walkDefs_second "block" (fun d => d.name) (fun d => d.repeatable) _ _ n1 n2 _
        (H.block p) hmem hname hrep hsame u u1 t t1 hpass uB1 s1 hu]
    rfl

/-- C17, amended, at the directive `tls` (the second of three nodes `tls`
fails) and at the block `server` of the nesting example in a container without
directives. -/
theorem C17_second_occurrence_fails_witness :
    NodesContainer.EvaluateTree tlsSchema { Directives := [0], Blocks := [] }
        ([leaf "listen" ["a"], leaf "tls" ["true"]] ++
          { Name := "tls", Args := ["false"], Children := [], File := "main.conf", Line := 3 }
            :: [leaf "tls" ["true"]]) Cfg.zero =
      .ret (some "main.conf:3: directive 'tls' may not be repeated")
        { host := "", port := "", tls := true, tags := [] } ∧
    NodesContainer.EvaluateTree siteSchema { Directives := [], Blocks := [0] }
        ([leaf "server" ["a"]] ++ leaf "server" ["b"] :: [])
        { serverName := "", authType := "", setting := "" } =
      .ret (some "block 'server' may not be repeated")
        { serverName := "a", authType := "", setting := "" } :=
  ⟨(C17_second_occurrence_fails tlsSchema { Directives := [0], Blocks := [] }
      [leaf "listen" ["a"], leaf "tls" ["true"]] [leaf "tls" ["true"]]
      (leaf "tls" ["true"])
      { Name := "tls", Args := ["false"], Children := [], File := "main.conf", Line := 3 }
      Cfg.zero { host := "", port := "", tls := true, tags := [] }
      (by simp) rfl rfl).1 0 (by simp) rfl rfl,
    (C17_second_occurrence_fails siteSchema { Directives := [], Blocks := [0] }
      [leaf "server" ["a"]] [] (leaf "server" ["a"]) (leaf "server" ["b"])
      { serverName := "", authType := "", setting := "" }
      { serverName := "a", authType := "", setting := "" }
      (by simp) rfl rfl).2 0 (by simp) rfl rfl (by simp)⟩

/-- C18. For a container in which one registered definition, marked
repeatable, has the name x and no other registered definition has it, and a
sibling list whose nodes are named x or have the name of no registered
definition: `EvaluateTree` is the evaluation, by that definition, of the nodes
named x, one after the other in list order, each on the state the one before
left. So every occurrence is bound and handed to the handler once, in input
order, and `EvaluateTree` returns `nil` when each of these evaluations does.
The first part is for a directive definition, the second for a block
definition. -/
theorem C18_repeatable_occurrences {σ : Type} (H : Schema σ) (nc : NodesContainer)
    (x : String) (nodes : List Node) (s : σ)
    (hnodes : ∀ n ∈ nodes, n.Name = x ∨
      ((∀ d ∈ nc.Directives.map H.directive, d.name ≠ n.Name) ∧
        (∀ b ∈ nc.Blocks.map H.block, b.name ≠ n.Name))) :
    (∀ D : DirectiveDef σ,
      (nc.Directives.map H.directive).filter (fun d => d.name == x) = [D] →
      (nc.Blocks.map H.block).filter (fun b => b.name == x) = [] →
      D.repeatable = true →
      nc.EvaluateTree H nodes s =
        evalEach (fun n t => D.Evaluate n t) (nodes.filter (fun n => n.Name == x)) s) ∧
    (∀ B : BlockDef σ,
      (nc.Directives.map H.directive).filter (fun d => d.name == x) = [] →
      (nc.Blocks.map H.block).filter (fun b => b.name == x) = [B] →
      B.repeatable = true →
      nc.EvaluateTree H nodes s =
        evalEach (fun n t => BlockDef.Evaluate H B n t)
          (nodes.filter (fun n => n.Name == x)) s) := by
  constructor
  · intro D hD hB hrep
    exact walkNodes_repeatable_directive H nc x D hD hB hrep nodes [] [] s hnodes
  · intro B hD hB hrep
    exact walkNodes_repeatable_block H nc x B hD hB hrep nodes [] [] s hnodes

/-- C18 at the directive `repeatable` of the package test and three nodes of
that name with a node of an unknown name between them: the handler has
collected the three first arguments in list order. -/
theorem C18_repeatable_occurrences_witness :
    NodesContainer.EvaluateTree repeatableSchema { Directives := [0], Blocks := [] }
        [leaf "repeatable" ["value1"], leaf "other" ["x"], leaf "repeatable" ["value2"],
          leaf "repeatable" ["value3"]] Cfg.zero =
      .ret none
        { host := "", port := "", tls := false, tags := ["value1", "value2", "value3"] } :=
  ((C18_repeatable_occurrences repeatableSchema { Directives := [0], Blocks := [] }
    "repeatable"
    [leaf "repeatable" ["value1"], leaf "other" ["x"], leaf "repeatable" ["value2"],
      leaf "repeatable" ["value3"]] Cfg.zero
    (by
      intro n hn
      simp only [List.mem_cons, List.mem_singleton, List.not_mem_nil, or_false] at hn
      rcases hn with rfl | rfl | rfl | rfl
      · exact Or.inl rfl
      · right
        simp [repeatableSchema, repeatableDef, leaf]
      · exact Or.inl rfl
      · exact Or.inl rfl)).1 repeatableDef rfl rfl rfl).trans rfl

/-- C19 as stated fails. The container holds two directive definitions named
`tls`, not repeatable; a list with the single node `tls true` gets the
repetition error at the first evaluation, at its node of index 0. -/
theorem C19_counterexample :
    NodesContainer.EvaluateTree tlsSchema { Directives := [0, 1], Blocks := [] }
        [leaf "tls" ["true"]] Cfg.zero =
      .ret (some "directive 'tls' may not be repeated")
        { host := "", port := "", tls := true, tags := [] } ∧
    repeatedAt tlsSchema { Directives := [0, 1], Blocks := [] }
        [leaf "tls" ["true"]] [] [] Cfg.zero = some 0 :=
  ⟨rfl, rfl⟩

/-- C19, amended. Take a container in which the name of the node `n` is the
name of one registered directive definition `D` and of no other registered
definition, and a sibling list made of `n` and of nodes that have the name of
no registered definition. Whatever the state at the start, `EvaluateTree` of
the list is the evaluation of `n` by `D` and does not return through a
repetition check; so any number of evaluations of the list in succession is
that number of evaluations of `n` by `D` in succession. -/
theorem C19_bookkeeping_is_per_call {σ : Type} (H : Schema σ) (nc : NodesContainer)
    (D : DirectiveDef σ) (pre post : List Node) (n : Node)
    (hD : (nc.Directives.map H.directive).filter (fun d => d.name == n.Name) = [D])
    (hB : (nc.Blocks.map H.block).filter (fun b => b.name == n.Name) = [])
    (hpre : ∀ m ∈ pre, (∀ d ∈ nc.Directives.map H.directive, d.name ≠ m.Name) ∧
      (∀ b ∈ nc.Blocks.map H.block, b.name ≠ m.Name))
    (hpost : ∀ m ∈ post, (∀ d ∈ nc.Directives.map H.directive, d.name ≠ m.Name) ∧
      (∀ b ∈ nc.Blocks.map H.block, b.name ≠ m.Name)) :
    (∀ s, nc.EvaluateTree H (pre ++ n :: post) s = D.Evaluate n s) ∧
    (∀ s, repeatedAt H nc (pre ++ n :: post) [] [] s = none) ∧
    (∀ k s, repeatCall (fun t => nc.EvaluateTree H (pre ++ n :: post) t) k s =
      repeatCall (fun t => D.Evaluate n t) k s) := by
  have heq : ∀ s, nc.EvaluateTree H (pre ++ n :: post) s = D.Evaluate n s :=
    fun s => walkNodes_single_occurrence H nc D pre post n s hD hB hpre hpost
  refine ⟨heq, ?_, repeatCall_congr _ _ heq⟩
  intro s
  cases hrep : repeatedAt H nc (pre ++ n :: post) [] [] s with
  | none => rfl
  | some i =>
    exfalso
    obtain ⟨m, hm, -, hmatch, hcause⟩ := repeatedAt_cause H nc _ [] [] s i hrep
    have hDmem : D ∈ nc.Directives.map H.directive ∧ (D.name == n.Name) = true := by
      have : D ∈ (nc.Directives.map H.directive).filter (fun d => d.name == n.Name) := by
        rw [hD]; exact List.mem_singleton_self _
      exact List.mem_filter.1 this
    have hDname : D.name = n.Name := by simpa using hDmem.2
    -- the node at which the check is reached has the name of a definition: it is `n`
    have hmn : m.Name = n.Name ∧ ∀ j k, j < i → (pre ++ n :: post)[j]? = some k →
        k.Name ≠ n.Name := by
      have hmem : m ∈ pre ++ n :: post := List.getElem?_mem hm
      have hunm : ∀ k, (∀ d ∈ nc.Directives.map H.directive, d.name ≠ k.Name) ∧
          (∀ b ∈ nc.Blocks.map H.block, b.name ≠ k.Name) → k ≠ m := by
        rintro k ⟨hk1, hk2⟩ rfl
        rcases hmatch with ⟨d, hd, hdn⟩ | ⟨b, hb, hbn⟩
        · exact hk1 d hd hdn
        · exact hk2 b hb hbn
      by_cases hi : i < pre.length
      · exfalso
        rw [List.getElem?_append_left hi] at hm
        exact hunm m (hpre m (List.getElem?_mem hm)) rfl
      · by_cases hi2 : i = pre.length
        · subst hi2
          rw [List.getElem?_append_right (le_refl _)] at hm
          simp only [Nat.sub_self, List.getElem?_cons_zero, Option.some.injEq] at hm
          subst hm
          refine ⟨rfl, ?_⟩
          intro j k hj hk
          rw [List.getElem?_append_left hj] at hk
          have := (hpre k (List.getElem?_mem hk)).1 D hDmem.1
          rw [hDname] at this
          exact fun h => this h.symm
        · exfalso
          have hge : pre.length ≤ i := by omega
          rw [List.getElem?_append_right hge] at hm
          obtain ⟨i1, hi1⟩ : ∃ i1, i - pre.length = i1 + 1 := ⟨i - pre.length - 1, by omega⟩
          rw [hi1, List.getElem?_cons_succ] at hm
          exact hunm m (hpost m (List.getElem?_mem hm)) rfl
    obtain ⟨hmname, hearlier⟩ := hmn
    rw [hmname] at hcause
    rcases hcause with h1 | h1 | ⟨j, k, hj, hk, hkn⟩ | h1 | h1
    · simp at h1
    · simp at h1
    · exact hearlier j k hj hk hkn
    · rw [List.countP_eq_length_filter, hD] at h1
      simp at h1
    · rw [List.countP_eq_length_filter, hB] at h1
      simp at h1

/-- C19, amended, at a container holding the directive `tls` once and the list
`listen a`, `tls true`: three evaluations in succession return `nil`. -/
theorem C19_bookkeeping_is_per_call_witness :
    repeatCall (fun t => NodesContainer.EvaluateTree tlsSchema
        { Directives := [0], Blocks := [] } ([leaf "listen" ["a"]] ++ leaf "tls" ["true"] :: []) t)
      3 Cfg.zero =
      .ret none { host := "", port := "", tls := true, tags := [] } :=
  ((C19_bookkeeping_is_per_call tlsSchema { Directives := [0], Blocks := [] } tlsDef
    [leaf "listen" ["a"]] [] (leaf "tls" ["true"]) rfl rfl
    (by
      intro m hm
      simp only [List.mem_singleton] at hm
      subst hm
      simp [tlsSchema, tlsDef, leaf])
    (by intro m hm; simp at hm)).2.2 3 Cfg.zero).trans rfl

/-- C20 as stated fails. The container holds two block definitions named
`port`, not repeatable; on the list of the single node `port 80` the second
definition finds the name marked by the first one and `EvaluateTree` returns
the repetition error at the node of index 0, which has no earlier node. -/
theorem C20_counterexample :
    NodesContainer.EvaluateTree portSchema { Directives := [], Blocks := [0, 1] }
        [leaf "port" ["80"]] Cfg.zero =
      .ret (some "block 'port' may not be repeated")
        { host := "", port := "80", tls := false, tags := [] } ∧
    repeatedAt portSchema { Directives := [], Blocks := [0, 1] }
        [leaf "port" ["80"]] [] [] Cfg.zero = some 0 :=
  ⟨rfl, rfl⟩

/-- C20, amended. Whenever `EvaluateTree` returns through a repetition check
at the node of index `i` of the sibling list, it returns the repetition error
of that node, and either some node of a smaller index has the same name, or
the container holds two directive definitions or two block definitions of that
name. -/
theorem C20_repetition_has_a_cause {σ : Type} (H : Schema σ) (nc : NodesContainer)
    (nodes : List Node) (s : σ) (i : Nat)
    (h : repeatedAt H nc nodes [] [] s = some i) :
    ∃ n, nodes[i]? = some n ∧
      (∃ kind s1, (kind = "directive" ∨ kind = "block") ∧
        nc.EvaluateTree H nodes s =
          .ret (some (NodeErr n (kind ++ " '" ++ n.Name ++ "' may not be repeated"))) s1) ∧
      ((∃ j m, j < i ∧ nodes[j]? = some m ∧ m.Name = n.Name) ∨
        2 ≤ (nc.Directives.map H.directive).countP (fun d => d.name == n.Name) ∨
        2 ≤ (nc.Blocks.map H.block).countP (fun b => b.name == n.Name)) := by
  obtain ⟨n, hn, hout, -, hcause⟩ := repeatedAt_cause H nc nodes [] [] s i h
  refine ⟨n, hn, hout, ?_⟩
  rcases hcause with h1 | h1 | h1 | h1 | h1
  · simp at h1
  · simp at h1
  · exact Or.inl h1
  · exact Or.inr (Or.inl h1)
  · exact Or.inr (Or.inr h1)

/-- C20, amended, at a container holding the directive `tls` once and the
list `tls true`, `listen a`, `tls false`: the check is reached at index 2. -/
theorem C20_repetition_has_a_cause_witness :
    ∃ n, [leaf "tls" ["true"], leaf "listen" ["a"], leaf "tls" ["false"]][2]? = some n ∧
      (∃ kind s1, (kind = "directive" ∨ kind = "block") ∧
        NodesContainer.EvaluateTree tlsSchema { Directives := [0], Blocks := [] }
            [leaf "tls" ["true"], leaf "listen" ["a"], leaf "tls" ["false"]] Cfg.zero =
          .ret (some (NodeErr n (kind ++ " '" ++ n.Name ++ "' may not be repeated"))) s1) ∧
      ((∃ j m, j < 2 ∧
          [leaf "tls" ["true"], leaf "listen" ["a"], leaf "tls" ["false"]][j]? = some m ∧
          m.Name = n.Name) ∨
        2 ≤ (({ Directives := [0], Blocks := [] } : NodesContainer).Directives.map
          tlsSchema.directive).countP (fun d => d.name == n.Name) ∨
        2 ≤ (({ Directives := [0], Blocks := [] } : NodesContainer).Blocks.map
          tlsSchema.block).countP (fun b => b.name == n.Name)) :=
  C20_repetition_has_a_cause tlsSchema { Directives := [0], Blocks := [] }
    [leaf "tls" ["true"], leaf "listen" ["a"], leaf "tls" ["false"]] Cfg.zero 2 rfl

/-- C21 as stated fails on its last part. The directive `listen <host>` is
repeatable and its handler rejects the host "bad". The first node writes
"good" to `host`; the second node fails in its handler, after its binding has
written "bad" to `host`: the variable written by the node at index 0 does not
keep the value written. -/
theorem C21_counterexample :
    NodesContainer.EvaluateTree guardedSchema { Directives := [0], Blocks := [] }
        [leaf "listen" ["good"]] Cfg.zero =
      .ret none { host := "good", port := "", tls := false, tags := [] } ∧
    NodesContainer.EvaluateTree guardedSchema { Directives := [0], Blocks := [] }
        [leaf "listen" ["good"], leaf "listen" ["bad"]] Cfg.zero =
      .ret (some "host rejected") { host := "bad", port := "", tls := false, tags := [] } ∧
    "bad" ≠ "good" :=
  ⟨rfl, rfl, by decide⟩

/-- C21, amended. Let the sibling list be `pre`, then `n`, then `post`, let
`EvaluateTree` return `nil` on `pre` and not return `nil` on `pre` followed by
`n`. Then `EvaluateTree` of the whole list has the outcome it has without
`post`, error and state: no node after `n` has any part in it. This outcome is
the one of the loop at `n` alone, started on the state that the nodes of `pre`
left. What the loop at `n` never changes has, at the failure, the value that
the nodes of `pre` left. -/
theorem C21_first_error_wins {σ : Type} (H : Schema σ) (nc : NodesContainer)
    (pre post : List Node) (n : Node) (s s1 : σ)
    (hpre : nc.EvaluateTree H pre s = .ret none s1)
    (hfail : ∀ t, nc.EvaluateTree H (pre ++ [n]) s ≠ .ret none t) :
    nc.EvaluateTree H (pre ++ n :: post) s = nc.EvaluateTree H (pre ++ [n]) s ∧
    (∃ uD uB, nc.EvaluateTree H (pre ++ [n]) s = walkNodes H nc [n] uD uB s1) ∧
    (∀ (α : Type) (f : σ → α),
      (∀ uD uB t e t1, walkNodes H nc [n] uD uB t = .ret e t1 → f t1 = f t) →
      ∀ e t1, nc.EvaluateTree H (pre ++ n :: post) s = .ret e t1 → f t1 = f s1) := by
  obtain ⟨uD, uB, happ, -⟩ := walkNodes_passed H nc pre [] [] s s1 hpre
  have h1 : nc.EvaluateTree H (pre ++ [n]) s = walkNodes H nc [n] uD uB s1 := happ [n]
  have h2 : nc.EvaluateTree H (pre ++ n :: post) s = walkNodes H nc [n] uD uB s1 := by
    have h3 : nc.EvaluateTree H (pre ++ n :: post) s = walkNodes H nc (n :: post) uD uB s1 :=
      happ (n :: post)
    rw [h3]
    exact walkNodes_fail_head H nc n post uD uB s1 (by rw [← h1]; exact hfail)
  refine ⟨by rw [h2, h1], ⟨uD, uB, h1⟩, ?_⟩
  intro α f hf e t1 he
  rw [h2] at he
  exact hf uD uB s1 e t1 he

/-- C21, amended, at the directive `listen <host>` with the rejecting handler:
the third node has no part in the outcome, and the variable `port`, which the
directive never writes, is as it was. -/
theorem C21_first_error_wins_witness :
    NodesContainer.EvaluateTree guardedSchema { Directives := [0], Blocks := [] }
        ([leaf "listen" ["good"]] ++ leaf "listen" ["bad"] :: [leaf "listen" ["late"]])
        Cfg.zero =
      .ret (some "host rejected") { host := "bad", port := "", tls := false, tags := [] } :=
  (C21_first_error_wins guardedSchema { Directives := [0], Blocks := [] }
    [leaf "listen" ["good"]] [leaf "listen" ["late"]] (leaf "listen" ["bad"]) Cfg.zero
    { host := "good", port := "", tls := false, tags := [] } rfl
    (by intro t h; cases h)).1.trans rfl

/-- C22, evaluated at the failing input. For a childless node `server` read at
line 7 of `main.conf`, `Evaluate` of the directive `listen` returns the name
mismatch error without the position in front, whereas the error of the arity
check, for a node `listen` at the same position, has it. -/
theorem C22_name_mismatch_has_no_position :
    listenDef.Evaluate
        { Name := "server", Args := ["a"], Children := [], File := "main.conf", Line := 7 }
        Cfg.zero =
      .ret (some "node 'server' is not allowed here") Cfg.zero ∧
    ("main.conf:7: ".data.isPrefixOf "node 'server' is not allowed here".data) = false ∧
    listenDef.Evaluate
        { Name := "listen", Args := [], Children := [], File := "main.conf", Line := 7 }
        Cfg.zero =
      .ret (some "main.conf:7: directive 'listen' expects at least 1 arguments") Cfg.zero :=
  ⟨rfl, by decide, rfl⟩

/-- C23. For every node and every formatted message, the message of the error
that `NodeErr` returns is the formatted message itself when the file of the
node is empty, and otherwise the file, a colon, the line in decimal, a colon
and a blank, followed by the formatted message. -/
theorem C23_node_err_message (node : Node) (msg : String) :
    (node.File = "" → NodeErr node msg = msg) ∧
    (node.File ≠ "" →
      NodeErr node msg = node.File ++ ":" ++ toString node.Line ++ ": " ++ msg) := by
  constructor
  · intro h
    simp [NodeErr, h]
  · intro h
    simp [NodeErr, h]

/-- C23 at the node of the package test, line 123 of `test.conf`, and at a
node without a file. -/
theorem C23_node_err_message_witness :
    NodeErr { Name := "format_test", Args := [], Children := [], File := "test.conf", Line := 123 }
        "test formatting with 42 values" = "test.conf:123: test formatting with 42 values" ∧
    NodeErr { Name := "minimal_node", Args := [], Children := [], File := "", Line := 0 }
        "test error message" = "test error message" :=
  ⟨(C23_node_err_message
      { Name := "format_test", Args := [], Children := [], File := "test.conf", Line := 123 }
      "test formatting with 42 values").2 (by decide),
   (C23_node_err_message
      { Name := "minimal_node", Args := [], Children := [], File := "", Line := 0 }
      "test error message").1 rfl⟩

/-- C24. `DefineDirectiveCallback` returns, at a new address appended to the
directives of the container, a definition with `MinArgs` 0 and `MaxArgs` -1
that has no argument definition; for every childless node of that name,
whatever its arguments and the state, `Evaluate` is one call of the callback
with the node, on the state as it was, and its outcome is the outcome of the
callback. -/
theorem C24_callback_directive_is_unbounded {σ : Type} (H : Schema σ) (nc : NodesContainer)
    (p : Nat) (name : String) (cb : NodeHandler σ) (node : Node) (s : σ)
    (hch : node.Children = []) (hname : node.Name = name) :
    ∃ d H1 nc1, nc.DefineDirectiveCallback H p name (some cb) = .ok (d, H1, nc1) ∧
      d.name = name ∧ d.args = [] ∧ d.minArgs = 0 ∧ d.maxArgs = -1 ∧
      H1.directive p = d ∧ nc1.Directives = nc.Directives ++ [p] ∧
      d.Evaluate node s = cb node s := by
  refine ⟨_, _, _, rfl, rfl, rfl, rfl, rfl, ?_, rfl, ?_⟩
  · simp [Schema.storeDirective]
  · have h1 : (node.Name != name) = false := by simp [hname]
    simp [DirectiveDef.Evaluate, hch, evaluate, h1, DirectiveDef.SetHandler, CommonDef.new,
      bindArgs]

/-- C24 at the callback of the package test and a node with three
arguments. -/
theorem C24_callback_directive_is_unbounded_witness :
    ∃ d H1 nc1,
      NodesContainer.DefineDirectiveCallback tlsSchema { Directives := [], Blocks := [] } 0
        "repeatable" (some collectHandler) = .ok (d, H1, nc1) ∧
      d.name = "repeatable" ∧ d.args = [] ∧ d.minArgs = 0 ∧ d.maxArgs = -1 ∧
      H1.directive 0 = d ∧ nc1.Directives = [] ++ [0] ∧
      d.Evaluate (leaf "repeatable" ["a", "b", "c"]) Cfg.zero =
        collectHandler (leaf "repeatable" ["a", "b", "c"]) Cfg.zero :=
  C24_callback_directive_is_unbounded tlsSchema { Directives := [], Blocks := [] } 0
    "repeatable" collectHandler (leaf "repeatable" ["a", "b", "c"]) Cfg.zero rfl rfl

/-- C25. For every `Value` and every list of strings: `SetList` on the empty
list returns `nil` and leaves the state as it was; `SetList` returns `nil`
exactly when every `Set` call of the run on the list, in list order, returns
`nil`, and then leaves the state the run leaves; when the strings before one
string are all set and the `Set` call on that string returns an error,
`SetList` returns this error and the state that call left, whatever strings
come after; and one of the two happens, the second one also covering a `Set`
call that panics. -/
theorem C25_set_list_stops_at_first_failure {σ : Type} (v : Value σ) (xs : List String)
    (s : σ) :
    SetList v [] s = .ret none s ∧
    (∀ s1, SetList v xs s = .ret none s1 ↔ setAll v xs s = some s1) ∧
    (∀ pre x post s1 e s2, xs = pre ++ x :: post → setAll v pre s = some s1 →
      v.Set x s1 = .ret (some e) s2 → SetList v xs s = .ret (some e) s2) ∧
    ((∃ s1, SetList v xs s = .ret none s1) ∨
      (∃ pre x post s1, xs = pre ++ x :: post ∧ setAll v pre s = some s1 ∧
        (∀ t, v.Set x s1 ≠ .ret none t) ∧ SetList v xs s = v.Set x s1)) := by
  refine ⟨rfl, fun s1 => setList_nil_iff v xs s s1, ?_, ?_⟩
  · intro pre x post s1 e s2 hxs hpre hx
    rw [hxs, setList_append v pre s s1 hpre, setList_cons_failure v x post s1, hx]
    intro t
    rw [hx]
    simp
  · rcases setAll_cases v xs s with ⟨s1, h1⟩ | ⟨pre, x, post, s1, hxs, hpre, hx⟩
    · exact Or.inl ⟨s1, (setList_nil_iff v xs s s1).2 h1⟩
    · refine Or.inr ⟨pre, x, post, s1, hxs, hpre, hx, ?_⟩
      rw [hxs, setList_append v pre s s1 hpre, setList_cons_failure v x post s1 hx]

/-- C25 at the boolean `Value` and the list "true", "maybe", "false": the
error is the one of the second string, the first string has been stored and
the third has not. -/
theorem C25_set_list_stops_at_first_failure_witness :
    SetList tlsValue ["true", "maybe", "false"] Cfg.zero =
      .ret (some "invalid boolean value: maybe")
        { host := "", port := "", tls := true, tags := [] } :=
  (C25_set_list_stops_at_first_failure tlsValue ["true", "maybe", "false"] Cfg.zero).2.2.1
    ["true"] "maybe" ["false"] { host := "", port := "", tls := true, tags := [] }
    "invalid boolean value: maybe" { host := "", port := "", tls := true, tags := [] }
    rfl rfl rfl

/-- C26. For every accumulator, every state and every string that the element
`Value` parses to `e`, `Set` returns `nil` and leaves the slice equal to its
previous content followed by `e`. Hence after a run of `Set` calls that all
return `nil`, the slice is its previous content followed by one parsed
element for every call, in call order. -/
theorem C26_accumulator_set_appends {σ T : Type} (acc : Accumulator σ T) :
    (∀ (x : String) (e : T) (s : σ), acc.element.Set x acc.zero = .ret none e →
      ∃ s1, acc.Set x s = .ret none s1 ∧ acc.slice.get s1 = acc.slice.get s ++ [e]) ∧
    (∀ (xs : List String) (s s1 : σ), setAll acc.toValue xs s = some s1 →
      ∃ es, es.length = xs.length ∧
        List.Forall₂ (fun x e => acc.element.Set x acc.zero = .ret none e) xs es ∧
        acc.slice.get s1 = acc.slice.get s ++ es) := by
  constructor
  · intro x e s hx
    refine ⟨acc.slice.put (acc.slice.get s ++ [e]) s, ?_, acc.slice.get_put _ _⟩
    simp only [Accumulator.Set, hx]
  · intro xs s s1 h
    obtain ⟨es, hes, hget⟩ := setAll_accumulator acc xs s s1 h
    exact ⟨es, hes.length_eq.symm, hes, hget⟩

/-- C26 at the accumulator of strings around `tags`, with the three values of
the package test. -/
theorem C26_accumulator_set_appends_witness :
    (∃ s1, tagsAccumulator.Set "val1" Cfg.zero = .ret none s1 ∧ s1.tags = [] ++ ["val1"]) ∧
    (∃ es, es.length = 3 ∧
      List.Forall₂ (fun x e => tagsAccumulator.element.Set x tagsAccumulator.zero = .ret none e)
        ["val1", "val2", "val3"] es ∧
      tagsAccumulator.slice.get
          { host := "", port := "", tls := false, tags := ["val0", "val1", "val2", "val3"] } =
        tagsAccumulator.slice.get { host := "", port := "", tls := false, tags := ["val0"] }
          ++ es) :=
  ⟨(C26_accumulator_set_appends tagsAccumulator).1 "val1" "val1" Cfg.zero rfl,
   (C26_accumulator_set_appends tagsAccumulator).2 ["val1", "val2", "val3"]
      { host := "", port := "", tls := false, tags := ["val0"] }
      { host := "", port := "", tls := false, tags := ["val0", "val1", "val2", "val3"] } rfl⟩

/-- C27. For every accumulator and every state, `String()` is the renderings
of the elements of the slice by the element `Value`, in the order of the
slice, joined by a single comma; it is the empty string when the slice is
empty. -/
theorem C27_accumulator_string_joins {σ T : Type} (acc : Accumulator σ T) (s : σ) :
    acc.Str s = joinComma ((acc.slice.get s).map acc.element.Str) ∧
    (acc.slice.get s = [] → acc.Str s = "") := by
  constructor
  · simp only [Accumulator.Str, intercalate_comma]
  · intro h
    simp only [Accumulator.Str, h, List.map_nil]
    rfl

/-- C27 at the accumulator of strings around `tags`, empty and with three
elements. -/
theorem C27_accumulator_string_joins_witness :
    tagsAccumulator.Str Cfg.zero = "" ∧
    tagsAccumulator.Str { host := "", port := "", tls := false, tags := ["a", "b", "c"] } =
      "a,b,c" :=
  ⟨(C27_accumulator_string_joins tagsAccumulator Cfg.zero).2 rfl,
   (C27_accumulator_string_joins tagsAccumulator
      { host := "", port := "", tls := false, tags := ["a", "b", "c"] }).1.trans (by decide)⟩

/-- C28. Take the definition that `NewDirectiveDef` returns for a name x and
one variadic argument bound to an accumulator, marked repeatable by
`SetAttrs(Repeatable)`, as the only definition named x of a container, and a
sibling list whose other nodes have the name of no definition. When every
node named x is childless, has at least `MinArgs` arguments, and all its
arguments are parsed by the element `Value`, `EvaluateTree` returns `nil` and
leaves the slice equal to its previous content followed by the parsed
arguments of all nodes named x, node after node in sibling order and, within
a node, in argument order. -/
theorem C28_multi_occurrence_capture {σ T : Type} (H : Schema σ) (nc : NodesContainer)
    (acc : Accumulator σ T) (x : String) (v : ArgDef σ) (D0 : DirectiveDef σ)
    (parse : String → T) (nodes : List Node) (s : σ)
    (hv : v.variadic = true) (ht : v.target = acc.toValue)
    (hnew : NewDirectiveDef x [v] = .ok D0)
    (hD : (nc.Directives.map H.directive).filter (fun d => d.name == x)
      = [D0.SetAttrs [Repeatable]])
    (hB : (nc.Blocks.map H.block).filter (fun b => b.name == x) = [])
    (hnodes : ∀ n ∈ nodes, n.Name = x ∨
      ((∀ d ∈ nc.Directives.map H.directive, d.name ≠ n.Name) ∧
        (∀ b ∈ nc.Blocks.map H.block, b.name ≠ n.Name)))
    (hocc : ∀ n ∈ nodes, n.Name = x →
      n.Children = [] ∧ D0.minArgs ≤ n.Args.length ∧
        ∀ a ∈ n.Args, acc.element.Set a acc.zero = .ret none (parse a)) :
    ∃ s1, nc.EvaluateTree H nodes s = .ret none s1 ∧
      acc.slice.get s1 = acc.slice.get s ++
        (((nodes.filter (fun n => n.Name == x)).map (fun n => n.Args)).flatten).map parse := by
  obtain ⟨hname, hargs, hmin, hmax, hh, hrep⟩ := newDirectiveDef_variadic x v D0 hv hnew
  have hwalk : nc.EvaluateTree H nodes s =
      evalEach (fun n t => (D0.SetAttrs [Repeatable]).Evaluate n t)
        (nodes.filter (fun n => n.Name == x)) s :=
    walkNodes_repeatable_directive H nc x _ hD hB hrep nodes [] [] s hnodes
  rw [hwalk]
  apply evalEach_accumulator acc (D0.SetAttrs [Repeatable]) v hargs hv ht hmax hh parse
  intro n hn
  obtain ⟨hmem, hnx⟩ := List.mem_filter.1 hn
  have hnx1 : n.Name = x := by simpa using hnx
  obtain ⟨hch, hlen, hp⟩ := hocc n hmem hnx1
  exact ⟨by rw [hname, hnx1], hch, by rw [hmin]; exact hlen, hp⟩

/-- C28 at the directive `tag <text>...` bound to the accumulator around
`tags`: two occurrences, with a node of an unknown name between them, on a
slice that holds one element. -/
theorem C28_multi_occurrence_capture_witness :
    ∃ s1, NodesContainer.EvaluateTree tagSchema { Directives := [0], Blocks := [] }
        [leaf "tag" ["a", "b"], leaf "other" ["x"], leaf "tag" ["c"]]
        { host := "", port := "", tls := false, tags := ["z"] } = .ret none s1 ∧
      s1.tags = ["z", "a", "b", "c"] :=
  C28_multi_occurrence_capture tagSchema { Directives := [0], Blocks := [] } tagsAccumulator
    "tag" (NewVariadicArgDef tagsAccumulator.toValue 0 [])
    { name := "tag", args := [NewVariadicArgDef tagsAccumulator.toValue 0 []],
      minArgs := 1, maxArgs := -1, handler := none, repeatable := false }
    id [leaf "tag" ["a", "b"], leaf "other" ["x"], leaf "tag" ["c"]]
    { host := "", port := "", tls := false, tags := ["z"] }
    rfl rfl rfl rfl rfl
    (by
      intro n hn
      simp only [List.mem_cons, List.mem_singleton, List.not_mem_nil, or_false] at hn
      rcases hn with rfl | rfl | rfl
      · exact Or.inl rfl
      · exact Or.inr ⟨by simp [tagSchema, tagDef, leaf], by simp⟩
      · exact Or.inl rfl)
    (by
      intro n hn _
      simp only [List.mem_cons, List.mem_singleton, List.not_mem_nil, or_false] at hn
      rcases hn with rfl | rfl | rfl
      · exact ⟨rfl, by decide, fun a _ => rfl⟩
      · exact ⟨rfl, by decide, fun a _ => rfl⟩
      · exact ⟨rfl, by decide, fun a _ => rfl⟩)

/-- C29, evaluated at the failing input. `NewDirectiveDef` with one variadic
argument followed by `AddArgs` with one more argument does not panic: the
list is extended to a variadic argument followed by a non-variadic one, with
`MinArgs` 2 and `MaxArgs` 0. -/
theorem C29_argument_added_after_variadic_is_accepted :
    ∃ d0 d1 : DirectiveDef Cfg,
      NewDirectiveDef "tag" [NewVariadicArgDef tagsValue 0 []] = .ok d0 ∧
      d0.AddArgs [NewArgDef hostValue 0 []] = .ok d1 ∧
      d1.args.map (fun a => a.variadic) = [true, false] ∧
      d1.minArgs = 2 ∧ d1.maxArgs = 0 ∧
      VariadicNotLast d1.args :=
  ⟨_, _, rfl, rfl, rfl, rfl, rfl, 0, NewVariadicArgDef tagsValue 0 [], rfl, rfl, by decide⟩

/-- C30. Take any number of calls of `AddArgs` on a directive definition, or of
`WithArgs` on a module block definition, each of which adds only required
arguments that are not variadic. The calls return, `Args` is the previous list
followed by the added arguments in the order added, and the length of `Args`,
`MinArgs` and `MaxArgs` have each grown by the number of arguments added. So
the module block that `NewModuleBlockDef` returns, when its selector argument
is required and not variadic, has after one added argument two arguments and
`MinArgs` 2. -/
theorem C30_counts_accumulate {σ : Type} (calls : List (List (ArgDef σ)))
    (h : ∀ args ∈ calls, ∀ a ∈ args, a.required = true ∧ a.variadic = false) :
    (∀ d : DirectiveDef σ, ∃ e, callEach DirectiveDef.AddArgs calls d = .ok e ∧
        e.args = d.args ++ calls.flatten ∧
        e.args.length = d.args.length + calls.flatten.length ∧
        e.minArgs = d.minArgs + (calls.flatten.length : Nat) ∧
        e.maxArgs = d.maxArgs + (calls.flatten.length : Nat)) ∧
    (∀ d : ModuleBlockDef σ, ∃ e, callEach ModuleBlockDef.WithArgs calls d = .ok e ∧
        e.args = d.args ++ calls.flatten ∧
        e.args.length = d.args.length + calls.flatten.length ∧
        e.minArgs = d.minArgs + (calls.flatten.length : Nat) ∧
        e.maxArgs = d.maxArgs + (calls.flatten.length : Nat)) ∧
    (∀ (stringArg : Option (StringRef σ) → List ArgAttribute → ArgDef σ) (name : String),
        (stringArg none []).required = true → (stringArg none []).variadic = false →
        ∃ d e, NewModuleBlockDef stringArg name = .ok d ∧
          callEach ModuleBlockDef.WithArgs calls d = .ok e ∧
          e.args = stringArg none [] :: calls.flatten ∧
          e.minArgs = 1 + (calls.flatten.length : Nat) ∧
          e.maxArgs = 1 + (calls.flatten.length : Nat)) := by
  have hD : ∀ d : DirectiveDef σ, ∃ e, callEach DirectiveDef.AddArgs calls d = .ok e ∧
      e.args = d.args ++ calls.flatten ∧
      e.minArgs = d.minArgs + (calls.flatten.length : Nat) ∧
      e.maxArgs = d.maxArgs + (calls.flatten.length : Nat) := fun d =>
    callEach_required (fun d => d.toCommonDef) DirectiveDef.AddArgs
      (by intro d args e he; exact ⟨⟨e⟩, by simp [DirectiveDef.AddArgs, he, Except.map], rfl⟩)
      calls d h
  have hM : ∀ d : ModuleBlockDef σ, ∃ e, callEach ModuleBlockDef.WithArgs calls d = .ok e ∧
      e.args = d.args ++ calls.flatten ∧
      e.minArgs = d.minArgs + (calls.flatten.length : Nat) ∧
      e.maxArgs = d.maxArgs + (calls.flatten.length : Nat) := fun d =>
    callEach_required (fun d => d.toCommonDef) ModuleBlockDef.WithArgs
      (by
        intro d args e he
        exact ⟨{ d with toCommonDef := e }, by simp [ModuleBlockDef.WithArgs, he, Except.map],
          rfl⟩)
      calls d h
  refine ⟨?_, ?_, ?_⟩
  · intro d
    obtain ⟨e, he, h1, h2, h3⟩ := hD d
    exact ⟨e, he, h1, by rw [h1, List.length_append], h2, h3⟩
  · intro d
    obtain ⟨e, he, h1, h2, h3⟩ := hM d
    exact ⟨e, he, h1, by rw [h1, List.length_append], h2, h3⟩
  · intro stringArg name hreq hvar
    obtain ⟨c, hc, -, hargs, hmin, hmax, -, -⟩ :=
      addArgs_required (CommonDef.new name : CommonDef σ) [stringArg none []]
        (by intro a ha; simp only [List.mem_singleton] at ha; subst ha; exact ⟨hreq, hvar⟩)
    obtain ⟨e, he, h1, h2, h3⟩ :=
      hM { toCommonDef := c, modules := fun _ => none, moduleName := none }
    refine ⟨_, e, by simp only [NewModuleBlockDef, hc]; rfl, he, ?_, ?_, ?_⟩
    · rw [h1]
      simp only [hargs, CommonDef.new, List.nil_append, List.singleton_append]
    · rw [h2]
      simp only [hmin, CommonDef.new, List.length_singleton]
      norm_num
    · rw [h3]
      simp only [hmax, CommonDef.new, List.length_singleton]
      norm_num

/-- C30 at the examples of the package tests: a directive without arguments
and two added string arguments has 2 arguments, `MinArgs` 2 and `MaxArgs` 2;
a new module block and one added string argument has 2 arguments and
`MinArgs` 2. -/
theorem C30_counts_accumulate_witness :
    (∃ d0 e : DirectiveDef Cfg, NewDirectiveDef "test_directive" [] = .ok d0 ∧
      callEach DirectiveDef.AddArgs [[NewArgDef hostValue 0 [], NewArgDef portValue 0 []]] d0
        = .ok e ∧
      e.args.length = 2 ∧ e.minArgs = 2 ∧ e.maxArgs = 2) ∧
    (∃ d e : ModuleBlockDef Cfg, NewModuleBlockDef StringArg "module_block" = .ok d ∧
      callEach ModuleBlockDef.WithArgs [[StringArg (some hostRef) []]] d = .ok e ∧
      e.args.length = 2 ∧ e.minArgs = 2) := by
  have hcall : ∀ args ∈ [[NewArgDef hostValue 0 [], NewArgDef portValue 0 []]],
      ∀ a ∈ args, a.required = true ∧ a.variadic = false := by
    intro args hargs a ha
    simp only [List.mem_singleton] at hargs
    subst hargs
    simp only [List.mem_cons, List.mem_singleton, List.not_mem_nil, or_false] at ha
    rcases ha with rfl | rfl <;> exact ⟨rfl, rfl⟩
  have hone : ∀ args ∈ [[(StringArg (some hostRef) [] : ArgDef Cfg)]],
      ∀ a ∈ args, a.required = true ∧ a.variadic = false := by
    intro args hargs a ha
    simp only [List.mem_singleton] at hargs
    subst hargs
    simp only [List.mem_singleton] at ha
    subst ha
    exact ⟨rfl, rfl⟩
  constructor
  · obtain ⟨e, he, h1, h2, h3, h4⟩ :=
      (C30_counts_accumulate [[NewArgDef hostValue 0 [], NewArgDef portValue 0 []]] hcall).1
        ⟨CommonDef.new "test_directive"⟩
    exact ⟨_, e, rfl, he, by simpa [CommonDef.new] using h2,
      by simpa [CommonDef.new] using h3, by simpa [CommonDef.new] using h4⟩
  · obtain ⟨d, e, hd, he, h1, h2, h3⟩ :=
      (C30_counts_accumulate [[(StringArg (some hostRef) [] : ArgDef Cfg)]] hone).2.2
        StringArg "module_block" rfl rfl
    exact ⟨d, e, hd, he, by rw [h1]; rfl, by simpa using h2⟩

/-- C31. For every node and every integer `num`, `ExpectMaxArgN` returns an
error exactly when the node has more than `num` arguments, and `nil`
otherwise; the message of the error mentions "expected at most" and the name
of the node. -/
theorem C31_expect_max_arg (node : Node) (num : Int) :
    ((∃ msg, ExpectMaxArgN node num = some msg) ↔ num < (node.Args.length : Int)) ∧
    (¬ num < (node.Args.length : Int) → ExpectMaxArgN node num = none) ∧
    (∀ msg, ExpectMaxArgN node num = some msg →
      Mentions msg "expected at most" ∧ Mentions msg node.Name) := by
  unfold ExpectMaxArgN
  by_cases h : (node.Args.length : Int) > num
  · simp only [h, ↓reduceIte, Option.some.injEq, exists_eq', true_iff, not_true_eq_false,
      false_implies, true_and]
    intro msg hmsg
    subst hmsg
    constructor
    · apply mentions_nodeErr
      have := mentions_mid "" "expected at most"
        (" " ++ toString num ++ " arguments to " ++ node.Name ++ ", got "
          ++ toString node.Args.length)
      simpa [String.append_assoc] using this
    · apply mentions_nodeErr
      have := mentions_mid ("expected at most " ++ toString num ++ " arguments to ") node.Name
        (", got " ++ toString node.Args.length)
      simpa [String.append_assoc] using this
  · have h1 : ¬ num < (node.Args.length : Int) := h
    simp [h, h1]

/-- C31 at cases of the package test: four arguments with a limit of three,
and three arguments with a limit of three. -/
theorem C31_expect_max_arg_witness :
    ExpectMaxArgN (leaf "directive" ["arg1", "arg2", "arg3", "arg4"]) 3 =
      some "expected at most 3 arguments to directive, got 4" ∧
    Mentions "expected at most 3 arguments to directive, got 4" "expected at most" ∧
    Mentions "expected at most 3 arguments to directive, got 4" "directive" ∧
    ExpectMaxArgN (leaf "directive" ["arg1", "arg2", "arg3"]) 3 = none :=
  ⟨rfl,
   ((C31_expect_max_arg (leaf "directive" ["arg1", "arg2", "arg3", "arg4"]) 3).2.2 _ rfl).1,
   ((C31_expect_max_arg (leaf "directive" ["arg1", "arg2", "arg3", "arg4"]) 3).2.2 _ rfl).2,
   (C31_expect_max_arg (leaf "directive" ["arg1", "arg2", "arg3"]) 3).2.1 (by decide)⟩

/-- C32. For every node and every integer `num`, `ExpectMinArgN` returns an
error exactly when the node has fewer than `num` arguments, and `nil`
otherwise; the message of the error mentions "expected at least" and the name
of the node. -/
theorem C32_expect_min_arg (node : Node) (num : Int) :
    ((∃ msg, ExpectMinArgN node num = some msg) ↔ (node.Args.length : Int) < num) ∧
    (¬ (node.Args.length : Int) < num → ExpectMinArgN node num = none) ∧
    (∀ msg, ExpectMinArgN node num = some msg →
      Mentions msg "expected at least" ∧ Mentions msg node.Name) := by
  unfold ExpectMinArgN
  by_cases h : (node.Args.length : Int) < num
  · simp only [h, ↓reduceIte, Option.some.injEq, exists_eq', true_iff, not_true_eq_false,
      false_implies, true_and]
    intro msg hmsg
    subst hmsg
    constructor
    · apply mentions_nodeErr
      have := mentions_mid "" "expected at least"
        (" " ++ toString num ++ " arguments to " ++ node.Name ++ ", got "
          ++ toString node.Args.length)
      simpa [String.append_assoc] using this
    · apply mentions_nodeErr
      have := mentions_mid ("expected at least " ++ toString num ++ " arguments to ") node.Name
        (", got " ++ toString node.Args.length)
      simpa [String.append_assoc] using this
  · simp [h]

/-- C32 at cases of the package test: one argument with a minimum of two, and
two arguments with a minimum of two. -/
theorem C32_expect_min_arg_witness :
    ExpectMinArgN (leaf "directive" ["arg1"]) 2 =
      some "expected at least 2 arguments to directive, got 1" ∧
    Mentions "expected at least 2 arguments to directive, got 1" "expected at least" ∧
    Mentions "expected at least 2 arguments to directive, got 1" "directive" ∧
    ExpectMinArgN (leaf "directive" ["arg1", "arg2"]) 2 = none :=
  ⟨rfl,
   ((C32_expect_min_arg (leaf "directive" ["arg1"]) 2).2.2 _ rfl).1,
   ((C32_expect_min_arg (leaf "directive" ["arg1"]) 2).2.2 _ rfl).2,
   (C32_expect_min_arg (leaf "directive" ["arg1", "arg2"]) 2).2.1 (by decide)⟩

/-- C33, evaluated on every input of the claim. A directive made by
`DefineDirectiveCallback` and extended by `AddArgs` with k >= 1 required
arguments that are not variadic has `MinArgs` k and `MaxArgs` k - 1, the -1 of
the callback directive having been incremented k times. A childless node of
that name with exactly k arguments is rejected by the second arity check; the
state is as it was: nothing is bound and the callback is not called. -/
theorem C33_callback_with_args_rejects {σ : Type} (H : Schema σ) (nc : NodesContainer)
    (p : Nat) (name : String) (cb : NodeHandler σ) (args : List (ArgDef σ)) (node : Node)
    (s : σ) (hk : args ≠ [])
    (hreq : ∀ a ∈ args, a.required = true ∧ a.variadic = false)
    (hch : node.Children = []) (hname : node.Name = name)
    (hlen : node.Args.length = args.length) :
    ∃ d0 H1 nc1 d, nc.DefineDirectiveCallback H p name (some cb) = .ok (d0, H1, nc1) ∧
      d0.AddArgs args = .ok d ∧
      d.minArgs = (args.length : Nat) ∧ d.maxArgs = (args.length : Nat) - 1 ∧
      d.Evaluate node s =
        .ret (some (NodeErr node ("directive '" ++ name ++ "' expects a maximum of "
          ++ toString ((args.length : Int) - 1) ++ " arguments"))) s := by
  obtain ⟨e, he, h1, -, h3, h4, -, -⟩ :=
    addArgs_required
      ({ name := name, args := [], minArgs := 0, maxArgs := -1, handler := some cb,
         repeatable := false } : CommonDef σ) args hreq
  dsimp only at h1 h3 h4
  rw [zero_add] at h3
  have h4a : e.maxArgs = (args.length : Int) - 1 := by rw [h4]; omega
  have hpos : 0 < args.length := List.length_pos.2 hk
  refine ⟨_, _, _, ⟨e⟩, rfl, congrArg (Except.map DirectiveDef.mk) he, h3, h4a, ?_⟩
  have hn : (node.Name != name) = false := by simp [hname]
  have hmin : ¬ ((node.Args.length : Int) < (args.length : Nat)) := by rw [hlen]; omega
  have hmax : (((args.length : Nat) : Int) - 1 != -1 &&
      decide ((node.Args.length : Int) > ((args.length : Nat) : Int) - 1)) = true := by
    have ha : ((args.length : Nat) : Int) - 1 ≠ -1 := by omega
    have hb : (node.Args.length : Int) > ((args.length : Nat) : Int) - 1 := by rw [hlen]; omega
    simp [ha, hb]
  simp only [DirectiveDef.Evaluate, hch, List.length_nil, bne_self_eq_false,
    Bool.false_eq_true, ↓reduceIte, evaluate, h1, h3, h4a, hn, hmin, hmax]

/-- C33 at the callback directive `listen` extended by one string argument
and the node `listen example.org`. -/
theorem C33_callback_with_args_rejects_witness :
    ∃ d0 H1 nc1 d,
      NodesContainer.DefineDirectiveCallback tlsSchema { Directives := [], Blocks := [] } 0
        "listen" (some noteHandler) = .ok (d0, H1, nc1) ∧
      d0.AddArgs [NewArgDef hostValue 0 []] = .ok d ∧
      d.minArgs = 1 ∧ d.maxArgs = 0 ∧
      d.Evaluate (leaf "listen" ["example.org"]) Cfg.zero =
        .ret (some "directive 'listen' expects a maximum of 0 arguments") Cfg.zero :=
  C33_callback_with_args_rejects tlsSchema { Directives := [], Blocks := [] } 0 "listen"
    noteHandler [NewArgDef hostValue 0 []] (leaf "listen" ["example.org"]) Cfg.zero
    (by simp)
    (by intro a ha; simp only [List.mem_singleton] at ha; subst ha; exact ⟨rfl, rfl⟩)
    rfl rfl rfl

/-- C34, evaluated at the failing input. Two optional arguments followed by an
optional variadic argument make, by `NewDirectiveDef` and by `NewBlockDef`, a
definition with `MinArgs` 0 and `MaxArgs` -1; a node with one argument passes
the arity checks, the variadic argument has index 2, and the binding loop
takes `node.Args[2:]` of a slice of length 1 and panics. -/
theorem C34_binding_slices_out_of_range :
    NewDirectiveDef "tag"
      [NewArgDef hostValue 0 [Optional], NewArgDef portValue 0 [Optional],
        NewVariadicArgDef tagsValue 0 [Optional]] = .ok optionalTagDef ∧
    NewBlockDef "tag"
      [NewArgDef hostValue 0 [Optional], NewArgDef portValue 0 [Optional],
        NewVariadicArgDef tagsValue 0 [Optional]] = .ok optionalTagBlock ∧
    optionalTagDef.minArgs = 0 ∧ optionalTagDef.maxArgs = -1 ∧
    optionalTagDef.Evaluate (leaf "tag" ["a"]) Cfg.zero =
      .panic "runtime error: slice bounds out of range [2:1]" ∧
    BlockDef.Evaluate tlsSchema optionalTagBlock (leaf "tag" ["a"]) Cfg.zero =
      .panic "runtime error: slice bounds out of range [2:1]" := by
  have hev : evaluate optionalTagDef.toCommonDef (leaf "tag" ["a"]) Cfg.zero =
      .panic "runtime error: slice bounds out of range [2:1]" := by
    rw [evaluate_accepted _ _ _ rfl (by decide) (Or.inl rfl)]
    rfl
  refine ⟨rfl, rfl, rfl, rfl, ?_, ?_⟩
  · unfold DirectiveDef.Evaluate
    rw [if_neg (by decide)]
    exact hev
  · have hblk : evaluate optionalTagBlock.toCommonDef (leaf "tag" ["a"]) Cfg.zero =
        .panic "runtime error: slice bounds out of range [2:1]" := hev
    rw [blockEvaluate_eq, hblk]

/-- C35. For every definition returned by one call of `NewDirectiveDef` or of
`NewBlockDef`, `MinArgs` is not negative and `MaxArgs` is -1 or at least
`MinArgs`; so a node of the name of the definition with `MinArgs` arguments
passes the name check and both arity checks, and `evaluate` goes on to the
binding. -/
theorem C35_bounds_consistent {σ : Type} (name : String) (args : List (ArgDef σ)) :
    (∀ d, NewDirectiveDef name args = .ok d →
      0 ≤ d.minArgs ∧ (d.maxArgs = -1 ∨ d.minArgs ≤ d.maxArgs) ∧
      ∀ (node : Node) (s : σ), node.Name = name → (node.Args.length : Int) = d.minArgs →
        evaluate d.toCommonDef node s
          = thenHandler d.toCommonDef node (bindArgs node.Args 0 d.args s)) ∧
    (∀ b, NewBlockDef name args = .ok b →
      0 ≤ b.minArgs ∧ (b.maxArgs = -1 ∨ b.minArgs ≤ b.maxArgs) ∧
      ∀ (node : Node) (s : σ), node.Name = name → (node.Args.length : Int) = b.minArgs →
        evaluate b.toCommonDef node s
          = thenHandler b.toCommonDef node (bindArgs node.Args 0 b.args s)) := by
  constructor
  · intro d hd
    obtain ⟨c, hc, rfl⟩ := map_eq_ok _ _ _ hd
    obtain ⟨h1, h2, h3⟩ := new_addArgs_bounds name args c hc
    exact ⟨h2, h3, fun node s hn hl =>
      evaluate_at_minArgs c node s h3 (by rw [hn, h1]) hl⟩
  · intro b hb
    obtain ⟨c, hc, rfl⟩ := map_eq_ok _ _ _ hb
    obtain ⟨h1, h2, h3⟩ := new_addArgs_bounds name args c hc
    exact ⟨h2, h3, fun node s hn hl =>
      evaluate_at_minArgs c node s h3 (by rw [hn, h1]) hl⟩

/-- C35 at a required argument followed by an optional one: the bounds are 1
and 2. -/
theorem C35_bounds_consistent_witness :
    ∃ d : DirectiveDef Cfg,
      NewDirectiveDef "listen" [NewArgDef hostValue 0 [], NewArgDef portValue 0 [Optional]]
        = .ok d ∧ d.minArgs = 1 ∧ d.maxArgs = 2 ∧
      0 ≤ d.minArgs ∧ (d.maxArgs = -1 ∨ d.minArgs ≤ d.maxArgs) :=
  ⟨_, rfl, rfl, rfl,
    ((C35_bounds_consistent "listen"
      [NewArgDef hostValue 0 [], NewArgDef portValue 0 [Optional]]).1 _ rfl).1,
    ((C35_bounds_consistent "listen"
      [NewArgDef hostValue 0 [], NewArgDef portValue 0 [Optional]]).1 _ rfl).2.1⟩

/-- C36. For every definition and every node that fails the name check or one
of the two arity checks, `evaluate` returns an error and leaves the state as
it was, and returns the same whatever the argument definitions and the
handler of the definition are: no target is written and the handler is not
called. `Evaluate` of a directive returns an error and leaves the state as it
was; `Evaluate` of a block and of a module block return that error and leave
the state as it was, whatever the container, the modules and the selector
are: no child node is evaluated. -/
theorem C36_checks_precede_effects {σ : Type} (H : Schema σ) (d : CommonDef σ) (node : Node)
    (s : σ)
    (hfail : node.Name ≠ d.name ∨ (node.Args.length : Int) < d.minArgs ∨
      (d.maxArgs ≠ -1 ∧ (node.Args.length : Int) > d.maxArgs)) :
    ∃ msg, evaluate d node s = .ret (some msg) s ∧
      (∀ (args : List (ArgDef σ)) (handler : Option (NodeHandler σ)),
        evaluate { d with args := args, handler := handler } node s = .ret (some msg) s) ∧
      (∃ msg1, (DirectiveDef.mk d).Evaluate node s = .ret (some msg1) s ∧
        (node.Children = [] → msg1 = msg)) ∧
      (∀ c : NodesContainer,
        BlockDef.Evaluate H { toCommonDef := d, toNodesContainer := c } node s
          = .ret (some msg) s) ∧
      (∀ (modules : String → Option NodesContainer) (moduleName : Option (StringRef σ)),
        ModuleBlockDef.Evaluate H
          { toCommonDef := d, modules := modules, moduleName := moduleName } node s
          = .ret (some msg) s) := by
  obtain ⟨msg, hev, hany⟩ := evaluate_rejected d node s hfail
  refine ⟨msg, hev, hany, ?_, ?_, ?_⟩
  · by_cases hch : node.Children = []
    · exact ⟨msg, by simp [DirectiveDef.Evaluate, hch, hev], fun _ => rfl⟩
    · have hlen : (node.Children.length != 0) = true := by
        simpa using hch
      refine ⟨NodeErr node ("node '" ++ node.Name ++ "' may not be a block"), ?_,
        fun h => absurd h hch⟩
      simp only [DirectiveDef.Evaluate, hlen, ↓reduceIte]
  · intro c
    rw [blockEvaluate_eq, hev]
  · intro modules moduleName
    simp only [ModuleBlockDef.Evaluate, hev]

/-- C36 at the directive `listen <host> [port]`, whose targets are `host` and
`port`: a node of another name, a node without arguments and a node with
three arguments leave the state as it was. -/
theorem C36_checks_precede_effects_witness :
    (∃ msg, evaluate listenDef.toCommonDef (leaf "server" ["a"]) Cfg.zero
      = .ret (some msg) Cfg.zero) ∧
    (∃ msg, evaluate listenDef.toCommonDef (leaf "listen" []) Cfg.zero
      = .ret (some msg) Cfg.zero) ∧
    (∃ msg, evaluate listenDef.toCommonDef (leaf "listen" ["a", "b", "c"]) Cfg.zero
      = .ret (some msg) Cfg.zero) := by
  refine ⟨?_, ?_, ?_⟩
  · obtain ⟨msg, h, -⟩ := C36_checks_precede_effects tlsSchema listenDef.toCommonDef
      (leaf "server" ["a"]) Cfg.zero (Or.inl (by decide))
    exact ⟨msg, h⟩
  · obtain ⟨msg, h, -⟩ := C36_checks_precede_effects tlsSchema listenDef.toCommonDef
      (leaf "listen" []) Cfg.zero (Or.inr (Or.inl (by decide)))
    exact ⟨msg, h⟩
  · obtain ⟨msg, h, -⟩ := C36_checks_precede_effects tlsSchema listenDef.toCommonDef
      (leaf "listen" ["a", "b", "c"]) Cfg.zero (Or.inr (Or.inr ⟨by decide, by decide⟩))
    exact ⟨msg, h⟩

/-- C37. For a definition with a handler and a node that passes the name and
arity checks, once the arguments are bound: `Evaluate` of a block is the
outcome of the handler unless the handler returns `nil`, and then it is
`EvaluateTree` of the children on the state the handler left; `Evaluate` of a
module block is the outcome of the handler unless the handler returns `nil`,
and then the selector is read in the state the handler left, the module is
looked up and the children are evaluated on that state. So the handler is
called after the binding and before the lookup and the children, and when it
returns an error (or panics) no child node is evaluated. -/
theorem C37_handler_before_children {σ : Type} (H : Schema σ) (d : CommonDef σ)
    (h : NodeHandler σ) (node : Node) (s s1 : σ) (e : Option String)
    (hh : d.handler = some h) (hname : node.Name = d.name)
    (hmin : d.minArgs ≤ (node.Args.length : Int))
    (hmax : d.maxArgs = -1 ∨ (node.Args.length : Int) ≤ d.maxArgs)
    (hbind : bindArgs node.Args 0 d.args s = .ret e s1) :
    (∀ c : NodesContainer,
      BlockDef.Evaluate H { toCommonDef := d, toNodesContainer := c } node s =
        match h node s1 with
        | .ret none s2 => c.EvaluateTree H node.Children s2
        | out => out) ∧
    (∀ (modules : String → Option NodesContainer) (p : StringRef σ),
      ModuleBlockDef.Evaluate H
          { toCommonDef := d, modules := modules, moduleName := some p } node s =
        match h node s1 with
        | .ret none s2 =>
          match modules (p.get s2) with
          | none => .ret (some (NodeErr node ("unknown module '" ++ p.get s2 ++ "'"))) s2
          | some m => m.EvaluateTree H node.Children s2
        | out => out) := by
  have hev : evaluate d node s = h node s1 := by
    rw [evaluate_accepted d node s hname hmin hmax, hbind]
    simp [thenHandler, hh]
  constructor
  · intro c
    rw [blockEvaluate_eq, hev]
  · intro modules p
    simp only [ModuleBlockDef.Evaluate, hev]

/-- C37 at the module block `auth <module>` with a handler that overwrites the
selector: the node names the module "ldap", which is not registered, the
handler puts "jwt" in its place before the lookup, and the child is evaluated
by the container of the module "jwt" after the handler. With the rejecting
handler the child is not evaluated. -/
theorem C37_handler_before_children_witness :
    ModuleBlockDef.Evaluate tlsSchema
        { authModule with handler := some selectHandler }
        { Name := "auth", Args := ["ldap"], Children := [leaf "tls" ["true"]],
          File := "", Line := 0 } Cfg.zero =
      .ret none { host := "jwt", port := "", tls := true, tags := [] } ∧
    BlockDef.Evaluate tlsSchema
        { toCommonDef := { authModule.toCommonDef with handler := some rejectHandler },
          Directives := [0], Blocks := [] }
        { Name := "auth", Args := ["jwt"], Children := [leaf "tls" ["true"]],
          File := "", Line := 0 } Cfg.zero =
      .ret (some "rejected: auth") { host := "jwt", port := "", tls := false, tags := [] } :=
  ⟨((C37_handler_before_children tlsSchema
      { authModule.toCommonDef with handler := some selectHandler } selectHandler
      { Name := "auth", Args := ["ldap"], Children := [leaf "tls" ["true"]],
        File := "", Line := 0 } Cfg.zero
      { host := "ldap", port := "", tls := false, tags := [] } none
      rfl rfl (by decide) (Or.inr (by decide)) rfl).2 authModule.modules hostRef).trans rfl,
   ((C37_handler_before_children tlsSchema
      { authModule.toCommonDef with handler := some rejectHandler } rejectHandler
      { Name := "auth", Args := ["jwt"], Children := [leaf "tls" ["true"]],
        File := "", Line := 0 } Cfg.zero
      { host := "jwt", port := "", tls := false, tags := [] } none
      rfl rfl (by decide) (Or.inr (by decide)) rfl).1
      { Directives := [0], Blocks := [] }).trans rfl⟩

/-- C38. For every accumulator, every state and every string on which the
element `Value` returns an error, `Set` returns that error and leaves the
state as it was: the slice has the same elements. The same holds for
`SetList` on that string alone. -/
theorem C38_accumulator_set_is_atomic {σ T : Type} (acc : Accumulator σ T) (x err : String)
    (e : T) (s : σ) (h : acc.element.Set x acc.zero = .ret (some err) e) :
    acc.Set x s = .ret (some err) s ∧
    (∀ s1, acc.Set x s = .ret (some err) s1 → acc.slice.get s1 = acc.slice.get s) ∧
    SetList acc.toValue [x] s = .ret (some err) s := by
  have hset : acc.Set x s = .ret (some err) s := by
    simp only [Accumulator.Set, h]
  refine ⟨hset, ?_, ?_⟩
  · intro s1 h1
    rw [hset] at h1
    simp only [Outcome.ret.injEq, true_and] at h1
    rw [h1]
  · simp only [SetList, Accumulator.toValue, hset]

/-- C38 at an accumulator of booleans that holds two elements, and the text
"maybe". -/
theorem C38_accumulator_set_is_atomic_witness :
    flagsAccumulator.Set "maybe" [true, false] =
      .ret (some "invalid boolean value: maybe") [true, false] :=
  (C38_accumulator_set_is_atomic flagsAccumulator "maybe" "invalid boolean value: maybe"
    false [true, false] rfl).1

/-- C39 as stated fails on its bound. The block `a`, marked repeatable, is
registered twice inside its own container, so every level has two
definitions. On the tree of a node `a` with one child `a`, `EvaluateTree`
returns `nil`; the two definitions evaluate the outer node, both walk its
child, and both definitions evaluate the child in each of the two walks: six
calls of `Evaluate`, for two nodes and two definitions per level. -/
theorem C39_counterexample :
    NodesContainer.EvaluateTree twiceSchema { Directives := [], Blocks := [0, 0] }
        [nest [nest []]] Cfg.zero = .ret none Cfg.zero ∧
    evalsNodes twiceSchema { Directives := [], Blocks := [0, 0] } [nest [nest []]] [] []
        Cfg.zero = 6 ∧
    nodesCount [nest [nest []]] = 2 ∧
    (twiceSchema.block 0).Directives.length + (twiceSchema.block 0).Blocks.length = 2 ∧
    ¬ (6 ≤ 2 * 2) :=
  ⟨rfl, rfl, rfl, rfl, by decide⟩

/-- C39, amended. `EvaluateTree` and `BlockDef.Evaluate` are defined by
recursion on the node tree alone, `BlockDef.Evaluate` and
`ModuleBlockDef.Evaluate` passing the children of the node on, for every
schema, a block registered inside its own container included. In a schema
all of whose containers hold at most `M` definitions, the number of calls of
`Evaluate` in the course of `EvaluateTree` is at most the bound of the list,
in which every node counts `M` times one more than its children; so is, up
to the call itself, the number for a module block. When moreover no
container holds two block definitions of the same name, the number is at
most `M` times the number of nodes. -/
theorem C39_walk_is_bounded {σ : Type} (H : Schema σ) (M : Nat) (nc : NodesContainer)
    (hH : ∀ p, (H.block p).Directives.length + (H.block p).Blocks.length ≤ M)
    (hnc : nc.Directives.length + nc.Blocks.length ≤ M) (nodes : List Node) (s : σ) :
    evalsNodes H nc nodes [] [] s ≤ nodesBound M nodes ∧
    (∀ (d : ModuleBlockDef σ) (node : Node),
      (∀ x m, d.modules x = some m → m.Directives.length + m.Blocks.length ≤ M) →
      evalsModule H d node s ≤ 1 + nodesBound M node.Children) ∧
    ((∀ p, LevelWithin M H (H.block p).toNodesContainer) → LevelWithin M H nc →
      evalsNodes H nc nodes [] [] s ≤ M * nodesCount nodes) :=
  ⟨evalsNodes_le_bound H M hH _ nodes (Nat.le_refl _) nc hnc [] [] s,
   fun d node hd => evalsModule_le_bound H M hH d hd node s,
   fun hL hncL => evalsNodes_le_linear H M hL _ nodes (Nat.le_refl _) nc hncL [] [] s⟩

/-- C39, amended, at a schema in which the block `a` is registered inside its
own container, next to the directive `tls`: the tree of a node `a` that holds
a node `tls` and a node `a` is walked with `nil` as a result, in at most two
calls of `Evaluate` for each of its three nodes. -/
theorem C39_walk_is_bounded_witness :
    NodesContainer.EvaluateTree selfSchema { Directives := [0], Blocks := [0] }
        [nest [leaf "tls" ["true"], nest []]] Cfg.zero =
      .ret none { host := "", port := "", tls := true, tags := [] } ∧
    evalsNodes selfSchema { Directives := [0], Blocks := [0] }
        [nest [leaf "tls" ["true"], nest []]] [] [] Cfg.zero
      ≤ 2 * nodesCount [nest [leaf "tls" ["true"], nest []]] ∧
    nodesCount [nest [leaf "tls" ["true"], nest []]] = 3 := by
  have hL : ∀ nc : NodesContainer, nc.Directives.length + nc.Blocks.length ≤ 2 →
      nc.Blocks.length ≤ 1 → LevelWithin 2 selfSchema nc := by
    intro nc h1 h2
    refine ⟨h1, fun x => Nat.le_trans (List.length_filter_le _ _) ?_⟩
    simpa using h2
  exact ⟨rfl,
    (C39_walk_is_bounded selfSchema 2 { Directives := [0], Blocks := [0] }
      (fun _ => Nat.le_refl 2) (Nat.le_refl 2) [nest [leaf "tls" ["true"], nest []]]
      Cfg.zero).2.2
      (fun _ => hL _ (Nat.le_refl 2) (Nat.le_refl 1)) (hL _ (Nat.le_refl 2) (Nat.le_refl 1)),
    rfl⟩


end Xaddy
